import Mathlib

/-!
prometheus-kafka-adapter: rule matching, label rewriting and the two
serialize pipelines.

A shallow embedding of `types.go` and `serializers.go`.

Conventions of the embedding

* Go strings are Lean strings; `strings.HasPrefix` is the prefix test on the
  character lists.
* A Go `map[string]T` is an association list with `mapGet`, `mapSet`,
  `mapDelete`; two maps are the same Go map when they agree on every `mapGet`.
  A nil map or nil slice is the empty list (reading, `len` and `range` do not
  tell them apart).
* A Go value reached through a pointer and mutated in place is passed in and
  returned (explicit state passing).  A pointer is never nil, except the
  compiled pattern fields `regex`, which are `Option`.
* A run-time panic is `Except.error` with the kind of panic.
* `int` is 64 bit.
* The `regexp` package is not part of the repository: a compiled pattern is a
  value of `Regexp` (its leftmost match as a function of the input) and
  `regexp.Compile` is a parameter `compile`.
-/

namespace KafkaAdapter

/-! ## Go runtime: panics and maps -/

/-- Kinds of run-time panic the modelled code can raise. -/
inductive Panic where
  | nilPointer
  | indexOutOfRange
  deriving DecidableEq, Repr

/-- Go `map[string]α` as an association list. -/
abbrev GoMap (α : Type) := List (String × α)

/-- Map read `m[k]` with the comma-ok result. -/
def mapGet {α : Type} : GoMap α → String → Option α
  | [], _ => none
  | (k, v) :: rest, key => if k = key then some v else mapGet rest key

/-- Map write `m[k] = v`. -/
def mapSet {α : Type} : GoMap α → String → α → GoMap α
  | [], key, val => [(key, val)]
  | (k, v) :: rest, key, val =>
    if k = key then (k, val) :: rest else (k, v) :: mapSet rest key val

/-- Builtin `delete(m, k)`. -/
def mapDelete {α : Type} (m : GoMap α) (key : String) : GoMap α :=
  m.filter (fun kv => !decide (kv.1 = key))

/-- The keys of a map. -/
def mapKeys {α : Type} (m : GoMap α) : List String := m.map Prod.fst

/-- Library `strings.HasPrefix(s, pre)`. -/
def HasPrefix (s pre : String) : Bool := pre.data.isPrefixOf s.data

/-! ## The regexp package (external) -/

/-- A compiled pattern `*regexp.Regexp`: the names of its capture groups
1..n (empty for an unnamed group) and its leftmost match on an input, as the
matched text and the texts of the groups 1..n. -/
structure Regexp where
  groupNames : List String
  exec : String → Option (String × List String)

/-- Library `SubexpNames()`: index 0 is always the empty string. -/
def Regexp.SubexpNames (re : Regexp) : List String := "" :: re.groupNames

/-- One text per capture group: a group without text gives the empty string. -/
def fitGroups : List String → List String → List String
  | [], _ => []
  | _ :: names, gs => gs.headD "" :: fitGroups names gs.tail

/-- Library `FindStringSubmatch(s)`: nil (the empty list) when there is no
match, else the matched text followed by one text per capture group. -/
def Regexp.FindStringSubmatch (re : Regexp) (s : String) : List String :=
  match re.exec s with
  | none => []
  | some (whole, gs) => whole :: fitGroups re.groupNames gs

/-- Library `MatchString(s)`: whether the pattern has a match in `s`. -/
def Regexp.MatchString (re : Regexp) (s : String) : Bool := (re.exec s).isSome

/-- Source `type RegexHandler struct { *regexp.Regexp }`. -/
structure RegexHandler where
  Regexp : KafkaAdapter.Regexp

/-- First index at which `name` occurs in `names`, counting from `i`. -/
def indexOfName (name : String) : List String → Nat → Option Nat
  | [], _ => none
  | n :: rest, i => if n = name then some i else indexOfName name rest (i + 1)

/-- Source `RegexHandler.StrResultGroupByName`: the text `res[i]` of the first
group called `name`; `res[i]` panics when `i` is out of range. -/
def RegexHandler.StrResultGroupByName (r : RegexHandler) (res : List String)
    (name : String) : Except Panic (Bool × String) :=
  if res.length > 0 then
    match indexOfName name r.Regexp.SubexpNames 0 with
    | some i =>
      match res.get? i with
      | some x => .ok (true, x)
      | none => .error .indexOutOfRange
    | none => .ok (false, "")
  else .ok (false, "")

/-- Source `RegexHandler.MathGroupByName`. -/
def RegexHandler.MathGroupByName (r : RegexHandler) (str name : String) :
    Except Panic (Bool × String) :=
  r.StrResultGroupByName (r.Regexp.FindStringSubmatch str) name

/-! ## Selectors -/

def SelectEQ : String := "eq"
def SelectStartWith : String := "start_with"
def SelectRegex : String := "regex"

/-- Source `MetricNameSelector`; `regex` is nil until `Init` stores a pattern. -/
structure MetricNameSelector where
  Method : String
  Value : String
  regex : Option Regexp := none

/-- Source `MetricNameSelector.Init` (pointer receiver): the selector after
the call and the returned error. -/
def MetricNameSelector.Init (compile : String → Except String Regexp)
    (s : MetricNameSelector) : MetricNameSelector × Option String :=
  if s.Method = SelectRegex then
    match compile s.Value with
    | .error err => (s, some err)
    | .ok regex => ({ s with regex := some regex }, none)
  else (s, none)

/-- Source `MetricNameSelector.Match`; `s.regex.MatchString` on a nil
pattern is a nil pointer dereference. -/
def MetricNameSelector.Match (s : MetricNameSelector) (name : String) :
    Except Panic Bool :=
  if s.Method = SelectEQ then
    .ok (decide (name = s.Value))
  else if s.Method = SelectStartWith then
    .ok (HasPrefix name s.Value)
  else if s.Method = SelectRegex then
    match s.regex with
    | none => .error .nilPointer
    | some re => .ok (re.MatchString name)
  else .ok false

/-! ## Field patterns (`Label`) and their cached classification -/

inductive LabelType where
  | LabelIsLabel
  | LabelIsRegexGroupName
  | LabelIsRegexGroupIndex
  | LabelIsCustom
  deriving DecidableEq, Repr

inductive ValueType where
  | ValueIsValue
  | ValueIsRegexGroupName
  | ValueIsRegxGroupIndex
  | ValueIsCustom
  deriving DecidableEq, Repr

/-- Class `\d` of the regexp package: an ASCII digit. -/
def isDigit (c : Char) : Bool := decide ('0' ≤ c) && decide (c ≤ '9')

/-- Class `\w` of the regexp package: `[0-9A-Za-z_]`. -/
def isWordChar (c : Char) : Bool :=
  isDigit c || (decide ('a' ≤ c) && decide (c ≤ 'z')) ||
    (decide ('A' ≤ c) && decide (c ≤ 'Z')) || decide (c = '_')

/-- Leftmost match of the pattern `\$(?P<number>\d+$)`: the text of the group
`number` (the first `$` that is followed by digits only, up to the end of the
text). -/
def execGroupByNumber : List Char → Option (List Char)
  | [] => none
  | c :: rest =>
    if c = '$' ∧ rest ≠ [] ∧ rest.all isDigit = true then some rest
    else execGroupByNumber rest

/-- Leftmost match of the pattern `\$(?P<name>[^0-9]\w+)`: the text of the
group `name` (after the first `$` that is followed by a non-digit character
and a word character: that character and the longest run of word characters
after it). -/
def execGroupByName : List Char → Option (List Char)
  | [] => none
  | c :: rest =>
    match rest with
    | c1 :: c2 :: tail =>
      if c = '$' ∧ isDigit c1 = false ∧ isWordChar c2 = true then
        some (c1 :: c2 :: tail.takeWhile isWordChar)
      else execGroupByName rest
    | _ => execGroupByName rest

/-- Source `RegexGroupByNumber`, compiled from `\$(?P<number>\d+$)`. -/
def RegexGroupByNumber : RegexHandler :=
  ⟨{ groupNames := ["number"],
     exec := fun s => (execGroupByNumber s.data).map
       (fun ds => (String.mk ('$' :: ds), [String.mk ds])) }⟩

/-- Source `RegexGroupByName`, compiled from `\$(?P<name>[^0-9]\w+)`. -/
def RegexGroupByName : RegexHandler :=
  ⟨{ groupNames := ["name"],
     exec := fun s => (execGroupByName s.data).map
       (fun cs => (String.mk ('$' :: cs), [String.mk cs])) }⟩

/-- Value of a list of decimal digits. -/
def digitsValue (ds : List Char) : Nat :=
  ds.foldl (fun acc c => acc * 10 + (c.toNat - 48)) 0

def maxInt64 : Int := 9223372036854775807
def minInt64 : Int := -9223372036854775808

/-- Library `strconv.ParseInt(s, 10, 64)`: the value and whether an error is
returned.  A syntax error gives 0; a value out of range gives the nearest
64-bit bound together with the range error. -/
def ParseInt (s : String) : Int × Bool :=
  let body (neg : Bool) (ds : List Char) : Int × Bool :=
    if ds = [] ∨ ds.all isDigit = false then (0, true)
    else
      let n : Int := digitsValue ds
      if neg then (if -n < minInt64 then (minInt64, true) else (-n, false))
      else (if n > maxInt64 then (maxInt64, true) else (n, false))
  match s.data with
  | '+' :: ds => body false ds
  | '-' :: ds => body true ds
  | ds => body false ds

/-- Source `Label`: the two patterns and the private cache fields, which
start at their zero values. -/
structure Label where
  Name : String
  Value : String
  nameAsStr : String := ""
  nameAsIndex : Int := 0
  valueAsStr : String := ""
  valueAsIndex : Int := 0
  _name : Bool := false
  _value : Bool := false
  _reloadName : Bool := false
  _reloadValue : Bool := false
  nameType : LabelType := .LabelIsLabel
  valueType : ValueType := .ValueIsValue

/-- Source `Label.GetValueType` (pointer receiver): the result and the label
after the call. -/
def Label.GetValueType (l : Label) : Except Panic (ValueType × Label) :=
  if !l._reloadValue && l._value then .ok (l.valueType, l)
  else
    let l := { l with _value := true, _reloadValue := false }
    let custom : Except Panic (ValueType × Label) :=
      .ok (.ValueIsCustom, { l with valueType := .ValueIsCustom, valueAsStr := l.Value })
    if l.Value = "__value__" then
      .ok (.ValueIsValue, { l with valueType := .ValueIsValue })
    else if HasPrefix l.Value "$" then
      match RegexGroupByNumber.MathGroupByName l.Value "number" with
      | .error p => .error p
      | .ok (true, number) =>
        .ok (.ValueIsRegxGroupIndex,
          { l with valueAsIndex := (ParseInt number).1, valueType := .ValueIsRegxGroupIndex })
      | .ok (false, _) =>
        match RegexGroupByName.MathGroupByName l.Value "name" with
        | .error p => .error p
        | .ok (true, name) =>
          .ok (.ValueIsRegexGroupName,
            { l with valueAsStr := name, valueType := .ValueIsRegexGroupName })
        | .ok (false, _) => custom
    else custom

/-- Source `Label.GetLabelType` (pointer receiver). -/
def Label.GetLabelType (l : Label) : Except Panic (LabelType × Label) :=
  if !l._reloadName && l._name then .ok (l.nameType, l)
  else
    let l := { l with _reloadName := false, _name := true }
    let custom : Except Panic (LabelType × Label) :=
      .ok (.LabelIsCustom, { l with nameAsStr := l.Name, nameType := .LabelIsCustom })
    if l.Name = "__name__" then
      .ok (.LabelIsLabel, { l with nameType := .LabelIsLabel })
    else if HasPrefix l.Name "$" then
      match RegexGroupByNumber.MathGroupByName l.Name "number" with
      | .error p => .error p
      | .ok (true, number) =>
        .ok (.LabelIsRegexGroupIndex,
          { l with nameAsIndex := (ParseInt number).1, nameType := .LabelIsRegexGroupIndex })
      | .ok (false, _) =>
        match RegexGroupByName.MathGroupByName l.Name "name" with
        | .error p => .error p
        | .ok (true, name) =>
          .ok (.LabelIsRegexGroupName,
            { l with nameAsStr := name, nameType := .LabelIsRegexGroupName })
        | .ok (false, _) => custom
    else custom

/-- Source `Label.GetName`. -/
def Label.GetName (l : Label) : Except Panic (String × Label) :=
  if !l._name then
    match l.GetLabelType with
    | .error p => .error p
    | .ok (_, l1) => .ok (l1.nameAsStr, l1)
  else .ok (l.nameAsStr, l)

/-- Source `Label.GetNameIndex`. -/
def Label.GetNameIndex (l : Label) : Except Panic (Int × Label) :=
  let ret (l : Label) : Int :=
    if l.nameType = .LabelIsRegexGroupIndex then l.nameAsIndex else -1
  if !l._name then
    match l.GetLabelType with
    | .error p => .error p
    | .ok (_, l1) => .ok (ret l1, l1)
  else .ok (ret l, l)

/-- Source `Label.GetValue`. -/
def Label.GetValue (l : Label) : Except Panic (String × Label) :=
  if !l._value then
    match l.GetValueType with
    | .error p => .error p
    | .ok (_, l1) => .ok (l1.valueAsStr, l1)
  else .ok (l.valueAsStr, l)

/-- Source `Label.GetValueIndex`; the guard reads `_name`, as in the source. -/
def Label.GetValueIndex (l : Label) : Except Panic (Int × Label) :=
  let ret (l : Label) : Int :=
    if l.valueType = .ValueIsRegxGroupIndex then l.valueAsIndex else -1
  if !l._name then
    match l.GetValueType with
    | .error p => .error p
    | .ok (_, l1) => .ok (ret l1, l1)
  else .ok (ret l, l)

/-- Source `Label.Reload`. -/
def Label.Reload (l : Label) : Label :=
  { l with _reloadName := true, _reloadValue := true }

/-! ## Label rewriters -/

/-- Source `LabelRewriter`; `regex` is nil until `Init` stores the handler. -/
structure LabelRewriter where
  Name : String
  Overwrite : Bool
  Regex : String
  Labels : List Label
  regex : Option RegexHandler := none

/-- Source `LabelRewriter.Init` (pointer receiver): the rewriter after the
call and the returned error. -/
def LabelRewriter.Init (compile : String → Except String Regexp)
    (l : LabelRewriter) : LabelRewriter × Option String :=
  match compile l.Regex with
  | .error err => (l, some err)
  | .ok regex => ({ l with regex := some ⟨regex⟩ }, none)

/-- Source `GenNewLabels`, the cases of the first `switch` of the loop body,
`t` being the value of `label.GetLabelType()`: the resolved name of the
output label. -/
def LabelRewriter.GenNewLabels.nameCase (regex : RegexHandler) (key : String)
    (m : List String) (t : LabelType) (label : Label) : Except Panic (String × Label) :=
  match t with
  | .LabelIsLabel => pure (key, label)
  | .LabelIsRegexGroupName => do
    let (n, label) ← label.GetName
    let (_, _name) ← regex.StrResultGroupByName m n
    pure (_name, label)
  | .LabelIsRegexGroupIndex => do
    let (idx, label) ← label.GetNameIndex
    if idx > -1 ∧ idx < (m.length : Int) then pure (m.getD idx.toNat "", label)
    else pure ("", label)
  | .LabelIsCustom => do
    let (n, label) ← label.GetName
    pure (n, label)

/-- Source `GenNewLabels`, first `switch` of the loop body. -/
def LabelRewriter.GenNewLabels.name (regex : RegexHandler) (key : String)
    (m : List String) (label : Label) : Except Panic (String × Label) := do
  let (t, label) ← label.GetLabelType
  GenNewLabels.nameCase regex key m t label

/-- Source `GenNewLabels`, the cases of the second `switch` of the loop body,
`t` being the value of `label.GetValueType()`: the resolved value of the
output label. -/
def LabelRewriter.GenNewLabels.valueCase (regex : RegexHandler) (value : String)
    (m : List String) (t : ValueType) (label : Label) : Except Panic (String × Label) :=
  match t with
  | .ValueIsValue => pure (value, label)
  | .ValueIsRegexGroupName => do
    let (n, label) ← label.GetValue
    let (_, _value) ← regex.StrResultGroupByName m n
    pure (_value, label)
  | .ValueIsRegxGroupIndex => do
    let (idx, label) ← label.GetValueIndex
    if idx > -1 ∧ idx < (m.length : Int) then pure (m.getD idx.toNat "", label)
    else pure ("", label)
  | .ValueIsCustom => do
    let (n, label) ← label.GetValue
    pure (n, label)

/-- Source `GenNewLabels`, second `switch` of the loop body. -/
def LabelRewriter.GenNewLabels.value (regex : RegexHandler) (value : String)
    (m : List String) (label : Label) : Except Panic (String × Label) := do
  let (t, label) ← label.GetValueType
  GenNewLabels.valueCase regex value m t label

/-- Source `GenNewLabels`, the loop over `l.Labels`: the map built so far and
the labels after their accessors ran. -/
def LabelRewriter.GenNewLabels.loop (regex : RegexHandler) (key value : String)
    (m : List String) : List Label → GoMap String →
    Except Panic (GoMap String × List Label)
  | [], labels => pure (labels, [])
  | label :: rest, labels =>
    if label.Name = "" then do
      let (labels, rest) ← loop regex key value m rest labels
      pure (labels, label :: rest)
    else do
      let (_name, label) ← GenNewLabels.name regex key m label
      let (_value, label) ← GenNewLabels.value regex value m label
      let (labels, rest) ← loop regex key value m rest (mapSet labels _name _value)
      pure (labels, label :: rest)

/-- Source `LabelRewriter.GenNewLabels` (pointer receiver): the new labels and
the rewriter after the call.  A nil `l.regex` is a nil pointer dereference. -/
def LabelRewriter.GenNewLabels (l : LabelRewriter) (key value : String) :
    Except Panic (GoMap String × LabelRewriter) :=
  if key ≠ l.Name then pure ([], l)
  else if l.Labels.length = 0 then pure ([], l)
  else
    match l.regex with
    | none => .error .nilPointer
    | some regex =>
      let m := regex.Regexp.FindStringSubmatch value
      if m.length = 0 then pure ([], l)
      else do
        let (labels, ls) ← GenNewLabels.loop regex key value m l.Labels []
        pure (labels, { l with Labels := ls })

/-! ## Rules -/

/-- Source `Rule`.  The private map `labelRewriter` holds the rewriter objects
themselves: the slice `LabelRewriter` is not read again after `Init`. -/
structure Rule where
  Topic : String
  Selectors : List MetricNameSelector
  LabelRewriter : List KafkaAdapter.LabelRewriter
  Org : Int
  Token : String
  DeleteLabels : GoMap Bool
  labelRewriter : GoMap KafkaAdapter.LabelRewriter := []

/-- Source `Rule.Selected`, the loop over `r.Selectors`. -/
def Rule.Selected.loop (name : String) : List MetricNameSelector → Except Panic Bool
  | [] => pure false
  | selector :: rest => do
    if (← selector.Match name) then pure true
    else loop name rest

/-- Source `Rule.Selected`. -/
def Rule.Selected (r : Rule) (name : String) : Except Panic Bool :=
  Rule.Selected.loop name r.Selectors

/-- Source `RewriteLabel`, the inner loop
`for _key, _value := range newLabels { labels[_key] = _value }`. -/
def mergeLabels (newLabels labels : GoMap String) : GoMap String :=
  newLabels.foldl (fun acc kv => mapSet acc kv.1 kv.2) labels

/-- Source `Rule.RewriteLabel`, the body of the loop for the entry `key`
(whose value is read when the entry is reached; an entry that is no longer in
the map is not produced). -/
def Rule.RewriteLabel.body (r : Rule) (labels : GoMap String) (key : String) :
    Except Panic (Rule × GoMap String) :=
  match mapGet labels key with
  | none => pure (r, labels)
  | some value =>
    match mapGet r.labelRewriter key with
    | none => pure (r, labels)
    | some rewriter => do
      let (newLabels, rewriter1) ← rewriter.GenNewLabels key value
      let r1 := { r with labelRewriter := mapSet r.labelRewriter key rewriter1 }
      let labels1 :=
        if newLabels.length > 0 ∧ rewriter.Overwrite = true then mapDelete labels key
        else labels
      pure (r1, mergeLabels newLabels labels1)

/-- Source `Rule.RewriteLabel`.  Go does not specify the order in which
`range` produces the entries of a map, and an entry created during the loop
may be produced or skipped: `order` is the sequence of keys the loop reaches,
chosen by the runtime. -/
def Rule.RewriteLabel (r : Rule) : List String → GoMap String →
    Except Panic (Rule × GoMap String)
  | [], labels => pure (r, labels)
  | key :: order, labels => do
    let (r1, labels1) ← Rule.RewriteLabel.body r labels key
    Rule.RewriteLabel r1 order labels1

/-- Error returned by `Rule.Init`: which loop failed, at which index, and the
error of the regexp package. -/
inductive InitError where
  | rewriter (idx : Nat) (name : String) (err : String)
  | selector (idx : Nat) (method : String) (err : String)
  deriving DecidableEq, Repr

/-- Source `Rule.Init`, first loop: every rewriter is initialised through its
pointer and registered under its name. -/
def Rule.Init.rewriters (compile : String → Except String Regexp) :
    Nat → List KafkaAdapter.LabelRewriter → GoMap KafkaAdapter.LabelRewriter →
    List KafkaAdapter.LabelRewriter × GoMap KafkaAdapter.LabelRewriter × Option InitError
  | _, [], m => ([], m, none)
  | idx, rewriter :: rest, m =>
    match rewriter.Init compile with
    | (rewriter1, some err) => (rewriter1 :: rest, m, some (.rewriter idx rewriter.Name err))
    | (rewriter1, none) =>
      let (rest1, m1, e) := rewriters compile (idx + 1) rest (mapSet m rewriter1.Name rewriter1)
      (rewriter1 :: rest1, m1, e)

/-- Source `Rule.Init`, second loop.  `Selectors` is a slice of structs and
`range` hands the body a copy of each element: `Init` stores the compiled
pattern in the copy, which is dropped at the end of the iteration, so only
the error comes out of the loop. -/
def Rule.Init.selectors (compile : String → Except String Regexp) :
    Nat → List MetricNameSelector → Option InitError
  | _, [] => none
  | idx, selector :: rest =>
    match selector.Init compile with
    | (selector1, some err) => some (.selector idx selector1.Method err)
    | (_, none) => selectors compile (idx + 1) rest

/-- Source `Rule.Init` (pointer receiver): the rule after the call and the
returned error. -/
def Rule.Init (compile : String → Except String Regexp) (r : Rule) :
    Rule × Option InitError :=
  match Rule.Init.rewriters compile 0 r.LabelRewriter [] with
  | (rewriters, m, some err) =>
    ({ r with LabelRewriter := rewriters, labelRewriter := m }, some err)
  | (rewriters, m, none) =>
    let r1 := { r with LabelRewriter := rewriters, labelRewriter := m }
    (r1, Rule.Init.selectors compile 0 r1.Selectors)

/-- Source `EasyOpsConfig`. -/
structure EasyOpsConfig where
  DefaultORG : Int
  Rules : List Rule

/-- Source `EasyOpsConfig.Init`, the loop over the rules. -/
def EasyOpsConfig.Init.loop (compile : String → Except String Regexp) :
    List Rule → List Rule × Option InitError
  | [] => ([], none)
  | rule :: rest =>
    match rule.Init compile with
    | (rule1, some err) => (rule1 :: rest, some err)
    | (rule1, none) =>
      let (rest1, e) := loop compile rest
      (rule1 :: rest1, e)

/-- Source `EasyOpsConfig.Init`. -/
def EasyOpsConfig.Init (compile : String → Except String Regexp)
    (e : EasyOpsConfig) : EasyOpsConfig × Option InitError :=
  let (rules, err) := EasyOpsConfig.Init.loop compile e.Rules
  ({ e with Rules := rules }, err)

/-- Source `EasyOpsConfig.Select`, the loop over the rules, `idx` being the
position of the first rule of the list in `e.Rules`. -/
def EasyOpsConfig.Select.loop (name : String) :
    Nat → List Rule → Except Panic (Bool × Option (Nat × Rule))
  | _, [] => pure (false, none)
  | idx, rule :: rest => do
    if (← rule.Selected name) then pure (true, some (idx, rule))
    else loop name (idx + 1) rest

/-- Source `EasyOpsConfig.Select`.  The returned `*Rule` is the position of
the rule in `e.Rules` together with the rule found there.  A nil `Rules` is
the empty list, for which the loop gives the same `(false, nil)` as the
guard. -/
def EasyOpsConfig.Select (e : EasyOpsConfig) (name : String) :
    Except Panic (Bool × Option (Nat × Rule)) :=
  if e.Rules.isEmpty then pure (false, none)
  else EasyOpsConfig.Select.loop name 0 e.Rules

/-! ## The pipelines (`serializers.go`) -/

/-- A `float64`, as its IEEE-754 bit pattern; the pipelines only pass it on. -/
abbrev Float64 := Nat

/-- A byte slice; nil is the empty list. -/
abbrev Bytes := List Nat

/-- External `prompb.Label`. -/
structure PromLabel where
  Name : String
  Value : String

/-- External `prompb.Sample`. -/
structure Sample where
  Value : Float64
  Timestamp : Int

/-- External `prompb.TimeSeries`. -/
structure TimeSeries where
  Labels : List PromLabel
  Samples : List Sample

/-- External `prompb.WriteRequest`. -/
structure WriteRequest where
  Timeseries : List TimeSeries

/-- The two records (`map[string]interface{}`) the pipelines hand to
`Marshal`: the one of `SerializeToEasyOps`
(`source.key`, `source.org`, `dims`, the single entry of `vals`, `time`) and
the one of `Serialize` (`timestamp`, `value`, `name`, `labels`). -/
inductive Record where
  | easyops (key : String) (org : Int) (dims : GoMap String) (name : String)
      (value : Float64) (time : Int)
  | plain (timestamp : String) (value : String) (name : String) (labels : GoMap String)
  deriving DecidableEq, Repr

/-- Source `Serializer`: `Marshal` returns the data and the error. -/
structure Serializer where
  Marshal : Record → Bytes × Option String

/-- The process-wide counters `promBatches`, `objectsFiltered`,
`serializeFailed`, `serializeTotal` (declared outside `src/`); `Add(1)` is
`+ 1`. -/
structure Counters where
  promBatches : Nat := 0
  objectsFiltered : Nat := 0
  serializeFailed : Nat := 0
  serializeTotal : Nat := 0
  deriving DecidableEq, Repr

/-- What a pipeline run changes besides the rule set: the counters, the
result under construction, and (a ghost field) the records passed to
`Marshal` so far, in call order. -/
structure RunState where
  counters : Counters := {}
  result : GoMap (List Bytes) := []
  marshalled : List Record := []

/-- Source `result[t] = append(result[t], data)`. -/
def appendPayload (result : GoMap (List Bytes)) (t : String) (data : Bytes) :
    GoMap (List Bytes) :=
  mapSet result t (((mapGet result t).getD []) ++ [data])

/-- Source: the tail of both sample loops, from `s.Marshal(m)` to the append
to the bucket of `t`. -/
def marshalAndAppend (s : Serializer) (st : RunState) (t : String) (m : Record) :
    RunState :=
  let (data, err) := s.Marshal m
  let c := st.counters
  let c1 := if err.isSome then { c with serializeFailed := c.serializeFailed + 1 } else c
  let c2 := { c1 with serializeTotal := c1.serializeTotal + 1 }
  { counters := c2, result := appendPayload st.result t data,
    marshalled := st.marshalled ++ [m] }

/-- Source `SerializeToEasyOps`, the loop over `ts.Samples`.  A `rule` that is
nil while `selected` holds is a nil pointer dereference. -/
def SerializeToEasyOps.samples (s : Serializer) (DefaultORG : Int) (selected : Bool)
    (rule : Option Rule) (name : String) (labels : GoMap String) :
    List Sample → RunState → Except Panic RunState
  | [], st => pure st
  | sample :: rest, st =>
    if !selected then
      samples s DefaultORG selected rule name labels rest
        { st with counters :=
            { st.counters with objectsFiltered := st.counters.objectsFiltered + 1 } }
    else
      match rule with
      | none => .error .nilPointer
      | some rule =>
        let org := if rule.Org = 0 then DefaultORG else rule.Org
        let m := Record.easyops rule.Token org labels name sample.Value sample.Timestamp
        samples s DefaultORG selected (some rule) name labels rest
          (marshalAndAppend s st rule.Topic m)

/-- Source `SerializeToEasyOps`, the label map of a timeseries. -/
def buildLabels (ls : List PromLabel) : GoMap String :=
  ls.foldl (fun m l => mapSet m l.Name l.Value) []

/-- Source `SerializeToEasyOps`, the delete step: `keys` starts as
`make([]string, 1)`, a slice holding one empty string, and receives every key
of `labels` found in `DeleteLabels`; then every element of `keys` is deleted. -/
def deleteLabels (DeleteLabels : GoMap Bool) (labels : GoMap String) : GoMap String :=
  if DeleteLabels.length = 0 then labels
  else
    let keys := [""] ++ (mapKeys labels).filter (fun key => (mapGet DeleteLabels key).isSome)
    keys.foldl mapDelete labels

/-- Source `SerializeToEasyOps`, the body of the loop over `req.Timeseries`
for the timeseries at position `i`; `order i` is the sequence of keys the
`range` of `RewriteLabel` reaches in this iteration.  The rule is mutated
through the pointer `Select` returned, so it is written back at its position
in the rule set. -/
def SerializeToEasyOps.timeseries (s : Serializer) (order : List String)
    (eoc : EasyOpsConfig) (st : RunState) (ts : TimeSeries) :
    Except Panic (EasyOpsConfig × RunState) := do
  let labels := buildLabels ts.Labels
  let name := (mapGet labels "__name__").getD ""
  let (selected, rule) ← eoc.Select name
  if selected then
    match rule with
    | none => .error .nilPointer
    | some (idx, rule) =>
      let (rule1, labels1) ← rule.RewriteLabel order labels
      let eoc1 := { eoc with Rules := eoc.Rules.set idx rule1 }
      let labels2 := deleteLabels rule1.DeleteLabels labels1
      let st1 ← SerializeToEasyOps.samples s eoc1.DefaultORG selected (some rule1) name
        labels2 ts.Samples st
      pure (eoc1, st1)
  else do
    let st1 ← SerializeToEasyOps.samples s eoc.DefaultORG selected (rule.map Prod.snd) name
      labels ts.Samples st
    pure (eoc, st1)

/-- Source `SerializeToEasyOps`, the loop over `req.Timeseries`, `i` being the
position of the first timeseries of the list. -/
def SerializeToEasyOps.loop (s : Serializer) (order : Nat → List String) :
    Nat → List TimeSeries → EasyOpsConfig → RunState →
    Except Panic (EasyOpsConfig × RunState)
  | _, [], eoc, st => pure (eoc, st)
  | i, ts :: rest, eoc, st => do
    let (eoc1, st1) ← SerializeToEasyOps.timeseries s (order i) eoc st ts
    loop s order (i + 1) rest eoc1 st1

/-- Source `SerializeToEasyOps`: from the global rule set `eoc` and the
counters, the rule set and counters after the call and the returned result
(in `RunState.result`, built from an empty map); the returned error is always
nil.  `order i` is the key sequence of the `range` in `RewriteLabel` for the
timeseries at position `i`. -/
def SerializeToEasyOps (s : Serializer) (order : Nat → List String)
    (eoc : EasyOpsConfig) (counters : Counters) (req : WriteRequest) :
    Except Panic (EasyOpsConfig × RunState) :=
  SerializeToEasyOps.loop s order 0 req.Timeseries eoc
    { counters := { counters with promBatches := counters.promBatches + 1 } }

/-- External `dto.LabelPair`, with its getters `GetName` and `GetValue`. -/
structure LabelPair where
  GetName : String
  GetValue : String

/-- External `dto.Metric`. -/
structure Metric where
  Label : List LabelPair

/-- External `dto.MetricFamily`. -/
structure MetricFamily where
  Metric : List KafkaAdapter.Metric

/-- What `Serialize` reads from outside `src/`: the global match table
`match`, the execution of the global `topicTemplate` on a label map (the text
written, or an error), and the two formatting calls
`time.Unix(sec, 0).UTC().Format(time.RFC3339)` and
`strconv.FormatFloat(v, 'f', -1, 64)`. -/
structure Globals where
  matchTable : GoMap MetricFamily
  topicTemplate : GoMap String → Except String String
  formatUnix : Int → String
  formatFloat : Float64 → String

/-- Source `topic`. -/
def topic (g : Globals) (labels : GoMap String) : String :=
  match g.topicTemplate labels with
  | .error _ => ""
  | .ok text => text

/-- Source `filter`, the inner loop over `m.Label`: the final `labelMatch`. -/
def filter.labelMatch (labels : GoMap String) : List LabelPair → Bool
  | [] => true
  | label :: rest =>
    match mapGet labels label.GetName with
    | none => false
    | some val => if val ≠ label.GetValue then false else labelMatch labels rest

/-- Source `filter`, the loop over `mf.Metric`. -/
def filter.metrics (labels : GoMap String) : List KafkaAdapter.Metric → Bool
  | [] => false
  | m :: rest =>
    if m.Label.length = 0 then true
    else if filter.labelMatch labels m.Label then true
    else metrics labels rest

/-- Source `filter`. -/
def filter (g : Globals) (name : String) (labels : GoMap String) : Bool :=
  if g.matchTable.length = 0 then true
  else
    match mapGet g.matchTable name with
    | none => false
    | some mf => filter.metrics labels mf.Metric

/-- Source `Serialize`, the loop over `ts.Samples`. -/
def Serialize.samples (s : Serializer) (g : Globals) (labels : GoMap String)
    (t : String) : List Sample → RunState → RunState
  | [], st => st
  | sample :: rest, st =>
    let name := (mapGet labels "__name__").getD ""
    if !filter g name labels then
      samples s g labels t rest
        { st with counters :=
            { st.counters with objectsFiltered := st.counters.objectsFiltered + 1 } }
    else
      let m := Record.plain (g.formatUnix (sample.Timestamp.tdiv 1000))
        (g.formatFloat sample.Value) name labels
      samples s g labels t rest (marshalAndAppend s st t m)

/-- Source `Serialize`, the loop over `req.Timeseries`. -/
def Serialize.loop (s : Serializer) (g : Globals) : List TimeSeries → RunState → RunState
  | [], st => st
  | ts :: rest, st =>
    let labels := buildLabels ts.Labels
    let t := topic g labels
    loop s g rest (Serialize.samples s g labels t ts.Samples st)

/-- Source `Serialize`: the counters after the call and the returned result
(in `RunState.result`); the returned error is always nil. -/
def Serialize (s : Serializer) (g : Globals) (counters : Counters)
    (req : WriteRequest) : RunState :=
  Serialize.loop s g req.Timeseries
    { counters := { counters with promBatches := counters.promBatches + 1 } }

/-- Number of payloads in a result, over all topic buckets. -/
def payloadCount (result : GoMap (List Bytes)) : Nat :=
  (result.map (fun kv => kv.2.length)).sum

/-! ## The rewriting as a function of the patterns

Derived from the source functions above: the classification `GetLabelType` and
`GetValueType` compute when the cache is not used, the rewriter functions with
the caches left out, and the shape of the label set during `RewriteLabel`.
The properties section proves that the source functions agree with them. -/

/-- The four ways a pattern is read. -/
inductive FieldClass where
  | identity
  | index (n : Int)
  | named (name : String)
  | literal (text : String)
  deriving DecidableEq, Repr

/-- The classification `GetLabelType` (with sentinel `__name__`) and
`GetValueType` (with sentinel `__value__`) compute for the pattern `p`. -/
def classify (sentinel p : String) : FieldClass :=
  if p = sentinel then .identity
  else if HasPrefix p "$" then
    match execGroupByNumber p.data with
    | some ds => .index (ParseInt (String.mk ds)).1
    | none =>
      match execGroupByName p.data with
      | some cs => .named (String.mk cs)
      | none => .literal p
  else .literal p

/-- The label after `GetLabelType` has classified its name afresh. -/
def Label.classifiedName (l : Label) : Label :=
  let l1 := { l with _reloadName := false, _name := true }
  match classify "__name__" l.Name with
  | .identity => { l1 with nameType := .LabelIsLabel }
  | .index n => { l1 with nameAsIndex := n, nameType := .LabelIsRegexGroupIndex }
  | .named s => { l1 with nameAsStr := s, nameType := .LabelIsRegexGroupName }
  | .literal t => { l1 with nameAsStr := t, nameType := .LabelIsCustom }

/-- The label after `GetValueType` has classified its value afresh. -/
def Label.classifiedValue (l : Label) : Label :=
  let l1 := { l with _value := true, _reloadValue := false }
  match classify "__value__" l.Value with
  | .identity => { l1 with valueType := .ValueIsValue }
  | .index n => { l1 with valueAsIndex := n, valueType := .ValueIsRegxGroupIndex }
  | .named s => { l1 with valueAsStr := s, valueType := .ValueIsRegexGroupName }
  | .literal t => { l1 with valueAsStr := t, valueType := .ValueIsCustom }

/-- The name cache, when it is in use, holds the classification of `Name`. -/
def Label.NameCached (l : Label) : Prop :=
  l._name = true → l._reloadName = false →
    match classify "__name__" l.Name with
    | .identity => l.nameType = .LabelIsLabel
    | .index n => l.nameType = .LabelIsRegexGroupIndex ∧ l.nameAsIndex = n
    | .named s => l.nameType = .LabelIsRegexGroupName ∧ l.nameAsStr = s
    | .literal t => l.nameType = .LabelIsCustom ∧ l.nameAsStr = t

/-- The value cache, when it is in use, holds the classification of `Value`. -/
def Label.ValueCached (l : Label) : Prop :=
  l._value = true → l._reloadValue = false →
    match classify "__value__" l.Value with
    | .identity => l.valueType = .ValueIsValue
    | .index n => l.valueType = .ValueIsRegxGroupIndex ∧ l.valueAsIndex = n
    | .named s => l.valueType = .ValueIsRegexGroupName ∧ l.valueAsStr = s
    | .literal t => l.valueType = .ValueIsCustom ∧ l.valueAsStr = t

/-- A label whose caches agree with its patterns: every label decoded from
the configuration (all cache fields zero) and every label the accessors have
run on since. -/
def Label.Coherent (l : Label) : Prop := l.NameCached ∧ l.ValueCached

/-- The label with its caches emptied. -/
def Label.fresh (l : Label) : Label := { Name := l.Name, Value := l.Value }

/-- The rewriter with the caches of its labels emptied. -/
def LabelRewriter.fresh (l : LabelRewriter) : LabelRewriter :=
  { l with Labels := l.Labels.map Label.fresh }

/-- The text at index `idx` of a match, as both `switch` statements of
`GenNewLabels` read it: empty when `idx` is out of range. -/
def groupAt (m : List String) (idx : Int) : String :=
  if idx > -1 ∧ idx < (m.length : Int) then m.getD idx.toNat "" else ""

/-- The name or value `GenNewLabels` resolves for the pattern `p`, `own`
being the trigger key (for a name) or the trigger value (for a value). -/
def resolve (sentinel : String) (regex : RegexHandler) (own : String)
    (m : List String) (p : String) : Except Panic String :=
  match classify sentinel p with
  | .identity => pure own
  | .named n => do
    let (_, x) ← regex.StrResultGroupByName m n
    pure x
  | .index idx => pure (groupAt m idx)
  | .literal t => pure t

/-- The loop of `GenNewLabels` on the patterns alone. -/
def genLoop (regex : RegexHandler) (key value : String) (m : List String) :
    List Label → GoMap String → Except Panic (GoMap String)
  | [], labels => pure labels
  | label :: rest, labels =>
    if label.Name = "" then genLoop regex key value m rest labels
    else do
      let _name ← resolve "__name__" regex key m label.Name
      let _value ← resolve "__value__" regex value m label.Value
      genLoop regex key value m rest (mapSet labels _name _value)

/-- The map `GenNewLabels` returns, as a function of the patterns alone. -/
def genLabels (l : LabelRewriter) (key value : String) : Except Panic (GoMap String) :=
  if key ≠ l.Name then pure []
  else if l.Labels.length = 0 then pure []
  else
    match l.regex with
    | none => .error .nilPointer
    | some regex =>
      let m := regex.Regexp.FindStringSubmatch value
      if m.length = 0 then pure []
      else genLoop regex key value m l.Labels []

/-- An initialised rule: every registered rewriter holds its compiled pattern
and its labels are coherent. -/
def Rule.Initialised (r : Rule) : Prop :=
  ∀ k rw, (k, rw) ∈ r.labelRewriter →
    rw.regex.isSome = true ∧ ∀ l, l ∈ rw.Labels → l.Coherent

/-- The label after a call of `GetLabelType`. -/
def Label.afterName (l : Label) : Label :=
  if (!l._reloadName && l._name) = true then l else l.classifiedName

/-- The label after a call of `GetValueType`. -/
def Label.afterValue (l : Label) : Label :=
  if (!l._reloadValue && l._value) = true then l else l.classifiedValue

/-- The registered rewriters of a rule with their caches emptied: what the
configuration says. -/
def Rule.config (r : Rule) : GoMap KafkaAdapter.LabelRewriter :=
  r.labelRewriter.map (fun kv => (kv.1, kv.2.fresh))

/-- The label set after the body of the loop of `RewriteLabel` ran for `key`,
as a function of the patterns alone. -/
def Rule.step (r : Rule) (labels : GoMap String) (key : String) : GoMap String :=
  match mapGet labels key with
  | none => labels
  | some value =>
    match mapGet r.labelRewriter key with
    | none => labels
    | some rewriter =>
      match genLabels rewriter key value with
      | .error _ => labels
      | .ok newLabels =>
        mergeLabels newLabels
          (if newLabels.length > 0 ∧ rewriter.Overwrite = true then mapDelete labels key
           else labels)

/-- The new labels the rule produces for the entry `(key, value)`: those of
the rewriter registered for `key`, none when there is no such rewriter. -/
def Rule.gen (r : Rule) (key value : String) : GoMap String :=
  match mapGet r.labelRewriter key with
  | none => []
  | some rewriter =>
    match genLabels rewriter key value with
    | .error _ => []
    | .ok newLabels => newLabels

/-- Whether the entry `(key, value)` is deleted by its rewriter: the rewriter
overwrites and produces labels. -/
def Rule.overwrites (r : Rule) (key value : String) : Bool :=
  match mapGet r.labelRewriter key with
  | none => false
  | some rewriter => decide ((r.gen key value).length > 0) && rewriter.Overwrite

/-- The label `x = y` is produced for an entry of the original label set
whose key is among the keys `V` reached so far. -/
def Rule.Generated (r : Rule) (labels : GoMap String) (V : List String)
    (x y : String) : Prop :=
  ∃ k v, k ∈ V ∧ mapGet labels k = some v ∧ mapGet (r.gen k v) x = some y

/-- The entry `x` of the original label set has been reached and deleted by
its rewriter. -/
def Rule.Removed (r : Rule) (labels : GoMap String) (V : List String) (x : String) : Prop :=
  x ∈ V ∧ ∃ v, mapGet labels x = some v ∧ r.overwrites x v = true

/-- The label set `cur` is the original one rewritten for the keys of `V`:
the produced labels are in, the overwritten triggers are out, every other
key is as it was. -/
def Rule.Rewritten (r : Rule) (labels : GoMap String) (V : List String)
    (cur : GoMap String) : Prop :=
  ∀ x, (∀ y, r.Generated labels V x y → mapGet cur x = some y) ∧
    ((∀ y, ¬ r.Generated labels V x y) →
      (r.Removed labels V x → mapGet cur x = none) ∧
      (¬ r.Removed labels V x → mapGet cur x = mapGet labels x))

/-- The rewriters do not interfere on a label set: no produced label has
the name of a trigger with a registered rewriter, and no name is produced for
two different entries. -/
def Rule.NonInterfering (r : Rule) (labels : GoMap String) : Prop :=
  (∀ k v x, mapGet labels k = some v → (mapGet (r.gen k v) x).isSome = true →
    mapGet r.labelRewriter x = none) ∧
  (∀ k k1 v v1 x, mapGet labels k = some v → mapGet labels k1 = some v1 →
    (mapGet (r.gen k v) x).isSome = true → (mapGet (r.gen k1 v1) x).isSome = true → k = k1)

/-- The label with its name cache filled for the classification `c`. -/
def Label.withNameClass (l : Label) : FieldClass → Label
  | .identity => { l with _reloadName := false, _name := true, nameType := .LabelIsLabel }
  | .index n =>
    { l with _reloadName := false, _name := true, nameAsIndex := n,
             nameType := .LabelIsRegexGroupIndex }
  | .named s =>
    { l with _reloadName := false, _name := true, nameAsStr := s,
             nameType := .LabelIsRegexGroupName }
  | .literal t =>
    { l with _reloadName := false, _name := true, nameAsStr := t, nameType := .LabelIsCustom }

/-- The label with its value cache filled for the classification `c`. -/
def Label.withValueClass (l : Label) : FieldClass → Label
  | .identity => { l with _value := true, _reloadValue := false, valueType := .ValueIsValue }
  | .index n =>
    { l with _value := true, _reloadValue := false, valueAsIndex := n,
             valueType := .ValueIsRegxGroupIndex }
  | .named s =>
    { l with _value := true, _reloadValue := false, valueAsStr := s,
             valueType := .ValueIsRegexGroupName }
  | .literal t =>
    { l with _value := true, _reloadValue := false, valueAsStr := t,
             valueType := .ValueIsCustom }

/-! ## Sequences of accessor calls on a label -/

/-- The six accessors of `Label`. -/
inductive Accessor where
  | GetLabelType
  | GetName
  | GetNameIndex
  | GetValueType
  | GetValue
  | GetValueIndex
  deriving DecidableEq, Repr

/-- What an accessor returns. -/
inductive Answer where
  | labelType (t : LabelType)
  | valueType (t : ValueType)
  | str (s : String)
  | int (n : Int)
  deriving DecidableEq, Repr

/-- One accessor call: the returned value and the label after the call. -/
def Label.call (l : Label) : Accessor → Except Panic (Answer × Label)
  | .GetLabelType => do let (t, l1) ← l.GetLabelType; pure (.labelType t, l1)
  | .GetName => do let (s, l1) ← l.GetName; pure (.str s, l1)
  | .GetNameIndex => do let (n, l1) ← l.GetNameIndex; pure (.int n, l1)
  | .GetValueType => do let (t, l1) ← l.GetValueType; pure (.valueType t, l1)
  | .GetValue => do let (s, l1) ← l.GetValue; pure (.str s, l1)
  | .GetValueIndex => do let (n, l1) ← l.GetValueIndex; pure (.int n, l1)

/-- A sequence of accessor calls, their results dropped: the label after the
last call. -/
def Label.calls (l : Label) : List Accessor → Except Panic Label
  | [] => pure l
  | a :: rest => do
    let (_, l1) ← l.call a
    Label.calls l1 rest

/-- What accessor `a` returns when called right after the calls `pre`. -/
def Label.answer (l : Label) (pre : List Accessor) (a : Accessor) : Option Answer :=
  match l.calls pre with
  | .error _ => none
  | .ok l1 =>
    match l1.call a with
    | .error _ => none
    | .ok (ans, _) => some ans

/-- Assigning the exported fields `Name` and `Value`, then `Reload()`. -/
def Label.reassign (l : Label) (name value : String) : Label :=
  Label.Reload { l with Name := name, Value := value }

/-- The states of a label built with the patterns `p` and `q` and only read
since: neither side classified yet, one side, or both. -/
def Label.OnlyRead (p q : String) (l : Label) : Prop :=
  l = { Name := p, Value := q } ∨
  l = Label.classifiedName { Name := p, Value := q } ∨
  l = Label.classifiedValue { Name := p, Value := q } ∨
  l = Label.classifiedValue (Label.classifiedName { Name := p, Value := q })

/-- The rewriter list with every rewriter removed that has a later one of the
same `Name`. -/
def dropEarlierSameName : List LabelRewriter → List LabelRewriter
  | [] => []
  | rw :: rest =>
    if rest.any (fun x => decide (x.Name = rw.Name)) then dropEarlierSameName rest
    else rw :: dropEarlierSameName rest

/-- The last rewriter of the list whose `Name` is `k`. -/
def lastNamed (k : String) : List LabelRewriter → Option LabelRewriter
  | [] => none
  | rw :: rest =>
    match lastNamed k rest with
    | some x => some x
    | none => if rw.Name = k then some rw else none

/-! ## Concrete patterns and inputs used in the examples -/

/-- The pattern `^node_`: it matches exactly the texts that start with
`node_`, the match being that prefix; no capture group. -/
def nodePattern : Regexp :=
  { groupNames := [],
    exec := fun s => if HasPrefix s "node_" then some ("node_", []) else none }

/-- Leftmost match of `(?P<ip>.*?):(?P<port>.*)`, where `.` is any character
but a newline: `ip` runs from the start of the line of the first colon up to
that colon, `port` from there to the end of the line.  `acc` holds the
characters of the current line read so far, last first. -/
def ipPortScan : List Char → List Char → Option (List Char × List Char)
  | _, [] => none
  | acc, c :: rest =>
    if c = ':' then some (acc.reverse, rest.takeWhile (fun x => !decide (x = '\n')))
    else if c = '\n' then ipPortScan [] rest
    else ipPortScan (c :: acc) rest

/-- The pattern `(?P<ip>.*?):(?P<port>.*)`. -/
def ipPortPattern : Regexp :=
  { groupNames := ["ip", "port"],
    exec := fun s => (ipPortScan [] s.data).map
      (fun p => (String.mk (p.1 ++ ':' :: p.2), [String.mk p.1, String.mk p.2])) }

/-- The pattern `(?P<h>.*)`: the whole first line, as the group `h`. -/
def hostPattern : Regexp :=
  { groupNames := ["h"],
    exec := fun s =>
      let line := String.mk (s.data.takeWhile (fun x => !decide (x = '\n')))
      some (line, [line]) }

/-- A stand-in for `regexp.Compile` that knows the patterns of the examples
and rejects every other text. -/
def exampleCompile (pattern : String) : Except String Regexp :=
  if pattern = "^node_" then .ok nodePattern
  else if pattern = "(?P<ip>.*?):(?P<port>.*)" then .ok ipPortPattern
  else if pattern = "(?P<h>.*)" then .ok hostPattern
  else .error "pattern outside the examples"

/-- The rule of `TestRule_Selected`: one selector `{regex, ^node_}`. -/
def testRuleSelected : Rule :=
  { Topic := "custom_HOST", Selectors := [{ Method := "regex", Value := "^node_" }],
    LabelRewriter := [], Org := 0, Token := "", DeleteLabels := [] }

/-- The rewriter of `TestRule_RewriteLabel`. -/
def testRewriter : LabelRewriter :=
  { Name := "node", Overwrite := false, Regex := "(?P<ip>.*?):(?P<port>.*)",
    Labels := [{ Name := "ip", Value := "$1" }, { Name := "port", Value := "$port" }] }

/-- The rule of `TestRule_RewriteLabel`. -/
def testRuleRewrite : Rule :=
  { Topic := "custom_HOST", Selectors := [{ Method := "regex", Value := "^node_" }],
    LabelRewriter := [testRewriter], Org := 0, Token := "", DeleteLabels := [] }

/-- A rule with the selector `{eq, down}`. -/
def ruleDown : Rule :=
  { Topic := "A", Selectors := [{ Method := "eq", Value := "down" }], LabelRewriter := [],
    Org := 0, Token := "a", DeleteLabels := [] }

/-- A rule with the selector `{eq, up}`. -/
def ruleUp : Rule :=
  { Topic := "B", Selectors := [{ Method := "eq", Value := "up" }], LabelRewriter := [],
    Org := 0, Token := "b", DeleteLabels := [] }

/-- A rule with the selector `{start_with, u}`. -/
def ruleU : Rule :=
  { Topic := "C", Selectors := [{ Method := "start_with", Value := "u" }],
    LabelRewriter := [], Org := 0, Token := "c", DeleteLabels := [] }

/-- A rule set in which the name `up` is selected by the second and by the
third rule. -/
def exampleConfig : EasyOpsConfig := { DefaultORG := 7, Rules := [ruleDown, ruleUp, ruleU] }

/-- A serializer whose `Marshal` fails, returning nil data as `json.Marshal`
does, on the record of the sample with value 2, and returns one byte on every
other record. -/
def failingSerializer : Serializer :=
  { Marshal := fun m =>
      match m with
      | .easyops _ _ _ _ value _ => if value = 2 then ([], some "marshal") else ([1], none)
      | .plain _ value _ _ => if value = "2" then ([], some "marshal") else ([1], none) }

/-- Globals of `Serialize` for the examples: no match filter, a topic
template that always writes `metrics`. -/
def exampleGlobals : Globals :=
  { matchTable := [], topicTemplate := fun _ => .ok "metrics", formatUnix := fun _ => "t",
    formatFloat := fun v => if v = 2 then "2" else "x" }

/-- One timeseries named `up` with three samples, of values 1, 2 and 3. -/
def threeSamples : WriteRequest :=
  { Timeseries := [{ Labels := [{ Name := "__name__", Value := "up" }],
                     Samples := [{ Value := 1, Timestamp := 1000 },
                       { Value := 2, Timestamp := 2000 }, { Value := 3, Timestamp := 3000 }] }] }

/-- A rule with two rewriters, on the triggers `a` and `b`, that both produce
a label named `c`, with the literal values `A` and `B`. -/
def twoWritersRule : Rule :=
  { Topic := "T", Selectors := [],
    LabelRewriter :=
      [{ Name := "a", Overwrite := false, Regex := "(?P<h>.*)",
         Labels := [{ Name := "c", Value := "A" }] },
       { Name := "b", Overwrite := false, Regex := "(?P<h>.*)",
         Labels := [{ Name := "c", Value := "B" }] }],
    Org := 0, Token := "", DeleteLabels := [] }

/-- A rule whose rewriter on `node` overwrites and names its output label
with the sentinel `__name__`, that is, after the trigger itself. -/
def overwriteSelfRule : Rule :=
  { Topic := "T", Selectors := [],
    LabelRewriter :=
      [{ Name := "node", Overwrite := true, Regex := "(?P<ip>.*?):(?P<port>.*)",
         Labels := [{ Name := "__name__", Value := "$1" }] }],
    Org := 0, Token := "", DeleteLabels := [] }

/-- The rule of `TestRule_RewriteLabel` with `Overwrite` set. -/
def overwriteRule : Rule :=
  { Topic := "T", Selectors := [],
    LabelRewriter := [{ testRewriter with Overwrite := true }],
    Org := 0, Token := "", DeleteLabels := [] }

/-- A rule whose rewriter reads the group `h`, a name of one character. -/
def shortNameRule : Rule :=
  { Topic := "T", Selectors := [],
    LabelRewriter :=
      [{ Name := "node", Overwrite := false, Regex := "(?P<h>.*)",
         Labels := [{ Name := "host", Value := "$h" }] }],
    Org := 0, Token := "", DeleteLabels := [] }

/-- A rule selected by the name `up`, with the rewriter of
`TestRule_RewriteLabel` and the delete-set `{port, job}`: `port` is a label
the rewriter creates. -/
def deleteRule : Rule :=
  { Topic := "T", Selectors := [{ Method := "eq", Value := "up" }],
    LabelRewriter := [testRewriter], Org := 0, Token := "tok",
    DeleteLabels := [("port", true), ("job", false)] }

/-- A timeseries named `up` with the labels `node` and `job` and one sample. -/
def nodeSeries : TimeSeries :=
  { Labels := [{ Name := "__name__", Value := "up" },
               { Name := "node", Value := "10.10.89.61:8080" }, { Name := "job", Value := "x" }],
    Samples := [{ Value := 1, Timestamp := 1000 }] }

/-- The rule set holding `deleteRule`, initialised. -/
def deleteConfig : EasyOpsConfig :=
  (EasyOpsConfig.Init exampleCompile { DefaultORG := 7, Rules := [deleteRule] }).1

/-- A batch of two timeseries, named `latency` (two samples) and without a
name (one sample): no rule of `exampleConfig` selects either. -/
def unselectedBatch : WriteRequest :=
  { Timeseries :=
      [{ Labels := [{ Name := "__name__", Value := "latency" }],
         Samples := [{ Value := 1, Timestamp := 1 }, { Value := 2, Timestamp := 2 }] },
       { Labels := [{ Name := "job", Value := "x" }],
         Samples := [{ Value := 3, Timestamp := 3 }] }] }

/-- A rule with two rewriters: the one on `a` overwrites and produces `x`,
the one on `b` produces a label named `a`, the trigger of the first. -/
def chainRule : Rule :=
  { Topic := "T", Selectors := [],
    LabelRewriter :=
      [{ Name := "a", Overwrite := true, Regex := "(?P<h>.*)",
         Labels := [{ Name := "x", Value := "1" }] },
       { Name := "b", Overwrite := false, Regex := "(?P<h>.*)",
         Labels := [{ Name := "a", Value := "again" }] }],
    Org := 0, Token := "", DeleteLabels := [] }

/-- A rule selecting `up` with the delete-set `{job}`; its rewriter on `node`
names the new label by the group index 5, which the pattern does not have, so
the new label gets the empty name. -/
def dropJobRule : Rule :=
  { Topic := "T", Selectors := [{ Method := "eq", Value := "up" }],
    LabelRewriter :=
      [{ Name := "node", Overwrite := false, Regex := "(?P<ip>.*?):(?P<port>.*)",
         Labels := [{ Name := "$5", Value := "$ip" }] }],
    Org := 0, Token := "tok", DeleteLabels := [("job", true)] }

/-- The rule set holding `dropJobRule`, initialised. -/
def dropJobConfig : EasyOpsConfig :=
  (EasyOpsConfig.Init exampleCompile { DefaultORG := 7, Rules := [dropJobRule] }).1

/-- A timeseries named `up` with a label whose name is the empty string, a
label `job` and one sample. -/
def emptyNameSeries : TimeSeries :=
  { Labels := [{ Name := "__name__", Value := "up" }, { Name := "", Value := "v" },
               { Name := "job", Value := "x" }],
    Samples := [{ Value := 1, Timestamp := 1000 }] }

/-- Globals of `Serialize` with a match filter: the family `up` with one
metric asking for `job = x`, and the family `any` with one metric without
labels. -/
def matchGlobals : Globals :=
  { matchTable :=
      [("up", { Metric := [{ Label := [{ GetName := "job", GetValue := "x" }] }] }),
       ("any", { Metric := [{ Label := [] }] })],
    topicTemplate := fun _ => .ok "metrics", formatUnix := fun _ => "t",
    formatFloat := fun _ => "x" }

/-- A rule selecting `up` with an organisation of its own, 42. -/
def orgRule : Rule :=
  { Topic := "O", Selectors := [{ Method := "eq", Value := "up" }], LabelRewriter := [],
    Org := 42, Token := "key", DeleteLabels := [] }

/-- The rule set holding `orgRule`, initialised. -/
def orgConfig : EasyOpsConfig :=
  (EasyOpsConfig.Init exampleCompile { DefaultORG := 7, Rules := [orgRule] }).1

/-- A rule with two rewriters named `node`: the first overwrites and takes the
whole value as `host`, the second is the rewriter of the test. -/
def duplicateRule : Rule :=
  { Topic := "T", Selectors := [],
    LabelRewriter :=
      [{ Name := "node", Overwrite := true, Regex := "(?P<h>.*)",
         Labels := [{ Name := "host", Value := "$h" }] },
       testRewriter],
    Org := 0, Token := "", DeleteLabels := [] }

/-! # Properties -/

/-! ## Basic facts: `Except`, maps -/

theorem bind_ok {ε α β : Type} (a : α) (f : α → Except ε β) :
    (Except.ok a >>= f) = f a := rfl

theorem bind_error {ε α β : Type} (e : ε) (f : α → Except ε β) :
    ((Except.error e : Except ε α) >>= f) = Except.error e := rfl

theorem pure_eq_ok {ε α : Type} (a : α) : (pure a : Except ε α) = Except.ok a := rfl

theorem hasPrefix_iff (s pre : String) :
    HasPrefix s pre = true ↔ ∃ t : String, s = pre ++ t := by
  unfold HasPrefix
  rw [List.isPrefixOf_iff_prefix]
  constructor
  · rintro ⟨t, ht⟩
    exact ⟨⟨t⟩, String.ext (by simpa using ht.symm)⟩
  · rintro ⟨t, rfl⟩
    exact ⟨t.data, by simp⟩

/-! ## Selectors and rule selection -/

/-- `Rule.Init` returns the rule with the selectors it was given: no compiled
pattern reaches `r.Selectors`. -/
theorem Rule.Init_Selectors (compile : String → Except String Regexp) (r : Rule) :
    (r.Init compile).1.Selectors = r.Selectors := by
  unfold Rule.Init
  rcases Rule.Init.rewriters compile 0 r.LabelRewriter [] with ⟨ls, m, _ | err⟩ <;> rfl

/-- C1: on the rule of `TestRule_Selected` (one selector `{regex, ^node_}`)
`Init` returns no error, and `Selected` then dereferences a nil compiled
pattern, for the name the test expects to be selected and for the one it
expects not to be. -/
theorem Rule.Selected_after_Init_nil_pattern :
    (testRuleSelected.Init exampleCompile).2 = none ∧
    (testRuleSelected.Init exampleCompile).1.Selected "node_cpu_usage"
      = Except.error Panic.nilPointer ∧
    (testRuleSelected.Init exampleCompile).1.Selected "kafka_brokers_number"
      = Except.error Panic.nilPointer :=
  ⟨rfl, rfl, rfl⟩

/-- C2: `Match` with method `eq` is true exactly when the name equals the
value; with method `start_with` exactly when the value is a prefix of the
name; with a method other than `eq`, `start_with`, `regex` it is false.  In
all three cases the call returns. -/
theorem MetricNameSelector.Match_eq_start_with_other (s : MetricNameSelector)
    (name : String) :
    (s.Method = "eq" →
      ∃ b, s.Match name = Except.ok b ∧ (b = true ↔ name = s.Value)) ∧
    (s.Method = "start_with" →
      ∃ b, s.Match name = Except.ok b ∧ (b = true ↔ ∃ t : String, name = s.Value ++ t)) ∧
    (s.Method ≠ "eq" → s.Method ≠ "start_with" → s.Method ≠ "regex" →
      s.Match name = Except.ok false) := by
  refine ⟨fun h => ?_, fun h => ?_, fun h1 h2 h3 => ?_⟩
  · refine ⟨decide (name = s.Value), ?_, by simp⟩
    simp [MetricNameSelector.Match, SelectEQ, h]
  · refine ⟨HasPrefix name s.Value, ?_, hasPrefix_iff name s.Value⟩
    simp [MetricNameSelector.Match, SelectEQ, SelectStartWith, h]
  · simp [MetricNameSelector.Match, SelectEQ, SelectStartWith, SelectRegex, h1, h2, h3]

/-- C2, the scenario of the specification: the selector
`{start_with, kafka_}` matches `kafka_brokers_number` and not `node_cpu`. -/
theorem MetricNameSelector.Match_start_with_kafka :
    (∃ b, MetricNameSelector.Match { Method := "start_with", Value := "kafka_" }
        "kafka_brokers_number" = Except.ok b ∧
      (b = true ↔ ∃ t : String, "kafka_brokers_number" = "kafka_" ++ t)) ∧
    MetricNameSelector.Match { Method := "start_with", Value := "kafka_" }
      "kafka_brokers_number" = Except.ok true ∧
    MetricNameSelector.Match { Method := "start_with", Value := "kafka_" }
      "node_cpu" = Except.ok false :=
  ⟨(MetricNameSelector.Match_eq_start_with_other
      { Method := "start_with", Value := "kafka_" } "kafka_brokers_number").2.1 rfl,
    rfl, rfl⟩

theorem EasyOpsConfig.Select.loop_cons (name : String) (idx : Nat) (rule : Rule)
    (rest : List Rule) :
    EasyOpsConfig.Select.loop name idx (rule :: rest) =
      match rule.Selected name with
      | .error p => .error p
      | .ok true => .ok (true, some (idx, rule))
      | .ok false => EasyOpsConfig.Select.loop name (idx + 1) rest := by
  rw [EasyOpsConfig.Select.loop]
  rcases rule.Selected name with p | b
  · rfl
  · cases b <;> rfl

/-- The loop of `Select` answers `(true, rule)` exactly for the first rule of
the list that is selected, every rule before it having answered false. -/
theorem EasyOpsConfig.Select.loop_true (name : String) :
    ∀ (rules : List Rule) (idx i : Nat) (r : Rule),
      EasyOpsConfig.Select.loop name idx rules = Except.ok (true, some (i, r)) ↔
        ∃ k, i = idx + k ∧ rules.get? k = some r ∧ r.Selected name = Except.ok true ∧
          ∀ j, j < k → ∀ q, rules.get? j = some q → q.Selected name = Except.ok false := by
  intro rules
  induction rules with
  | nil =>
    intro idx i r
    simp [EasyOpsConfig.Select.loop, pure_eq_ok]
  | cons rule rest ih =>
    intro idx i r
    rw [EasyOpsConfig.Select.loop_cons]
    rcases hsel : rule.Selected name with p | b
    · simp only []
      constructor
      · intro h; cases h
      · rintro ⟨k, -, hk, hr, hall⟩
        cases k with
        | zero =>
          simp only [List.get?_cons_zero, Option.some.injEq] at hk
          subst hk; rw [hsel] at hr; cases hr
        | succ k =>
          have := hall 0 (Nat.succ_pos k) rule rfl
          rw [hsel] at this; cases this
    · cases b with
      | true =>
        simp only []
        constructor
        · intro h
          simp only [Except.ok.injEq, Prod.mk.injEq, true_and, Option.some.injEq] at h
          obtain ⟨h1, h2⟩ := h
          subst h1; subst h2
          exact ⟨0, rfl, rfl, hsel, fun j hj => absurd hj (Nat.not_lt_zero j)⟩
        · rintro ⟨k, hi, hk, hr, hall⟩
          cases k with
          | zero =>
            simp only [List.get?_cons_zero, Option.some.injEq] at hk
            subst hk; subst hi; rfl
          | succ k =>
            have := hall 0 (Nat.succ_pos k) rule rfl
            rw [hsel] at this; cases this
      | false =>
        simp only []
        rw [ih]
        constructor
        · rintro ⟨k, hi, hk, hr, hall⟩
          refine ⟨k + 1, by omega, by simpa using hk, hr, ?_⟩
          intro j hj q hq
          cases j with
          | zero =>
            simp only [List.get?_cons_zero, Option.some.injEq] at hq
            subst hq; exact hsel
          | succ j => exact hall j (by omega) q (by simpa using hq)
        · rintro ⟨k, hi, hk, hr, hall⟩
          cases k with
          | zero =>
            simp only [List.get?_cons_zero, Option.some.injEq] at hk
            subst hk; rw [hsel] at hr; cases hr
          | succ k =>
            refine ⟨k, by omega, by simpa using hk, hr, ?_⟩
            intro j hj q hq
            exact hall (j + 1) (by omega) q (by simpa using hq)

/-- The loop of `Select` answers `(false, nil)` exactly when every rule of the
list answers false. -/
theorem EasyOpsConfig.Select.loop_false (name : String) :
    ∀ (rules : List Rule) (idx : Nat),
      EasyOpsConfig.Select.loop name idx rules = Except.ok (false, none) ↔
        ∀ q, q ∈ rules → q.Selected name = Except.ok false := by
  intro rules
  induction rules with
  | nil => intro idx; simp [EasyOpsConfig.Select.loop, pure_eq_ok]
  | cons rule rest ih =>
    intro idx
    rw [EasyOpsConfig.Select.loop_cons]
    rcases hsel : rule.Selected name with p | b
    · simp only []
      constructor
      · intro h; cases h
      · intro h
        have := h rule (List.mem_cons_self _ _)
        rw [hsel] at this; cases this
    · cases b with
      | true =>
        simp only []
        constructor
        · intro h; simp at h
        · intro h
          have := h rule (List.mem_cons_self _ _)
          rw [hsel] at this; cases this
      | false =>
        simp only []
        rw [ih]
        constructor
        · intro h q hq
          rcases List.mem_cons.mp hq with rfl | hq
          · exact hsel
          · exact h q hq
        · intro h q hq
          exact h q (List.mem_cons_of_mem _ hq)

theorem EasyOpsConfig.Select_eq_loop (e : EasyOpsConfig) (name : String) :
    e.Select name = EasyOpsConfig.Select.loop name 0 e.Rules := by
  unfold EasyOpsConfig.Select
  cases h : e.Rules with
  | nil => rfl
  | cons r rest => rfl

/-- C3: `Select` returns `(true, r)` exactly for the rule `r` at the first
position `i` of `e.Rules` whose `Selected(name)` is true, all rules before it
answering false (later rules are not looked at), and returns `(false, nil)`
exactly when every rule answers false, which covers the empty rule set. -/
theorem EasyOpsConfig.Select_first_selected (e : EasyOpsConfig) (name : String) :
    (∀ (i : Nat) (r : Rule),
      e.Select name = Except.ok (true, some (i, r)) ↔
        (e.Rules.get? i = some r ∧ r.Selected name = Except.ok true ∧
          ∀ j, j < i → ∀ q, e.Rules.get? j = some q → q.Selected name = Except.ok false)) ∧
    (e.Select name = Except.ok (false, none) ↔
      ∀ q, q ∈ e.Rules → q.Selected name = Except.ok false) ∧
    (e.Rules = [] → e.Select name = Except.ok (false, none)) := by
  refine ⟨fun i r => ?_, ?_, fun h => ?_⟩
  · rw [EasyOpsConfig.Select_eq_loop, EasyOpsConfig.Select.loop_true]
    constructor
    · rintro ⟨k, hi, hk, hr, hall⟩
      have : i = k := by omega
      subst this
      exact ⟨hk, hr, hall⟩
    · rintro ⟨hk, hr, hall⟩
      exact ⟨i, by omega, hk, hr, hall⟩
  · rw [EasyOpsConfig.Select_eq_loop, EasyOpsConfig.Select.loop_false]
  · rw [EasyOpsConfig.Select_eq_loop, h]; rfl

/-! ## The cached classification -/

theorem RegexGroupByNumber_MathGroupByName (s : String) :
    RegexGroupByNumber.MathGroupByName s "number" =
      Except.ok (match execGroupByNumber s.data with
        | some ds => (true, String.mk ds)
        | none => (false, "")) := by
  unfold RegexHandler.MathGroupByName RegexHandler.StrResultGroupByName
    Regexp.FindStringSubmatch RegexGroupByNumber
  cases h : execGroupByNumber s.data with
  | none => simp [h]
  | some ds => simp [h, Regexp.SubexpNames, indexOfName, fitGroups]

theorem RegexGroupByName_MathGroupByName (s : String) :
    RegexGroupByName.MathGroupByName s "name" =
      Except.ok (match execGroupByName s.data with
        | some cs => (true, String.mk cs)
        | none => (false, "")) := by
  unfold RegexHandler.MathGroupByName RegexHandler.StrResultGroupByName
    Regexp.FindStringSubmatch RegexGroupByName
  cases h : execGroupByName s.data with
  | none => simp [h]
  | some ds => simp [h, Regexp.SubexpNames, indexOfName, fitGroups]

/-- `GetLabelType` returns the cached type when the cache is in use, and
otherwise classifies the name afresh; it never panics. -/
theorem Label.GetLabelType_eq (l : Label) :
    l.GetLabelType =
      if (!l._reloadName && l._name) = true then Except.ok (l.nameType, l)
      else Except.ok (l.classifiedName.nameType, l.classifiedName) := by
  unfold Label.GetLabelType
  split
  · rfl
  · simp only [RegexGroupByNumber_MathGroupByName, RegexGroupByName_MathGroupByName,
      Label.classifiedName, classify]
    by_cases h1 : l.Name = "__name__"
    · simp [h1]
    · simp only [h1, if_false]
      by_cases h2 : HasPrefix l.Name "$" = true
      · simp only [h2, if_true]
        cases h3 : execGroupByNumber l.Name.data with
        | some ds => simp
        | none =>
          cases h4 : execGroupByName l.Name.data with
          | some cs => simp
          | none => simp
      · simp [h2]

/-- `GetValueType` returns the cached type when the cache is in use, and
otherwise classifies the value afresh; it never panics. -/
theorem Label.GetValueType_eq (l : Label) :
    l.GetValueType =
      if (!l._reloadValue && l._value) = true then Except.ok (l.valueType, l)
      else Except.ok (l.classifiedValue.valueType, l.classifiedValue) := by
  unfold Label.GetValueType
  split
  · rfl
  · simp only [RegexGroupByNumber_MathGroupByName, RegexGroupByName_MathGroupByName,
      Label.classifiedValue, classify]
    by_cases h1 : l.Value = "__value__"
    · simp [h1]
    · simp only [h1, if_false]
      by_cases h2 : HasPrefix l.Value "$" = true
      · simp only [h2, if_true]
        cases h3 : execGroupByNumber l.Value.data with
        | some ds => simp
        | none =>
          cases h4 : execGroupByName l.Value.data with
          | some cs => simp
          | none => simp
      · simp [h2]

theorem LabelRewriter.GenNewLabels.name_eq (regex : RegexHandler) (key : String)
    (m : List String) (l : Label) (h : l.NameCached) :
    LabelRewriter.GenNewLabels.name regex key m l =
      (resolve "__name__" regex key m l.Name >>= fun x => pure (x, l.afterName)) := by
  unfold LabelRewriter.GenNewLabels.name
  rw [Label.GetLabelType_eq]
  unfold Label.afterName resolve
  by_cases hc : (!l._reloadName && l._name) = true
  · have h1 : l._name = true := by
      cases hn : l._name <;> simp [hn] at hc ⊢
    have h2 : l._reloadName = false := by
      cases hn : l._reloadName <;> simp [hn] at hc ⊢
    have h3 := h h1 h2
    simp only [hc, if_true, bind_ok]
    cases hcl : classify "__name__" l.Name <;> rw [hcl] at h3 <;> simp only [] at h3
    · simp [LabelRewriter.GenNewLabels.nameCase, h3, pure_eq_ok, bind_ok]
    · simp [LabelRewriter.GenNewLabels.nameCase, h3.1, h3.2, Label.GetNameIndex, h1,
        pure_eq_ok, bind_ok, groupAt]
      split <;> rfl
    · simp [LabelRewriter.GenNewLabels.nameCase, h3.1, h3.2, Label.GetName, h1,
        pure_eq_ok, bind_ok]
    · simp [LabelRewriter.GenNewLabels.nameCase, h3.1, h3.2, Label.GetName, h1,
        pure_eq_ok, bind_ok]
  · simp only [hc, if_false, bind_ok]
    cases hcl : classify "__name__" l.Name
    · simp [LabelRewriter.GenNewLabels.nameCase, Label.classifiedName, hcl, pure_eq_ok,
        bind_ok]
    · simp [LabelRewriter.GenNewLabels.nameCase, Label.classifiedName, hcl,
        Label.GetNameIndex, pure_eq_ok, bind_ok, groupAt]
      split <;> rfl
    · simp [LabelRewriter.GenNewLabels.nameCase, Label.classifiedName, hcl,
        Label.GetName, pure_eq_ok, bind_ok]
    · simp [LabelRewriter.GenNewLabels.nameCase, Label.classifiedName, hcl,
        Label.GetName, pure_eq_ok, bind_ok]

theorem LabelRewriter.GenNewLabels.value_eq (regex : RegexHandler) (value : String)
    (m : List String) (l : Label) (h : l.ValueCached) (hn : l._name = true) :
    LabelRewriter.GenNewLabels.value regex value m l =
      (resolve "__value__" regex value m l.Value >>= fun x => pure (x, l.afterValue)) := by
  unfold LabelRewriter.GenNewLabels.value
  rw [Label.GetValueType_eq]
  unfold Label.afterValue resolve
  by_cases hc : (!l._reloadValue && l._value) = true
  · have h1 : l._value = true := by
      cases hn : l._value <;> simp [hn] at hc ⊢
    have h2 : l._reloadValue = false := by
      cases hn : l._reloadValue <;> simp [hn] at hc ⊢
    have h3 := h h1 h2
    simp only [hc, if_true, bind_ok]
    cases hcl : classify "__value__" l.Value <;> rw [hcl] at h3 <;> simp only [] at h3
    · simp [LabelRewriter.GenNewLabels.valueCase, h3, pure_eq_ok, bind_ok]
    · simp [LabelRewriter.GenNewLabels.valueCase, h3.1, h3.2, Label.GetValueIndex, h1, hn,
        pure_eq_ok, bind_ok, groupAt]
      split <;> rfl
    · simp [LabelRewriter.GenNewLabels.valueCase, h3.1, h3.2, Label.GetValue, h1,
        pure_eq_ok, bind_ok]
    · simp [LabelRewriter.GenNewLabels.valueCase, h3.1, h3.2, Label.GetValue, h1,
        pure_eq_ok, bind_ok]
  · simp only [hc, if_false, bind_ok]
    cases hcl : classify "__value__" l.Value
    · simp [LabelRewriter.GenNewLabels.valueCase, Label.classifiedValue, hcl, pure_eq_ok,
        bind_ok]
    · simp [LabelRewriter.GenNewLabels.valueCase, Label.classifiedValue, hcl,
        Label.GetValueIndex, hn, pure_eq_ok, bind_ok, groupAt]
      split <;> rfl
    · simp [LabelRewriter.GenNewLabels.valueCase, Label.classifiedValue, hcl,
        Label.GetValue, pure_eq_ok, bind_ok]
    · simp [LabelRewriter.GenNewLabels.valueCase, Label.classifiedValue, hcl,
        Label.GetValue, pure_eq_ok, bind_ok]

theorem Label.afterName_fresh (l : Label) : l.afterName.fresh = l.fresh := by
  unfold Label.afterName Label.classifiedName Label.fresh
  split
  · rfl
  · cases classify "__name__" l.Name <;> rfl

theorem Label.afterValue_fresh (l : Label) : l.afterValue.fresh = l.fresh := by
  unfold Label.afterValue Label.classifiedValue Label.fresh
  split
  · rfl
  · cases classify "__value__" l.Value <;> rfl

theorem Label.afterName_name (l : Label) : l.afterName._name = true := by
  unfold Label.afterName Label.classifiedName
  split
  · rename_i hc
    cases hn : l._name <;> simp [hn] at hc ⊢
  · cases classify "__name__" l.Name <;> rfl

theorem Label.afterName_Coherent (l : Label) (h : l.Coherent) : l.afterName.Coherent := by
  unfold Label.afterName
  split
  · exact h
  · refine ⟨?_, ?_⟩
    · intro _ _
      unfold Label.classifiedName
      cases hcl : classify "__name__" l.Name <;> simp [hcl]
    · have hv := h.2
      unfold Label.ValueCached at hv ⊢
      unfold Label.classifiedName
      cases hcl : classify "__name__" l.Name <;> exact hv

theorem Label.afterValue_Coherent (l : Label) (h : l.Coherent) : l.afterValue.Coherent := by
  unfold Label.afterValue
  split
  · exact h
  · refine ⟨?_, ?_⟩
    · have hv := h.1
      unfold Label.NameCached at hv ⊢
      unfold Label.classifiedValue
      cases hcl : classify "__value__" l.Value <;> exact hv
    · intro _ _
      unfold Label.classifiedValue
      cases hcl : classify "__value__" l.Value <;> simp [hcl]

theorem Label.fresh_Name (l : Label) : l.fresh.Name = l.Name := rfl

theorem Label.fresh_Value (l : Label) : l.fresh.Value = l.Value := rfl

theorem Label.Name_of_fresh_eq {a b : Label} (h : a.fresh = b.fresh) : a.Name = b.Name := by
  have := congrArg Label.Name h
  exact this

theorem Label.Value_of_fresh_eq {a b : Label} (h : a.fresh = b.fresh) : a.Value = b.Value := by
  have := congrArg Label.Value h
  exact this

/-- The loop of `GenNewLabels` on coherent labels builds the map `genLoop`
gives for the patterns, and leaves the labels coherent with their patterns
unchanged. -/
theorem LabelRewriter.GenNewLabels.loop_eq (regex : RegexHandler) (key value : String)
    (m : List String) :
    ∀ (ls : List Label) (acc : GoMap String), (∀ l, l ∈ ls → l.Coherent) →
      ∃ ls1, LabelRewriter.GenNewLabels.loop regex key value m ls acc =
          (genLoop regex key value m ls acc >>= fun nl => pure (nl, ls1)) ∧
        ls1.map Label.fresh = ls.map Label.fresh ∧ ∀ l, l ∈ ls1 → l.Coherent := by
  intro ls
  induction ls with
  | nil =>
    intro acc _
    exact ⟨[], rfl, rfl, fun l hl => by cases hl⟩
  | cons l rest ih =>
    intro acc hco
    have hl : l.Coherent := hco l (List.mem_cons_self _ _)
    have hrest : ∀ x, x ∈ rest → x.Coherent := fun x hx => hco x (List.mem_cons_of_mem _ hx)
    unfold LabelRewriter.GenNewLabels.loop genLoop
    by_cases hname : l.Name = ""
    · obtain ⟨rest1, h1, h2, h3⟩ := ih acc hrest
      refine ⟨l :: rest1, ?_, by simp [h2], ?_⟩
      · simp only [hname, if_true]
        rw [h1]
        cases genLoop regex key value m rest acc <;> rfl
      · intro x hx
        rcases List.mem_cons.mp hx with rfl | hx
        · exact hl
        · exact h3 x hx
    · simp only [hname, if_false]
      rw [LabelRewriter.GenNewLabels.name_eq regex key m l hl.1]
      cases hn : resolve "__name__" regex key m l.Name with
      | error p => exact ⟨l :: rest, rfl, rfl, hco⟩
      | ok n =>
        simp only [bind_ok, pure_eq_ok]
        have hl1 : l.afterName.Coherent := Label.afterName_Coherent l hl
        rw [LabelRewriter.GenNewLabels.value_eq regex value m l.afterName hl1.2
          (Label.afterName_name l)]
        have hv : l.afterName.Value = l.Value :=
          Label.Value_of_fresh_eq (Label.afterName_fresh l)
        rw [hv]
        cases hvv : resolve "__value__" regex value m l.Value with
        | error p => exact ⟨l :: rest, rfl, rfl, hco⟩
        | ok v =>
          simp only [bind_ok, pure_eq_ok]
          obtain ⟨rest1, h1, h2, h3⟩ := ih (mapSet acc n v) hrest
          refine ⟨l.afterName.afterValue :: rest1, ?_, ?_, ?_⟩
          · rw [h1]
            cases genLoop regex key value m rest (mapSet acc n v) <;> rfl
          · simp [h2, Label.afterValue_fresh, Label.afterName_fresh]
          · intro x hx
            rcases List.mem_cons.mp hx with rfl | hx
            · exact Label.afterValue_Coherent _ hl1
            · exact h3 x hx

theorem LabelRewriter.fresh_eq_iff (a b : LabelRewriter) :
    a.fresh = b.fresh ↔ a.Name = b.Name ∧ a.Overwrite = b.Overwrite ∧ a.Regex = b.Regex ∧
      a.Labels.map Label.fresh = b.Labels.map Label.fresh ∧ a.regex = b.regex := by
  unfold LabelRewriter.fresh
  constructor
  · intro h
    injection h with h1 h2 h3 h4 h5
    exact ⟨h1, h2, h3, h4, h5⟩
  · rintro ⟨h1, h2, h3, h4, h5⟩
    rw [h1, h2, h3, h4, h5]

theorem genLoop_congr (regex : RegexHandler) (key value : String) (m : List String) :
    ∀ (ls ls1 : List Label) (acc : GoMap String),
      ls.map Label.fresh = ls1.map Label.fresh →
      genLoop regex key value m ls acc = genLoop regex key value m ls1 acc := by
  intro ls
  induction ls with
  | nil =>
    intro ls1 acc h
    cases ls1 with
    | nil => rfl
    | cons a b => simp at h
  | cons l rest ih =>
    intro ls1 acc h
    cases ls1 with
    | nil => simp at h
    | cons l1 rest1 =>
      simp only [List.map_cons, List.cons.injEq] at h
      obtain ⟨h1, h2⟩ := h
      have hN : l.Name = l1.Name := Label.Name_of_fresh_eq h1
      have hV : l.Value = l1.Value := Label.Value_of_fresh_eq h1
      unfold genLoop
      rw [hN, hV]
      split
      · exact ih rest1 acc h2
      · cases resolve "__name__" regex key m l1.Name with
        | error p => rfl
        | ok n =>
          cases resolve "__value__" regex value m l1.Value with
          | error p => rfl
          | ok v =>
            simp only [bind_ok]
            exact ih rest1 _ h2

theorem genLabels_congr (a b : LabelRewriter) (h : a.fresh = b.fresh) (key value : String) :
    genLabels a key value = genLabels b key value := by
  obtain ⟨h1, -, -, h4, h5⟩ := (LabelRewriter.fresh_eq_iff a b).mp h
  have hlen : a.Labels.length = b.Labels.length := by
    have := congrArg List.length h4
    simpa using this
  unfold genLabels
  rw [h1, h5, hlen]
  split
  · rfl
  · split
    · rfl
    · cases b.regex with
      | none => rfl
      | some regex =>
        simp only []
        split
        · rfl
        · exact genLoop_congr regex key value _ _ _ _ h4

/-- On a rewriter with coherent labels `GenNewLabels` returns the map
`genLabels` gives for the patterns, and leaves the rewriter coherent, with the
same patterns. -/
theorem LabelRewriter.GenNewLabels_eq (l : LabelRewriter) (key value : String)
    (hco : ∀ x, x ∈ l.Labels → x.Coherent) :
    ∃ l1, l.GenNewLabels key value =
        (genLabels l key value >>= fun nl => pure (nl, l1)) ∧
      l1.fresh = l.fresh ∧ ∀ x, x ∈ l1.Labels → x.Coherent := by
  unfold LabelRewriter.GenNewLabels genLabels
  by_cases h1 : key ≠ l.Name
  · exact ⟨l, by rw [if_pos h1, if_pos h1]; rfl, rfl, hco⟩
  · rw [if_neg h1, if_neg h1]
    by_cases h2 : l.Labels.length = 0
    · exact ⟨l, by rw [if_pos h2, if_pos h2]; rfl, rfl, hco⟩
    · rw [if_neg h2, if_neg h2]
      cases hre : l.regex with
      | none => exact ⟨l, rfl, rfl, hco⟩
      | some regex =>
        simp only []
        by_cases h3 : (regex.Regexp.FindStringSubmatch value).length = 0
        · exact ⟨l, by rw [if_pos h3, if_pos h3]; rfl, rfl, hco⟩
        · rw [if_neg h3, if_neg h3]
          obtain ⟨ls1, e1, e2, e3⟩ := LabelRewriter.GenNewLabels.loop_eq regex key value
            (regex.Regexp.FindStringSubmatch value) l.Labels [] hco
          refine ⟨{ l with Labels := ls1 }, ?_, ?_, e3⟩
          · rw [e1]
            cases genLoop regex key value (regex.Regexp.FindStringSubmatch value) l.Labels []
            · rfl
            · simp only [bind_ok, pure_eq_ok, hre]
          · rw [LabelRewriter.fresh_eq_iff]
            exact ⟨rfl, rfl, rfl, e2, rfl⟩

/-! ## No panic once the pattern is compiled -/

theorem fitGroups_length : ∀ (names gs : List String),
    (fitGroups names gs).length = names.length := by
  intro names
  induction names with
  | nil => intro gs; rfl
  | cons n rest ih => intro gs; simp [fitGroups, ih]

/-- The contract of `FindStringSubmatch`: nil, or one text per entry of
`SubexpNames`. -/
theorem Regexp.FindStringSubmatch_length (re : Regexp) (s : String) :
    re.FindStringSubmatch s = [] ∨
      (re.FindStringSubmatch s).length = re.SubexpNames.length := by
  unfold Regexp.FindStringSubmatch Regexp.SubexpNames
  cases re.exec s with
  | none => exact Or.inl rfl
  | some p => exact Or.inr (by simp [fitGroups_length])

theorem indexOfName_lt (name : String) : ∀ (names : List String) (i j : Nat),
    indexOfName name names i = some j → j < i + names.length := by
  intro names
  induction names with
  | nil => intro i j h; simp [indexOfName] at h
  | cons n rest ih =>
    intro i j h
    unfold indexOfName at h
    split at h
    · simp only [Option.some.injEq] at h
      subst h
      simp
    · have := ih (i + 1) j h
      simp only [List.length_cons]
      omega

theorem RegexHandler.StrResultGroupByName_ok (regex : RegexHandler) (m : List String)
    (name : String) (hm : m.length = regex.Regexp.SubexpNames.length) :
    ∃ b x, regex.StrResultGroupByName m name = Except.ok (b, x) := by
  unfold RegexHandler.StrResultGroupByName
  split
  · cases hi : indexOfName name regex.Regexp.SubexpNames 0 with
    | none => exact ⟨false, "", rfl⟩
    | some i =>
      have hlt := indexOfName_lt name _ 0 i hi
      have hlt2 : i < m.length := by omega
      simp only []
      rw [List.get?_eq_get hlt2]
      exact ⟨true, _, rfl⟩
  · exact ⟨false, "", rfl⟩

theorem resolve_ok (sentinel : String) (regex : RegexHandler) (own : String)
    (m : List String) (p : String) (hm : m.length = regex.Regexp.SubexpNames.length) :
    ∃ x, resolve sentinel regex own m p = Except.ok x := by
  unfold resolve
  cases classify sentinel p with
  | identity => exact ⟨own, rfl⟩
  | index n => exact ⟨_, rfl⟩
  | literal t => exact ⟨t, rfl⟩
  | named n =>
    obtain ⟨b, x, h⟩ := RegexHandler.StrResultGroupByName_ok regex m n hm
    exact ⟨x, by simp only [h, bind_ok, pure_eq_ok]⟩

theorem genLoop_ok (regex : RegexHandler) (key value : String) (m : List String)
    (hm : m.length = regex.Regexp.SubexpNames.length) :
    ∀ (ls : List Label) (acc : GoMap String),
      ∃ nl, genLoop regex key value m ls acc = Except.ok nl := by
  intro ls
  induction ls with
  | nil => intro acc; exact ⟨acc, rfl⟩
  | cons l rest ih =>
    intro acc
    unfold genLoop
    split
    · exact ih acc
    · obtain ⟨n, hn⟩ := resolve_ok "__name__" regex key m l.Name hm
      obtain ⟨v, hv⟩ := resolve_ok "__value__" regex value m l.Value hm
      simp only [hn, hv, bind_ok]
      exact ih _

/-- With a compiled pattern the new labels are always produced. -/
theorem genLabels_ok (l : LabelRewriter) (key value : String)
    (h : l.regex.isSome = true) : ∃ nl, genLabels l key value = Except.ok nl := by
  unfold genLabels
  split
  · exact ⟨[], rfl⟩
  · split
    · exact ⟨[], rfl⟩
    · cases hre : l.regex with
      | none => rw [hre] at h; cases h
      | some regex =>
        simp only []
        split
        · exact ⟨[], rfl⟩
        · rename_i h3
          rcases Regexp.FindStringSubmatch_length regex.Regexp value with h0 | h0
          · rw [h0] at h3; exact absurd rfl h3
          · exact genLoop_ok regex key value _ h0 l.Labels []

/-! ## Maps -/

theorem mapGet_mem {α : Type} : ∀ (m : GoMap α) (k : String) (v : α),
    mapGet m k = some v → (k, v) ∈ m := by
  intro m
  induction m with
  | nil => intro k v h; simp [mapGet] at h
  | cons kv rest ih =>
    intro k v h
    obtain ⟨k1, v1⟩ := kv
    unfold mapGet at h
    split at h
    · rename_i hk
      simp only [Option.some.injEq] at h
      subst hk; subst h
      exact List.mem_cons_self _ _
    · exact List.mem_cons_of_mem _ (ih k v h)

theorem mem_mapSet {α : Type} : ∀ (m : GoMap α) (k : String) (v : α) (x : String × α),
    x ∈ mapSet m k v → x ∈ m ∨ x = (k, v) := by
  intro m
  induction m with
  | nil =>
    intro k v x h
    simp only [mapSet, List.mem_singleton] at h
    exact Or.inr h
  | cons kv rest ih =>
    intro k v x h
    obtain ⟨k1, v1⟩ := kv
    unfold mapSet at h
    split at h
    · rename_i hk
      rcases List.mem_cons.mp h with h | h
      · subst hk; exact Or.inr h
      · exact Or.inl (List.mem_cons_of_mem _ h)
    · rcases List.mem_cons.mp h with h | h
      · exact Or.inl (h ▸ List.mem_cons_self _ _)
      · rcases ih k v x h with h | h
        · exact Or.inl (List.mem_cons_of_mem _ h)
        · exact Or.inr h

theorem mapGet_mapValues {α β : Type} (f : α → β) : ∀ (m : GoMap α) (k : String),
    mapGet (m.map (fun kv => (kv.1, f kv.2))) k = (mapGet m k).map f := by
  intro m
  induction m with
  | nil => intro k; rfl
  | cons kv rest ih =>
    intro k
    obtain ⟨k1, v1⟩ := kv
    simp only [List.map_cons, mapGet]
    split
    · rfl
    · exact ih k

theorem mapSet_mapValues_same {α β : Type} (f : α → β) :
    ∀ (m : GoMap α) (k : String) (v0 v : α), mapGet m k = some v0 → f v = f v0 →
      (mapSet m k v).map (fun kv => (kv.1, f kv.2)) = m.map (fun kv => (kv.1, f kv.2)) := by
  intro m
  induction m with
  | nil => intro k v0 v h; simp [mapGet] at h
  | cons kv rest ih =>
    intro k v0 v h hf
    obtain ⟨k1, v1⟩ := kv
    unfold mapGet at h
    unfold mapSet
    split
    · rename_i hk
      simp only [hk, if_true, Option.some.injEq] at h
      subst h
      simp [hf]
    · rename_i hk
      simp only [hk, if_false] at h
      simp only [List.map_cons, List.cons.injEq, true_and]
      exact ih k v0 v h hf

/-! ## `RewriteLabel` on an initialised rule -/

theorem Rule.step_congr (r r0 : Rule) (h : r.config = r0.config)
    (labels : GoMap String) (key : String) : r.step labels key = r0.step labels key := by
  have hget : (mapGet r.labelRewriter key).map LabelRewriter.fresh =
      (mapGet r0.labelRewriter key).map LabelRewriter.fresh := by
    have := congrArg (fun m => mapGet m key) h
    simpa only [Rule.config, mapGet_mapValues] using this
  unfold Rule.step
  cases mapGet labels key with
  | none => rfl
  | some value =>
    simp only []
    cases h1 : mapGet r.labelRewriter key with
    | none =>
      cases h2 : mapGet r0.labelRewriter key with
      | none => rfl
      | some rw0 => rw [h1, h2] at hget; cases hget
    | some rw =>
      cases h2 : mapGet r0.labelRewriter key with
      | none => rw [h1, h2] at hget; cases hget
      | some rw0 =>
        rw [h1, h2] at hget
        simp only [Option.map_some', Option.some.injEq] at hget
        have hov : rw.Overwrite = rw0.Overwrite :=
          ((LabelRewriter.fresh_eq_iff rw rw0).mp hget).2.1
        simp only [genLabels_congr rw rw0 hget, hov]

/-- The body of the loop of `RewriteLabel` on an initialised rule does not
panic, changes the label set as `Rule.step` says, and changes nothing of the
rule but the caches of its rewriters. -/
theorem Rule.RewriteLabel.body_eq (r : Rule) (labels : GoMap String) (key : String)
    (h : r.Initialised) :
    ∃ r1, Rule.RewriteLabel.body r labels key = Except.ok (r1, r.step labels key) ∧
      r1.Initialised ∧ r1.config = r.config ∧
      r1 = { r with labelRewriter := r1.labelRewriter } := by
  unfold Rule.RewriteLabel.body Rule.step
  cases hv : mapGet labels key with
  | none => exact ⟨r, rfl, h, rfl, rfl⟩
  | some value =>
    simp only []
    cases hrw : mapGet r.labelRewriter key with
    | none => exact ⟨r, rfl, h, rfl, rfl⟩
    | some rw =>
      simp only []
      have hmem := mapGet_mem _ _ _ hrw
      obtain ⟨hre, hco⟩ := h key rw hmem
      obtain ⟨rw1, e1, e2, e3⟩ := LabelRewriter.GenNewLabels_eq rw key value hco
      obtain ⟨nl, hnl⟩ := genLabels_ok rw key value hre
      rw [e1, hnl]
      simp only [bind_ok, pure_eq_ok]
      refine ⟨_, rfl, ?_, ?_, rfl⟩
      · intro k x hx
        rcases mem_mapSet _ _ _ _ hx with hx | hx
        · exact h k x hx
        · simp only [Prod.mk.injEq] at hx
          obtain ⟨-, rfl⟩ := hx
          refine ⟨?_, e3⟩
          rw [((LabelRewriter.fresh_eq_iff x rw).mp e2).2.2.2.2]
          exact hre
      · exact mapSet_mapValues_same LabelRewriter.fresh _ _ rw rw1 hrw e2

/-- `RewriteLabel` on an initialised rule returns, for every order of
iteration; the label set it returns is the fold of `Rule.step` over the keys
reached, and the rule stays initialised with the same configuration. -/
theorem Rule.RewriteLabel_eq : ∀ (order : List String) (r : Rule) (labels : GoMap String),
    r.Initialised →
    ∃ r1, r.RewriteLabel order labels = Except.ok (r1, order.foldl r.step labels) ∧
      r1.Initialised ∧ r1.config = r.config ∧
      r1 = { r with labelRewriter := r1.labelRewriter } := by
  intro order
  induction order with
  | nil => intro r labels h; exact ⟨r, rfl, h, rfl, rfl⟩
  | cons key rest ih =>
    intro r labels h
    obtain ⟨r1, e1, e2, e3, e4⟩ := Rule.RewriteLabel.body_eq r labels key h
    obtain ⟨r2, f1, f2, f3, f4⟩ := ih r1 (r.step labels key) e2
    refine ⟨r2, ?_, f2, f3.trans e3, ?_⟩
    · unfold Rule.RewriteLabel
      rw [e1]
      simp only [bind_ok]
      rw [f1]
      have hstep : r1.step = r.step := by
        funext l k
        exact Rule.step_congr r1 r e3 l k
      rw [List.foldl_cons, hstep]
    · rw [f4, e4]

/-! ## `Init` -/

theorem LabelRewriter.Init_none (compile : String → Except String Regexp)
    (l l1 : LabelRewriter) (h : l.Init compile = (l1, none)) :
    ∃ re, compile l.Regex = Except.ok re ∧ l1 = { l with regex := some ⟨re⟩ } := by
  unfold LabelRewriter.Init at h
  cases hc : compile l.Regex with
  | error e => rw [hc] at h; simp at h
  | ok re =>
    rw [hc] at h
    simp only [Prod.mk.injEq, and_true] at h
    exact ⟨re, rfl, h.symm⟩

theorem Rule.Init.rewriters_Initialised (compile : String → Except String Regexp) :
    ∀ (ls : List KafkaAdapter.LabelRewriter) (idx : Nat) (m : GoMap KafkaAdapter.LabelRewriter),
      (∀ k rw, (k, rw) ∈ m → rw.regex.isSome = true ∧ ∀ l, l ∈ rw.Labels → l.Coherent) →
      (∀ rw, rw ∈ ls → ∀ l, l ∈ rw.Labels → l.Coherent) →
      (Rule.Init.rewriters compile idx ls m).2.2 = none →
      ∀ k rw, (k, rw) ∈ (Rule.Init.rewriters compile idx ls m).2.1 →
        rw.regex.isSome = true ∧ ∀ l, l ∈ rw.Labels → l.Coherent := by
  intro ls
  induction ls with
  | nil => intro idx m hm _ _; exact hm
  | cons l rest ih =>
    intro idx m hm hls herr
    unfold Rule.Init.rewriters at herr ⊢
    rcases hi : l.Init compile with ⟨l1, _ | err⟩
    · rw [hi] at herr
      simp only [] at herr ⊢
      obtain ⟨re, -, hl1⟩ := LabelRewriter.Init_none compile l l1 hi
      apply ih (idx + 1) (mapSet m l1.Name l1)
      · intro k rw hk
        rcases mem_mapSet _ _ _ _ hk with hk | hk
        · exact hm k rw hk
        · simp only [Prod.mk.injEq] at hk
          obtain ⟨-, rfl⟩ := hk
          subst hl1
          exact ⟨rfl, hls l (List.mem_cons_self _ _)⟩
      · exact fun rw hrw => hls rw (List.mem_cons_of_mem _ hrw)
      · exact herr
    · rw [hi] at herr
      simp at herr

/-- A rule decoded from the configuration (its labels coherent, which labels
with empty caches are) is initialised once `Init` has returned no error. -/
theorem Rule.Init_Initialised (compile : String → Except String Regexp) (r : Rule)
    (hco : ∀ rw, rw ∈ r.LabelRewriter → ∀ l, l ∈ rw.Labels → l.Coherent)
    (herr : (r.Init compile).2 = none) : (r.Init compile).1.Initialised := by
  unfold Rule.Init at herr ⊢
  have key := Rule.Init.rewriters_Initialised compile r.LabelRewriter 0 []
    (fun k rw h => by cases h) hco
  rcases hrw : Rule.Init.rewriters compile 0 r.LabelRewriter [] with ⟨ls, m, _ | err⟩
  · rw [hrw] at key
    exact key rfl
  · rw [hrw] at herr
    simp at herr

theorem Label.fresh_Coherent (l : Label) : l.fresh.Coherent :=
  ⟨fun h => (by cases h), fun h => (by cases h)⟩

theorem mapGet_mapSet {α : Type} : ∀ (m : GoMap α) (k : String) (v : α) (x : String),
    mapGet (mapSet m k v) x = if x = k then some v else mapGet m x := by
  intro m
  induction m with
  | nil =>
    intro k v x
    simp only [mapSet, mapGet]
    by_cases h : x = k
    · simp [h]
    · have h1 : ¬ k = x := fun e => h e.symm
      simp [h, h1]
  | cons kv rest ih =>
    intro k v x
    obtain ⟨k1, v1⟩ := kv
    unfold mapSet
    by_cases hk : k1 = k
    · simp only [hk, if_true, mapGet]
      by_cases h : x = k
      · simp [h]
      · have h1 : ¬ k = x := fun e => h e.symm
        simp [h, h1]
    · simp only [hk, if_false, mapGet]
      by_cases h1 : k1 = x
      · have h2 : ¬ x = k := fun e => hk (h1.trans e)
        simp [h1, h2]
      · simp only [h1, if_false]
        exact ih k v x

theorem mapGet_mapDelete {α : Type} : ∀ (m : GoMap α) (k x : String),
    mapGet (mapDelete m k) x = if x = k then none else mapGet m x := by
  intro m
  induction m with
  | nil => intro k x; simp [mapDelete, mapGet]
  | cons kv rest ih =>
    intro k x
    obtain ⟨k1, v1⟩ := kv
    have ih1 := ih k x
    unfold mapDelete at ih1 ⊢
    by_cases hk : k1 = k
    · simp only [List.filter, hk, decide_True, Bool.not_true]
      rw [ih1]
      by_cases h : x = k
      · simp [h]
      · have h1 : ¬ k = x := fun e => h e.symm
        simp [h, h1, mapGet]
    · simp only [List.filter, hk, decide_False, Bool.not_false, mapGet]
      by_cases h1 : k1 = x
      · have h2 : ¬ x = k := fun e => hk (h1.trans e)
        simp [h1, h2]
      · simp only [h1, if_false]
        exact ih1

theorem mapGet_eq_none_iff {α : Type} : ∀ (m : GoMap α) (k : String),
    mapGet m k = none ↔ k ∉ mapKeys m := by
  intro m
  induction m with
  | nil => intro k; simp [mapGet, mapKeys]
  | cons kv rest ih =>
    intro k
    obtain ⟨k1, v1⟩ := kv
    have ih1 := ih k
    unfold mapKeys at ih1 ⊢
    simp only [mapGet, List.map_cons, List.mem_cons, not_or]
    by_cases h : k1 = k
    · simp [h]
    · have h1 : ¬ k = k1 := fun e => h e.symm
      simp only [h, if_false, h1, not_false_eq_true, true_and]
      exact ih1

/-- The merge leaves a key alone that is not among the new labels. -/
theorem mapGet_mergeLabels_of_none : ∀ (nl m : GoMap String) (x : String),
    mapGet nl x = none → mapGet (mergeLabels nl m) x = mapGet m x := by
  intro nl
  induction nl with
  | nil => intro m x _; rfl
  | cons kv rest ih =>
    intro m x h
    obtain ⟨k1, v1⟩ := kv
    unfold mapGet at h
    split at h
    · cases h
    · rename_i hk
      have : mergeLabels ((k1, v1) :: rest) m = mergeLabels rest (mapSet m k1 v1) := rfl
      rw [this, ih _ x h, mapGet_mapSet]
      have h1 : ¬ x = k1 := fun e => hk e.symm
      simp [h1]

/-- A key among the new labels is a key after the merge. -/
theorem mapGet_mergeLabels_isSome : ∀ (nl m : GoMap String) (x : String),
    (mapGet nl x).isSome = true → (mapGet (mergeLabels nl m) x).isSome = true := by
  intro nl
  induction nl with
  | nil => intro m x h; simp [mapGet] at h
  | cons kv rest ih =>
    intro m x h
    obtain ⟨k1, v1⟩ := kv
    have e : mergeLabels ((k1, v1) :: rest) m = mergeLabels rest (mapSet m k1 v1) := rfl
    rw [e]
    cases hr : mapGet rest x with
    | some y => exact ih _ x (by rw [hr]; rfl)
    | none =>
      rw [mapGet_mergeLabels_of_none rest _ x hr, mapGet_mapSet]
      unfold mapGet at h
      split at h
      · rename_i hk
        simp [hk]
      · rw [hr] at h; cases h

/-- C3, on a rule set whose second and third rule both select `up`: the
second rule is returned. -/
theorem EasyOpsConfig.Select_first_selected_example :
    exampleConfig.Select "up" = Except.ok (true, some (1, ruleUp)) ∧
    ruleU.Selected "up" = Except.ok true :=
  ⟨((EasyOpsConfig.Select_first_selected exampleConfig "up").1 1 ruleUp).mpr
      ⟨rfl, rfl, fun j hj q hq => by
        have hj0 : j = 0 := by omega
        subst hj0
        have hq1 : ruleDown = q := by simpa [exampleConfig] using hq
        subst hq1
        rfl⟩,
    rfl⟩

/-! ## Marshal errors -/

/-- C4: with three samples that all reach `Marshal`, which fails on the second
one, both pipelines count one failure and still append the (nil) data of the
failed call: the bucket holds three payloads, not two. -/
theorem marshal_error_payload_still_appended :
    (SerializeToEasyOps failingSerializer (fun _ => ["__name__"]) exampleConfig {}
        threeSamples).toOption.map
      (fun p => (payloadCount p.2.result, p.2.counters.serializeFailed,
        mapGet p.2.result "B")) = some (3, 1, some [[1], [], [1]]) ∧
    (payloadCount (Serialize failingSerializer exampleGlobals {} threeSamples).result,
      (Serialize failingSerializer exampleGlobals {} threeSamples).counters.serializeFailed,
      mapGet (Serialize failingSerializer exampleGlobals {} threeSamples).result "metrics")
      = (3, 1, some [[1], [], [1]]) :=
  ⟨by decide, by decide⟩

/-! ## Overwrite -/

/-- A step for another key leaves `k` alone when the new labels of that step
do not name `k`. -/
theorem Rule.step_other (r : Rule) (k : String)
    (hnot : ∀ k1 v1 rw2 nl1, mapGet r.labelRewriter k1 = some rw2 →
      genLabels rw2 k1 v1 = Except.ok nl1 → mapGet nl1 k = none)
    (cur : GoMap String) (key : String) (hkey : key ≠ k ∨ mapGet cur k = none) :
    mapGet (r.step cur key) k = mapGet cur k := by
  unfold Rule.step
  cases hv : mapGet cur key with
  | none => rfl
  | some value =>
    simp only []
    cases hrw : mapGet r.labelRewriter key with
    | none => rfl
    | some rw =>
      simp only []
      cases hg : genLabels rw key value with
      | error p => rfl
      | ok nl =>
        simp only []
        rw [mapGet_mergeLabels_of_none nl _ k (hnot key value rw nl hrw hg)]
        split
        · rw [mapGet_mapDelete]
          rcases hkey with h | h
          · have : ¬ k = key := fun e => h e.symm
            simp [this]
          · simp [h]
        · rfl

/-- The step for `k` itself removes `k` when its rewriter overwrites and
produces labels, none of them named `k`. -/
theorem Rule.step_self (r : Rule) (k v : String) (rw : KafkaAdapter.LabelRewriter) (nl : GoMap String)
    (cur : GoMap String) (hv : mapGet cur k = some v)
    (hrw : mapGet r.labelRewriter k = some rw) (hov : rw.Overwrite = true)
    (hg : genLabels rw k v = Except.ok nl) (hne : nl ≠ []) (hk : mapGet nl k = none) :
    mapGet (r.step cur k) k = none := by
  unfold Rule.step
  simp only [hv, hrw, hg]
  rw [mapGet_mergeLabels_of_none nl _ k hk]
  have hlen : nl.length > 0 := List.length_pos.mpr hne
  simp [hlen, hov, mapGet_mapDelete]

theorem Rule.foldl_step_none (r : Rule) (k : String)
    (hnot : ∀ k1 v1 rw2 nl1, mapGet r.labelRewriter k1 = some rw2 →
      genLabels rw2 k1 v1 = Except.ok nl1 → mapGet nl1 k = none) :
    ∀ (order : List String) (cur : GoMap String), mapGet cur k = none →
      mapGet (order.foldl r.step cur) k = none := by
  intro order
  induction order with
  | nil => intro cur h; exact h
  | cons key rest ih =>
    intro cur h
    rw [List.foldl_cons]
    apply ih
    rw [Rule.step_other r k hnot cur key (Or.inr h)]
    exact h

theorem Rule.foldl_step_overwrite (r : Rule) (k v : String) (rw : KafkaAdapter.LabelRewriter)
    (nl : GoMap String)
    (hnot : ∀ k1 v1 rw2 nl1, mapGet r.labelRewriter k1 = some rw2 →
      genLabels rw2 k1 v1 = Except.ok nl1 → mapGet nl1 k = none)
    (hrw : mapGet r.labelRewriter k = some rw) (hov : rw.Overwrite = true)
    (hg : genLabels rw k v = Except.ok nl) (hne : nl ≠ []) :
    ∀ (order : List String) (cur : GoMap String), mapGet cur k = some v → k ∈ order →
      mapGet (order.foldl r.step cur) k = none := by
  intro order
  induction order with
  | nil => intro cur _ h; cases h
  | cons key rest ih =>
    intro cur hv hmem
    rw [List.foldl_cons]
    by_cases hkey : key = k
    · subst hkey
      apply Rule.foldl_step_none r key hnot
      exact Rule.step_self r key v rw nl cur hv hrw hov hg hne (hnot key v rw nl hrw hg)
    · apply ih
      · rw [Rule.step_other r k hnot cur key (Or.inl hkey)]
        exact hv
      · rcases List.mem_cons.mp hmem with h | h
        · exact absurd h.symm hkey
        · exact h

/-- What `GenNewLabels` returns on a rewriter of an initialised rule is what
`genLabels` gives. -/
theorem Rule.Initialised.genLabels_of_GenNewLabels {r : Rule} (h : r.Initialised)
    {k : String} {rw : KafkaAdapter.LabelRewriter} (hrw : mapGet r.labelRewriter k = some rw)
    (key value : String) :
    ∃ nl rw1, rw.GenNewLabels key value = Except.ok (nl, rw1) ∧
      genLabels rw key value = Except.ok nl := by
  obtain ⟨hre, hco⟩ := h k rw (mapGet_mem _ _ _ hrw)
  obtain ⟨rw1, e1, -, -⟩ := LabelRewriter.GenNewLabels_eq rw key value hco
  obtain ⟨nl, hnl⟩ := genLabels_ok rw key value hre
  exact ⟨nl, rw1, by rw [e1, hnl]; rfl, hnl⟩

/-- C5 (amended): on an initialised rule, when the rewriter registered for a
label name `k` of the label set overwrites, `GenNewLabels(k, value of k)` is
not empty, and no rewriter registered in the rule produces a label named `k`,
then `RewriteLabel` (whose loop reaches every entry of the label set, so `k`)
returns a label set without the key `k`. -/
theorem Rule.RewriteLabel_overwrite_removes_trigger (r : Rule) (labels : GoMap String)
    (order : List String) (k v : String) (rw rw1 : KafkaAdapter.LabelRewriter) (nl : GoMap String)
    (hinit : r.Initialised)
    (hk : mapGet labels k = some v)
    (hrw : mapGet r.labelRewriter k = some rw)
    (hov : rw.Overwrite = true)
    (hgen : rw.GenNewLabels k v = Except.ok (nl, rw1))
    (hne : nl ≠ [])
    (hord : k ∈ order)
    (hnot : ∀ k1 v1 rw2 nl1 rw3, mapGet r.labelRewriter k1 = some rw2 →
      rw2.GenNewLabels k1 v1 = Except.ok (nl1, rw3) → mapGet nl1 k = none) :
    ∃ r1 out, r.RewriteLabel order labels = Except.ok (r1, out) ∧ mapGet out k = none := by
  obtain ⟨r1, e1, -, -, -⟩ := Rule.RewriteLabel_eq order r labels hinit
  refine ⟨r1, _, e1, ?_⟩
  have hnot1 : ∀ k1 v1 rw2 nl1, mapGet r.labelRewriter k1 = some rw2 →
      genLabels rw2 k1 v1 = Except.ok nl1 → mapGet nl1 k = none := by
    intro k1 v1 rw2 nl1 h1 h2
    obtain ⟨nl2, rw3, g1, g2⟩ := hinit.genLabels_of_GenNewLabels h1 k1 v1
    rw [h2] at g2
    cases g2
    exact hnot k1 v1 rw2 nl1 rw3 h1 g1
  obtain ⟨nl2, rw3, g1, g2⟩ := hinit.genLabels_of_GenNewLabels hrw k v
  rw [hgen] at g1
  cases g1
  exact Rule.foldl_step_overwrite r k v rw nl hnot1 hrw hov g2 hne order labels hk hord

/-! ## Keys of the new labels -/

theorem mapKeys_mapSet {α : Type} : ∀ (m : GoMap α) (k : String) (v : α),
    mapKeys (mapSet m k v) = if k ∈ mapKeys m then mapKeys m else mapKeys m ++ [k] := by
  intro m
  induction m with
  | nil => intro k v; simp [mapKeys, mapSet]
  | cons kv rest ih =>
    intro k v
    obtain ⟨k1, v1⟩ := kv
    have ih1 := ih k v
    unfold mapKeys at ih1 ⊢
    unfold mapSet
    by_cases hk : k1 = k
    · simp [hk]
    · have hk1 : ¬ k = k1 := fun e => hk e.symm
      simp only [hk, if_false, List.map_cons, List.mem_cons, hk1, false_or, ih1]
      split <;> simp

theorem mapKeys_mapSet_nodup {α : Type} (m : GoMap α) (k : String) (v : α)
    (h : (mapKeys m).Nodup) : (mapKeys (mapSet m k v)).Nodup := by
  rw [mapKeys_mapSet]
  split
  · exact h
  · rename_i hk
    rw [List.nodup_append]
    refine ⟨h, List.nodup_singleton k, ?_⟩
    intro a ha hb
    simp only [List.mem_singleton] at hb
    subst hb
    exact hk ha

theorem genLoop_nodup (regex : RegexHandler) (key value : String) (m : List String) :
    ∀ (ls : List Label) (acc nl : GoMap String), (mapKeys acc).Nodup →
      genLoop regex key value m ls acc = Except.ok nl → (mapKeys nl).Nodup := by
  intro ls
  induction ls with
  | nil =>
    intro acc nl hacc h
    simp only [genLoop, pure_eq_ok, Except.ok.injEq] at h
    subst h
    exact hacc
  | cons l rest ih =>
    intro acc nl hacc h
    unfold genLoop at h
    split at h
    · exact ih acc nl hacc h
    · cases hn : resolve "__name__" regex key m l.Name with
      | error p => rw [hn] at h; cases h
      | ok n =>
        cases hv : resolve "__value__" regex value m l.Value with
        | error p => rw [hn, hv] at h; cases h
        | ok v =>
          rw [hn, hv] at h
          simp only [bind_ok] at h
          exact ih _ nl (mapKeys_mapSet_nodup acc n v hacc) h

/-- The new labels of a rewriter have pairwise distinct names. -/
theorem genLabels_nodup (l : LabelRewriter) (key value : String) (nl : GoMap String)
    (h : genLabels l key value = Except.ok nl) : (mapKeys nl).Nodup := by
  unfold genLabels at h
  have hnil : ∀ x : GoMap String, (pure [] : Except Panic (GoMap String)) = Except.ok x →
      (mapKeys x).Nodup := by
    intro x hx
    simp only [pure_eq_ok, Except.ok.injEq] at hx
    subst hx
    exact List.nodup_nil
  split at h
  · exact hnil nl h
  · split at h
    · exact hnil nl h
    · cases hre : l.regex with
      | none => rw [hre] at h; cases h
      | some regex =>
        rw [hre] at h
        simp only [] at h
        split at h
        · exact hnil nl h
        · exact genLoop_nodup regex key value _ l.Labels [] nl List.nodup_nil h

theorem Rule.gen_nodup (r : Rule) (key value : String) : (mapKeys (r.gen key value)).Nodup := by
  unfold Rule.gen
  cases mapGet r.labelRewriter key with
  | none => exact List.nodup_nil
  | some rw =>
    simp only []
    cases h : genLabels rw key value with
    | error p => exact List.nodup_nil
    | ok nl => exact genLabels_nodup rw key value nl h

/-- The merge of new labels with pairwise distinct names: a new label wins,
every other key keeps its value. -/
theorem mapGet_mergeLabels : ∀ (nl m : GoMap String) (x : String), (mapKeys nl).Nodup →
    mapGet (mergeLabels nl m) x =
      match mapGet nl x with
      | some y => some y
      | none => mapGet m x := by
  intro nl
  induction nl with
  | nil => intro m x _; rfl
  | cons kv rest ih =>
    intro m x hnd
    obtain ⟨k1, v1⟩ := kv
    have e : mergeLabels ((k1, v1) :: rest) m = mergeLabels rest (mapSet m k1 v1) := rfl
    have hnd1 : k1 ∉ mapKeys rest ∧ (mapKeys rest).Nodup := by
      simpa [mapKeys] using hnd
    rw [e, ih _ x hnd1.2, mapGet_mapSet]
    by_cases hx : k1 = x
    · subst hx
      have : mapGet rest k1 = none := (mapGet_eq_none_iff rest k1).mpr hnd1.1
      simp [this, mapGet]
    · have hx1 : ¬ x = k1 := fun e => hx e.symm
      simp [mapGet, hx, hx1]

/-- The step of `RewriteLabel` for `key`, in terms of `Rule.gen` and
`Rule.overwrites`. -/
theorem Rule.step_eq (r : Rule) (labels : GoMap String) (key : String) :
    r.step labels key =
      match mapGet labels key with
      | none => labels
      | some value =>
        mergeLabels (r.gen key value)
          (if r.overwrites key value = true then mapDelete labels key else labels) := by
  unfold Rule.step Rule.overwrites Rule.gen
  cases hv : mapGet labels key with
  | none => rfl
  | some value =>
    cases hrw : mapGet r.labelRewriter key with
    | none => rfl
    | some rw =>
      cases hg : genLabels rw key value with
      | error p => simp [hg, mergeLabels]
      | ok nl => simp [hg]

/-! ## Order of iteration -/

theorem Rule.gen_of_no_rewriter (r : Rule) (key value : String)
    (h : mapGet r.labelRewriter key = none) : r.gen key value = [] := by
  unfold Rule.gen; rw [h]

theorem Rule.overwrites_of_no_rewriter (r : Rule) (key value : String)
    (h : mapGet r.labelRewriter key = none) : r.overwrites key value = false := by
  unfold Rule.overwrites; rw [h]

theorem Rule.Generated.more_keys {r : Rule} {labels : GoMap String} {V : List String}
    {x y : String} (key : String) (h : r.Generated labels V x y) :
    r.Generated labels (V ++ [key]) x y := by
  obtain ⟨k, v, hk, hv, hg⟩ := h
  exact ⟨k, v, List.mem_append_left _ hk, hv, hg⟩

theorem Rule.Removed.more_reached {r : Rule} {labels : GoMap String} {V : List String}
    {x : String} (key : String) (h : r.Removed labels V x) :
    r.Removed labels (V ++ [key]) x :=
  ⟨List.mem_append_left _ h.1, h.2⟩

/-- A trigger with a registered rewriter is never a produced label. -/
theorem Rule.NonInterfering.not_generated {r : Rule} {labels : GoMap String}
    (h : r.NonInterfering labels) {V : List String} {key y : String}
    {rw : KafkaAdapter.LabelRewriter} (hrw : mapGet r.labelRewriter key = some rw) :
    ¬ r.Generated labels V key y := by
  rintro ⟨k, v, -, hv, hg⟩
  have := h.1 k v key hv (by rw [hg]; rfl)
  rw [hrw] at this
  cases this

/-- Reaching a key that is no longer in the label set changes nothing. -/
theorem Rule.Rewritten.step_absent {r : Rule} {labels : GoMap String}
    (hNI : r.NonInterfering labels) {V : List String} {cur : GoMap String}
    (hInv : r.Rewritten labels V cur) (key : String) (hcur : mapGet cur key = none) :
    r.Rewritten labels (V ++ [key]) cur := by
  have hmem : ∀ rw, mapGet r.labelRewriter key = some rw →
      ∀ v, mapGet labels key = some v → key ∈ V := by
    intro rw hrw v hv
    have hng : ∀ y, ¬ r.Generated labels V key y := fun y => hNI.not_generated hrw
    by_contra hnot
    have hnr : ¬ r.Removed labels V key := fun hr => hnot hr.1
    have := ((hInv key).2 hng).2 hnr
    rw [hcur, hv] at this
    cases this
  have hgen : ∀ x y, r.Generated labels (V ++ [key]) x y → r.Generated labels V x y := by
    rintro x y ⟨k, v, hk, hv, hg⟩
    rcases List.mem_append.mp hk with hk | hk
    · exact ⟨k, v, hk, hv, hg⟩
    · simp only [List.mem_singleton] at hk
      subst hk
      cases hrw : mapGet r.labelRewriter k with
      | none => rw [Rule.gen_of_no_rewriter r k v hrw] at hg; cases hg
      | some rw => exact ⟨k, v, hmem rw hrw v hv, hv, hg⟩
  have hrem : ∀ x, r.Removed labels (V ++ [key]) x → r.Removed labels V x := by
    rintro x ⟨hx, v, hv, ho⟩
    rcases List.mem_append.mp hx with hx | hx
    · exact ⟨hx, v, hv, ho⟩
    · simp only [List.mem_singleton] at hx
      subst hx
      cases hrw : mapGet r.labelRewriter x with
      | none => rw [Rule.overwrites_of_no_rewriter r x v hrw] at ho; cases ho
      | some rw => exact ⟨hmem rw hrw v hv, v, hv, ho⟩
  intro x
  refine ⟨fun y hy => (hInv x).1 y (hgen x y hy), fun hno => ?_⟩
  have hno1 : ∀ y, ¬ r.Generated labels V x y := fun y hy => hno y (hy.more_keys key)
  exact ⟨fun hr => ((hInv x).2 hno1).1 (hrem x hr),
    fun hr => ((hInv x).2 hno1).2 (fun h => hr (h.more_reached key))⟩

/-- Reaching a key without a registered rewriter changes nothing. -/
theorem Rule.Rewritten.step_no_rewriter {r : Rule} {labels : GoMap String}
    {V : List String} {cur : GoMap String}
    (hInv : r.Rewritten labels V cur) (key : String)
    (hrw : mapGet r.labelRewriter key = none) :
    r.Rewritten labels (V ++ [key]) cur := by
  have hgen : ∀ x y, r.Generated labels (V ++ [key]) x y → r.Generated labels V x y := by
    rintro x y ⟨k, v, hk, hv, hg⟩
    rcases List.mem_append.mp hk with hk | hk
    · exact ⟨k, v, hk, hv, hg⟩
    · simp only [List.mem_singleton] at hk
      subst hk
      rw [Rule.gen_of_no_rewriter r k v hrw] at hg
      cases hg
  have hrem : ∀ x, r.Removed labels (V ++ [key]) x → r.Removed labels V x := by
    rintro x ⟨hx, v, hv, ho⟩
    rcases List.mem_append.mp hx with hx | hx
    · exact ⟨hx, v, hv, ho⟩
    · simp only [List.mem_singleton] at hx
      subst hx
      rw [Rule.overwrites_of_no_rewriter r x v hrw] at ho
      cases ho
  intro x
  refine ⟨fun y hy => (hInv x).1 y (hgen x y hy), fun hno => ?_⟩
  have hno1 : ∀ y, ¬ r.Generated labels V x y := fun y hy => hno y (hy.more_keys key)
  exact ⟨fun hr => ((hInv x).2 hno1).1 (hrem x hr),
    fun hr => ((hInv x).2 hno1).2 (fun h => hr (h.more_reached key))⟩

/-- Reaching a trigger that is in the label set: its new labels are merged
and, when it overwrites, the trigger is deleted. -/
theorem Rule.Rewritten.step_rewriter {r : Rule} {labels : GoMap String}
    (hNI : r.NonInterfering labels) {V : List String} {cur : GoMap String}
    (hInv : r.Rewritten labels V cur) (key value : String)
    {rw : KafkaAdapter.LabelRewriter}
    (hcur : mapGet cur key = some value) (hrw : mapGet r.labelRewriter key = some rw) :
    r.Rewritten labels (V ++ [key])
      (mergeLabels (r.gen key value)
        (if r.overwrites key value = true then mapDelete cur key else cur)) := by
  have hng : ∀ (W : List String) (y : String), ¬ r.Generated labels W key y :=
    fun W y => hNI.not_generated hrw
  have hnr : ¬ r.Removed labels V key := by
    intro hr
    have := ((hInv key).2 (hng V)).1 hr
    rw [hcur] at this
    cases this
  have hlab : mapGet labels key = some value := by
    have := ((hInv key).2 (hng V)).2 hnr
    rw [hcur] at this
    exact this.symm
  have hdel : ∀ x, x ≠ key →
      mapGet (if r.overwrites key value = true then mapDelete cur key else cur) x
        = mapGet cur x := by
    intro x hx
    split
    · rw [mapGet_mapDelete]; simp [hx]
    · rfl
  intro x
  rw [mapGet_mergeLabels _ _ x (Rule.gen_nodup r key value)]
  constructor
  · rintro y ⟨k, v, hk, hv, hg⟩
    cases hnl : mapGet (r.gen key value) x with
    | some y1 =>
      simp only []
      have hkk : k = key :=
        hNI.2 k key v value x hv hlab (by rw [hg]; rfl) (by rw [hnl]; rfl)
      subst hkk
      rw [hlab] at hv
      cases hv
      rw [hnl] at hg
      exact hg
    | none =>
      simp only []
      have hxk : x ≠ key := by
        intro e
        subst e
        exact hng (V ++ [x]) y ⟨k, v, hk, hv, hg⟩
      rw [hdel x hxk]
      apply (hInv x).1 y
      rcases List.mem_append.mp hk with hk | hk
      · exact ⟨k, v, hk, hv, hg⟩
      · simp only [List.mem_singleton] at hk
        subst hk
        rw [hlab] at hv
        cases hv
        rw [hnl] at hg
        cases hg
  · intro hno
    have hnl : mapGet (r.gen key value) x = none := by
      cases h : mapGet (r.gen key value) x with
      | none => rfl
      | some y =>
        exact absurd ⟨key, value, List.mem_append_right _ (List.mem_singleton.mpr rfl), hlab, h⟩
          (hno y)
    have hno1 : ∀ y, ¬ r.Generated labels V x y := fun y hy => hno y (hy.more_keys key)
    have hI := (hInv x).2 hno1
    rw [hnl]
    simp only []
    constructor
    · rintro ⟨hx, v, hv, ho⟩
      by_cases hxk : x = key
      · subst hxk
        rw [hlab] at hv
        cases hv
        rw [ho]
        simp [mapGet_mapDelete]
      · rw [hdel x hxk]
        apply hI.1
        rcases List.mem_append.mp hx with hx | hx
        · exact ⟨hx, v, hv, ho⟩
        · exact absurd (List.mem_singleton.mp hx) hxk
    · intro hr
      have hr1 : ¬ r.Removed labels V x := fun h => hr (h.more_reached key)
      by_cases hxk : x = key
      · subst hxk
        have ho : r.overwrites x value = false := by
          cases h : r.overwrites x value with
          | false => rfl
          | true =>
            exact absurd ⟨List.mem_append_right _ (List.mem_singleton.mpr rfl), value, hlab, h⟩ hr
        rw [ho]
        simp only [Bool.false_eq_true, if_false]
        exact hI.2 hr1
      · rw [hdel x hxk]
        exact hI.2 hr1

/-- One step of `RewriteLabel` keeps the label set in the rewritten form. -/
theorem Rule.Rewritten.step {r : Rule} {labels : GoMap String}
    (hNI : r.NonInterfering labels) {V : List String} {cur : GoMap String}
    (hInv : r.Rewritten labels V cur) (key : String) :
    r.Rewritten labels (V ++ [key]) (r.step cur key) := by
  rw [Rule.step_eq]
  cases hcur : mapGet cur key with
  | none => exact hInv.step_absent hNI key hcur
  | some value =>
    simp only []
    cases hrw : mapGet r.labelRewriter key with
    | none =>
      rw [Rule.gen_of_no_rewriter r key value hrw, Rule.overwrites_of_no_rewriter r key value hrw]
      exact hInv.step_no_rewriter key hrw
    | some rw => exact hInv.step_rewriter hNI key value hcur hrw

theorem Rule.Rewritten.foldl {r : Rule} {labels : GoMap String}
    (hNI : r.NonInterfering labels) :
    ∀ (order V : List String) (cur : GoMap String), r.Rewritten labels V cur →
      r.Rewritten labels (V ++ order) (order.foldl r.step cur) := by
  intro order
  induction order with
  | nil => intro V cur h; simpa using h
  | cons key rest ih =>
    intro V cur h
    have := ih (V ++ [key]) (r.step cur key) (h.step hNI key)
    simpa using this

theorem Rule.Rewritten.init (r : Rule) (labels : GoMap String) :
    r.Rewritten labels [] labels := by
  intro x
  refine ⟨?_, fun _ => ⟨?_, fun _ => rfl⟩⟩
  · rintro y ⟨k, v, hk, -, -⟩
    cases hk
  · rintro ⟨hx, -⟩
    cases hx

/-- Two label sets in the rewritten form for key sequences that both hold
every key of the original label set are the same map. -/
theorem Rule.Rewritten.unique {r : Rule} {labels : GoMap String} {V1 V2 : List String}
    {out1 out2 : GoMap String} (h1 : r.Rewritten labels V1 out1)
    (h2 : r.Rewritten labels V2 out2)
    (hV1 : ∀ k, (mapGet labels k).isSome = true → k ∈ V1)
    (hV2 : ∀ k, (mapGet labels k).isSome = true → k ∈ V2) (x : String) :
    mapGet out1 x = mapGet out2 x := by
  have hg : ∀ (A B : List String), (∀ k, (mapGet labels k).isSome = true → k ∈ B) →
      ∀ y, r.Generated labels A x y → r.Generated labels B x y := by
    rintro A B hB y ⟨k, v, -, hv, hg⟩
    exact ⟨k, v, hB k (by rw [hv]; rfl), hv, hg⟩
  have hr : ∀ (A B : List String), (∀ k, (mapGet labels k).isSome = true → k ∈ B) →
      r.Removed labels A x → r.Removed labels B x := by
    rintro A B hB ⟨-, v, hv, ho⟩
    exact ⟨hB x (by rw [hv]; rfl), v, hv, ho⟩
  by_cases hgen : ∃ y, r.Generated labels V1 x y
  · obtain ⟨y, hy⟩ := hgen
    rw [(h1 x).1 y hy, (h2 x).1 y (hg V1 V2 hV2 y hy)]
  · have hn1 : ∀ y, ¬ r.Generated labels V1 x y := fun y hy => hgen ⟨y, hy⟩
    have hn2 : ∀ y, ¬ r.Generated labels V2 x y := fun y hy => hn1 y (hg V2 V1 hV1 y hy)
    by_cases hrem : r.Removed labels V1 x
    · rw [((h1 x).2 hn1).1 hrem, ((h2 x).2 hn2).1 (hr V1 V2 hV2 hrem)]
    · have hrem2 : ¬ r.Removed labels V2 x := fun h => hrem (hr V2 V1 hV1 h)
      rw [((h1 x).2 hn1).2 hrem, ((h2 x).2 hn2).2 hrem2]

/-- On an initialised rule `Rule.gen` is the map `GenNewLabels` returns for
the registered rewriter. -/
theorem Rule.Initialised.gen_eq {r : Rule} (h : r.Initialised) {k : String}
    {rw : KafkaAdapter.LabelRewriter} (hrw : mapGet r.labelRewriter k = some rw)
    (v : String) : ∃ rw1, rw.GenNewLabels k v = Except.ok (r.gen k v, rw1) := by
  obtain ⟨nl, rw1, g1, g2⟩ := h.genLabels_of_GenNewLabels hrw k v
  refine ⟨rw1, ?_⟩
  unfold Rule.gen
  rw [hrw]
  simp only [g2]
  exact g1

/-- C8 (amended): on an initialised rule and a label set for which no label
produced for an entry has the name of a trigger with a registered rewriter,
and no name is produced for two different entries, `RewriteLabel` returns the
same label set for every two orders of iteration that reach every entry of
the label set, whatever else they reach and however often. -/
theorem Rule.RewriteLabel_order_independent (r : Rule) (labels : GoMap String)
    (order1 order2 : List String)
    (hinit : r.Initialised)
    (h1 : ∀ k, (mapGet labels k).isSome = true → k ∈ order1)
    (h2 : ∀ k, (mapGet labels k).isSome = true → k ∈ order2)
    (hnotrig : ∀ k v rw nl rw1 x, mapGet labels k = some v →
      mapGet r.labelRewriter k = some rw → rw.GenNewLabels k v = Except.ok (nl, rw1) →
      (mapGet nl x).isSome = true → mapGet r.labelRewriter x = none)
    (hdisj : ∀ k k1 v v1 rw rw1 nl nl1 rwa rwb x, mapGet labels k = some v →
      mapGet labels k1 = some v1 → mapGet r.labelRewriter k = some rw →
      mapGet r.labelRewriter k1 = some rw1 → rw.GenNewLabels k v = Except.ok (nl, rwa) →
      rw1.GenNewLabels k1 v1 = Except.ok (nl1, rwb) → (mapGet nl x).isSome = true →
      (mapGet nl1 x).isSome = true → k = k1) :
    ∃ r1 out1 r2 out2, r.RewriteLabel order1 labels = Except.ok (r1, out1) ∧
      r.RewriteLabel order2 labels = Except.ok (r2, out2) ∧
      ∀ x, mapGet out1 x = mapGet out2 x := by
  have hrwOf : ∀ k v x, (mapGet (r.gen k v) x).isSome = true →
      ∃ rw, mapGet r.labelRewriter k = some rw := by
    intro k v x hx
    cases hrw : mapGet r.labelRewriter k with
    | none => rw [Rule.gen_of_no_rewriter r k v hrw] at hx; cases hx
    | some rw => exact ⟨rw, rfl⟩
  have hNI : r.NonInterfering labels := by
    constructor
    · intro k v x hv hx
      obtain ⟨rw, hrw⟩ := hrwOf k v x hx
      obtain ⟨rw1, hg⟩ := hinit.gen_eq hrw v
      exact hnotrig k v rw _ rw1 x hv hrw hg hx
    · intro k k1 v v1 x hv hv1 hx hx1
      obtain ⟨rw, hrw⟩ := hrwOf k v x hx
      obtain ⟨rw1, hrw1⟩ := hrwOf k1 v1 x hx1
      obtain ⟨rwa, hg⟩ := hinit.gen_eq hrw v
      obtain ⟨rwb, hg1⟩ := hinit.gen_eq hrw1 v1
      exact hdisj k k1 v v1 rw rw1 _ _ rwa rwb x hv hv1 hrw hrw1 hg hg1 hx hx1
  obtain ⟨r1, e1, -, -, -⟩ := Rule.RewriteLabel_eq order1 r labels hinit
  obtain ⟨r2, e2, -, -, -⟩ := Rule.RewriteLabel_eq order2 r labels hinit
  refine ⟨r1, _, r2, _, e1, e2, ?_⟩
  have w1 := Rule.Rewritten.foldl hNI order1 [] labels (Rule.Rewritten.init r labels)
  have w2 := Rule.Rewritten.foldl hNI order2 [] labels (Rule.Rewritten.init r labels)
  simp only [List.nil_append] at w1 w2
  exact fun x => Rule.Rewritten.unique w1 w2 h1 h2 x

/-- C8, as stated, fails.  On the rule with two rewriters (triggers `a` and
`b`) that both produce the label `c`, the label set `{a: 1, b: 2}` is
rewritten to `c = B` when `a` is reached first and to `c = A` when `b` is
reached first.  On the rule whose rewriter on `b` produces a label named
`a`, the trigger of an overwriting rewriter, the same label set keeps a key
`a` when `a` is reached first and has none when `b` is reached first. -/
theorem Rule.RewriteLabel_order_dependent :
    (twoWritersRule.Init exampleCompile).2 = none ∧
    ((twoWritersRule.Init exampleCompile).1.RewriteLabel ["a", "b"]
        [("a", "1"), ("b", "2")]).toOption.map (fun p => mapGet p.2 "c") = some (some "B") ∧
    ((twoWritersRule.Init exampleCompile).1.RewriteLabel ["b", "a"]
        [("a", "1"), ("b", "2")]).toOption.map (fun p => mapGet p.2 "c") = some (some "A") ∧
    (chainRule.Init exampleCompile).2 = none ∧
    ((chainRule.Init exampleCompile).1.RewriteLabel ["a", "b"]
        [("a", "1"), ("b", "2")]).toOption.map (fun p => mapGet p.2 "a")
      = some (some "again") ∧
    ((chainRule.Init exampleCompile).1.RewriteLabel ["b", "a"]
        [("a", "1"), ("b", "2")]).toOption.map (fun p => mapGet p.2 "a") = some none :=
  ⟨rfl, by decide, by decide, rfl, by decide, by decide⟩

/-- C5, as stated, fails.  The rewriter on `node` overwrites and produces the
non-empty map `{node: 10.10.89.61}` (its output label is named by the
sentinel `__name__`), and `node` is still a key after `RewriteLabel`.  On the
rule whose rewriter on `b` produces a label named `a`, the overwriting
rewriter on `a` produces the non-empty `{x: 1}` and `a` is a key again after
the loop has reached `a` and then `b`. -/
theorem Rule.RewriteLabel_overwrite_keeps_renamed_trigger :
    (overwriteSelfRule.Init exampleCompile).2 = none ∧
    (mapGet (overwriteSelfRule.Init exampleCompile).1.labelRewriter "node").map
      (fun rw => (rw.Overwrite,
        (rw.GenNewLabels "node" "10.10.89.61:8080").toOption.map Prod.fst))
      = some (true, some [("node", "10.10.89.61")]) ∧
    ((overwriteSelfRule.Init exampleCompile).1.RewriteLabel ["node"]
        [("node", "10.10.89.61:8080")]).toOption.map (fun p => mapGet p.2 "node")
      = some (some "10.10.89.61") ∧
    (chainRule.Init exampleCompile).2 = none ∧
    (mapGet (chainRule.Init exampleCompile).1.labelRewriter "a").map
      (fun rw => (rw.Overwrite, (rw.GenNewLabels "a" "1").toOption.map Prod.fst))
      = some (true, some [("x", "1")]) ∧
    ((chainRule.Init exampleCompile).1.RewriteLabel ["a", "b"]
        [("a", "1"), ("b", "2")]).toOption.map (fun p => mapGet p.2 "a")
      = some (some "again") :=
  ⟨rfl, by decide, by decide, rfl, by decide, by decide⟩

/-! ## Output patterns with literal names -/

theorem resolve_literal (sentinel : String) (regex : RegexHandler) (own : String)
    (m : List String) (p : String) (h : classify sentinel p = FieldClass.literal p) :
    resolve sentinel regex own m p = Except.ok p := by
  unfold resolve
  rw [h]
  rfl

/-- The loop of `GenNewLabels` over output patterns with literal, pairwise
distinct names: each name maps to the resolved value of its pattern and every
other key of the map is untouched. -/
theorem genLoop_literal (regex : RegexHandler) (key value : String) (m : List String) :
    ∀ (ls : List Label) (acc nl : GoMap String),
      (∀ l, l ∈ ls → l.Name ≠ "" ∧ classify "__name__" l.Name = FieldClass.literal l.Name) →
      (ls.map (fun l => l.Name)).Nodup →
      genLoop regex key value m ls acc = Except.ok nl →
      (∀ x, x ∉ ls.map (fun l => l.Name) → mapGet nl x = mapGet acc x) ∧
      (∀ l, l ∈ ls → ∃ y, resolve "__value__" regex value m l.Value = Except.ok y ∧
        mapGet nl l.Name = some y) := by
  intro ls
  induction ls with
  | nil =>
    intro acc nl _ _ h
    simp only [genLoop, pure_eq_ok, Except.ok.injEq] at h
    subst h
    exact ⟨fun x _ => rfl, fun l hl => by cases hl⟩
  | cons l rest ih =>
    intro acc nl hlit hnd h
    obtain ⟨hne, hcl⟩ := hlit l (List.mem_cons_self _ _)
    have hnd1 : l.Name ∉ rest.map (fun l => l.Name) ∧ (rest.map (fun l => l.Name)).Nodup := by
      simpa using hnd
    unfold genLoop at h
    rw [if_neg hne, resolve_literal "__name__" regex key m l.Name hcl] at h
    cases hv : resolve "__value__" regex value m l.Value with
    | error p => rw [hv] at h; cases h
    | ok y =>
      rw [hv] at h
      simp only [bind_ok] at h
      obtain ⟨i1, i2⟩ := ih (mapSet acc l.Name y) nl
        (fun l1 h1 => hlit l1 (List.mem_cons_of_mem _ h1)) hnd1.2 h
      constructor
      · intro x hx
        simp only [List.map_cons, List.mem_cons, not_or] at hx
        rw [i1 x hx.2, mapGet_mapSet]
        simp [hx.1]
      · intro l1 hl1
        rcases List.mem_cons.mp hl1 with rfl | hl1
        · refine ⟨y, hv, ?_⟩
          rw [i1 _ hnd1.1, mapGet_mapSet]
          simp
        · exact i2 l1 hl1

/-- The new labels of a rewriter whose output patterns have literal, pairwise
distinct names, for its own trigger and a value its pattern matches. -/
theorem genLabels_literal (l : LabelRewriter) (regex : RegexHandler) (value : String)
    (hre : l.regex = some regex)
    (hmatch : regex.Regexp.MatchString value = true)
    (hlit : ∀ x, x ∈ l.Labels → x.Name ≠ "" ∧
      classify "__name__" x.Name = FieldClass.literal x.Name)
    (hnd : (l.Labels.map (fun x => x.Name)).Nodup) :
    ∃ nl, genLabels l l.Name value = Except.ok nl ∧
      (∀ x, x ∉ l.Labels.map (fun x => x.Name) → mapGet nl x = none) ∧
      (∀ x, x ∈ l.Labels → ∃ y,
        resolve "__value__" regex value (regex.Regexp.FindStringSubmatch value) x.Value
          = Except.ok y ∧ mapGet nl x.Name = some y) := by
  obtain ⟨nl, hnl⟩ := genLabels_ok l l.Name value (by rw [hre]; rfl)
  refine ⟨nl, hnl, ?_⟩
  unfold genLabels at hnl
  simp only [ne_eq, not_true_eq_false, if_false, hre] at hnl
  by_cases h2 : l.Labels.length = 0
  · have hnil : l.Labels = [] := List.length_eq_zero.mp h2
    rw [if_pos h2] at hnl
    simp only [pure_eq_ok, Except.ok.injEq] at hnl
    subst hnl
    exact ⟨fun x _ => rfl, fun x hx => by rw [hnil] at hx; cases hx⟩
  · rw [if_neg h2] at hnl
    have h3 : ¬ (regex.Regexp.FindStringSubmatch value).length = 0 := by
      unfold Regexp.MatchString at hmatch
      unfold Regexp.FindStringSubmatch
      cases he : regex.Regexp.exec value with
      | none => rw [he] at hmatch; cases hmatch
      | some p => simp
    rw [if_neg h3] at hnl
    have := genLoop_literal regex l.Name value _ l.Labels [] nl hlit hnd hnl
    exact ⟨fun x hx => by rw [this.1 x hx]; rfl, this.2⟩

/-! ## Classification of `$n` and `$name` -/

theorem hasPrefix_dollar_cons (cs : List Char) : HasPrefix (String.mk ('$' :: cs)) "$" = true := by
  simp [HasPrefix, List.isPrefixOf]

theorem isWordChar_ne_dollar {c : Char} (h : isWordChar c = true) : c ≠ '$' := by
  intro e
  subst e
  revert h
  decide

theorem execGroupByNumber_of_no_dollar : ∀ (cs : List Char), (∀ c, c ∈ cs → c ≠ '$') →
    execGroupByNumber cs = none := by
  intro cs
  induction cs with
  | nil => intro _; rfl
  | cons c rest ih =>
    intro h
    unfold execGroupByNumber
    have hc : c ≠ '$' := h c (List.mem_cons_self _ _)
    simp only [hc, false_and, if_false]
    exact ih (fun x hx => h x (List.mem_cons_of_mem _ hx))

theorem execGroupByNumber_dollar_digits (ds : List Char) (hne : ds ≠ [])
    (hd : ds.all isDigit = true) : execGroupByNumber ('$' :: ds) = some ds := by
  unfold execGroupByNumber
  simp [hne, hd]

/-- `ParseInt` on a non-empty run of digits: its value, or the largest 64-bit
integer when the value does not fit. -/
theorem ParseInt_digits (ds : List Char) (hne : ds ≠ []) (hd : ds.all isDigit = true) :
    (ParseInt (String.mk ds)).1 =
      if (digitsValue ds : Int) > maxInt64 then maxInt64 else (digitsValue ds : Int) := by
  cases ds with
  | nil => exact absurd rfl hne
  | cons d rest =>
    have hdd : isDigit d = true := by
      simp only [List.all_cons, Bool.and_eq_true] at hd
      exact hd.1
    have hplus : d ≠ '+' := by
      intro e; subst e; revert hdd; decide
    have hminus : d ≠ '-' := by
      intro e; subst e; revert hdd; decide
    unfold ParseInt
    simp only []
    split
    · rename_i heq
      simp only [List.cons.injEq] at heq
      exact absurd heq.1 hplus
    · rename_i heq
      simp only [List.cons.injEq] at heq
      exact absurd heq.1 hminus
    · simp only [hd, List.cons_ne_nil, Bool.true_eq_false, or_self, if_false,
        Bool.false_eq_true]
      split <;> rfl

/-- A pattern `$` followed by digits is an index: the parsed number. -/
theorem classify_dollar_digits (sentinel : String) (ds : List Char)
    (hs : HasPrefix sentinel "$" = false) (hne : ds ≠ []) (hd : ds.all isDigit = true) :
    classify sentinel (String.mk ('$' :: ds)) = FieldClass.index (ParseInt (String.mk ds)).1 := by
  have hp := hasPrefix_dollar_cons ds
  have hneq : String.mk ('$' :: ds) ≠ sentinel := by
    intro e
    rw [e, hs] at hp
    cases hp
  unfold classify
  rw [if_neg hneq, if_pos hp]
  simp only [execGroupByNumber_dollar_digits ds hne hd]

/-- A pattern `$` followed by a word of at least two characters that does not
start with a digit is a group name: that word. -/
theorem classify_dollar_name (sentinel : String) (c : Char) (cs : List Char)
    (hs : HasPrefix sentinel "$" = false) (hw : isWordChar c = true)
    (hnd : isDigit c = false) (hne : cs ≠ []) (hcs : cs.all isWordChar = true) :
    classify sentinel (String.mk ('$' :: c :: cs)) = FieldClass.named (String.mk (c :: cs)) := by
  have hp := hasPrefix_dollar_cons (c :: cs)
  have hneq : String.mk ('$' :: c :: cs) ≠ sentinel := by
    intro e
    rw [e, hs] at hp
    cases hp
  have hall : ∀ x, x ∈ cs → isWordChar x = true := by
    simpa [List.all_eq_true] using hcs
  have hnum : execGroupByNumber ('$' :: c :: cs) = none := by
    unfold execGroupByNumber
    have : ¬ ((c :: cs).all isDigit = true) := by
      simp [hnd]
    simp only [this, and_false, if_false]
    apply execGroupByNumber_of_no_dollar
    intro x hx
    rcases List.mem_cons.mp hx with rfl | hx
    · exact isWordChar_ne_dollar hw
    · exact isWordChar_ne_dollar (hall x hx)
  unfold classify
  rw [if_neg hneq, if_pos hp]
  simp only [hnum]
  cases cs with
  | nil => exact absurd rfl hne
  | cons c2 tail =>
    have hc2 : isWordChar c2 = true := hall c2 (List.mem_cons_self _ _)
    have htail : tail.takeWhile isWordChar = tail := by
      rw [List.takeWhile_eq_self_iff]
      intro x hx
      exact hall x (List.mem_cons_of_mem _ hx)
    unfold execGroupByName
    simp [hnd, hc2, htail]

theorem groupAt_natCast (m : List String) (n : Nat) : groupAt m (n : Int) = m.getD n "" := by
  unfold groupAt
  by_cases h : n < m.length
  · have h1 : (-1 : Int) < (n : Int) := by omega
    have h2 : (n : Int) < (m.length : Int) := by omega
    simp [h1, h2]
  · have h2 : ¬ (n : Int) < (m.length : Int) := by omega
    simp only [h2, and_false, if_false]
    rw [List.getD_eq_default]
    omega

/-- What a resolved value is, pattern by pattern: `$n` is the text at index
`n` of the match (empty when there is none), `$name` is what
`StrResultGroupByName` finds for `name`, the sentinel is the trigger value,
and a pattern that does not start with `$` is itself. -/
theorem resolve_value_cases (regex : RegexHandler) (v : String) (m : List String)
    (p y : String) (h : resolve "__value__" regex v m p = Except.ok y) :
    (∀ ds : List Char, p = String.mk ('$' :: ds) → ds ≠ [] → ds.all isDigit = true →
      (digitsValue ds : Int) ≤ maxInt64 → y = m.getD (digitsValue ds) "") ∧
    (∀ (c : Char) (cs : List Char), p = String.mk ('$' :: c :: cs) → isWordChar c = true →
      isDigit c = false → cs ≠ [] → cs.all isWordChar = true →
      ∃ b, regex.StrResultGroupByName m (String.mk (c :: cs)) = Except.ok (b, y)) ∧
    (p = "__value__" → y = v) ∧
    (HasPrefix p "$" = false → p ≠ "__value__" → y = p) := by
  have hs : HasPrefix "__value__" "$" = false := by decide
  refine ⟨?_, ?_, ?_, ?_⟩
  · intro ds hp hne hd hle
    subst hp
    unfold resolve at h
    rw [classify_dollar_digits "__value__" ds hs hne hd, ParseInt_digits ds hne hd,
      if_neg (not_lt.mpr hle)] at h
    simp only [pure_eq_ok, Except.ok.injEq] at h
    rw [← h, groupAt_natCast]
  · intro c cs hp hw hnd hne hcs
    subst hp
    unfold resolve at h
    rw [classify_dollar_name "__value__" c cs hs hw hnd hne hcs] at h
    simp only [] at h
    cases hr : regex.StrResultGroupByName m (String.mk (c :: cs)) with
    | error e => rw [hr] at h; cases h
    | ok bx =>
      obtain ⟨b, x⟩ := bx
      rw [hr] at h
      simp only [bind_ok, pure_eq_ok, Except.ok.injEq] at h
      subst h
      exact ⟨b, rfl⟩
  · intro hp
    subst hp
    have : classify "__value__" "__value__" = FieldClass.identity := by
      unfold classify; rw [if_pos rfl]
    unfold resolve at h
    rw [this] at h
    simp only [pure_eq_ok, Except.ok.injEq] at h
    exact h.symm
  · intro hp hne
    have : classify "__value__" p = FieldClass.literal p := by
      unfold classify
      rw [if_neg hne, hp]
      simp
    rw [resolve_literal "__value__" regex v m p this] at h
    simp only [Except.ok.injEq] at h
    exact h.symm

theorem Rule.Init_single (compile : String → Except String Regexp) (r : Rule)
    (rw : KafkaAdapter.LabelRewriter) (regex : Regexp) (hrs : r.LabelRewriter = [rw])
    (hcomp : compile rw.Regex = Except.ok regex) :
    (r.Init compile).1.labelRewriter = [(rw.Name, { rw with regex := some ⟨regex⟩ })] := by
  unfold Rule.Init
  rw [hrs]
  simp only [Rule.Init.rewriters, LabelRewriter.Init, hcomp, mapSet]

/-- C6 (amended): a rule with the single rewriter `rw` (`Overwrite = false`,
output patterns with literal, non-empty, pairwise distinct names other than
the trigger) is initialised and rewrites a label set in which the trigger has
a value `v` that the pattern matches.  Then `RewriteLabel` returns; the
trigger still maps to `v`; every key that is not an output name is as it
was; every output name maps to the resolved value of its pattern: for `$n`
the text at index `n` of the match (empty when there is none), for `$name`
with a name of two or more word characters not starting with a digit what
`StrResultGroupByName` finds for `name`, for `__value__` the value `v`, for a
pattern not starting with `$` the pattern itself. -/
theorem Rule.RewriteLabel_keeps_trigger (compile : String → Except String Regexp)
    (r : Rule) (rw : KafkaAdapter.LabelRewriter) (regex : Regexp)
    (labels : GoMap String) (order : List String) (v : String)
    (hrs : r.LabelRewriter = [rw])
    (hco : ∀ l, l ∈ rw.Labels → l.Coherent)
    (hinit : (r.Init compile).2 = none)
    (hcomp : compile rw.Regex = Except.ok regex)
    (hov : rw.Overwrite = false)
    (hv : mapGet labels rw.Name = some v)
    (hmatch : regex.MatchString v = true)
    (hlit : ∀ l, l ∈ rw.Labels → l.Name ≠ "" ∧ l.Name ≠ rw.Name ∧
      classify "__name__" l.Name = FieldClass.literal l.Name)
    (hnd : (rw.Labels.map (fun l => l.Name)).Nodup)
    (hord : rw.Name ∈ order) :
    ∃ r1 out, (r.Init compile).1.RewriteLabel order labels = Except.ok (r1, out) ∧
      mapGet out rw.Name = some v ∧
      (∀ x, x ∉ rw.Labels.map (fun l => l.Name) → mapGet out x = mapGet labels x) ∧
      (∀ l, l ∈ rw.Labels → ∃ y, mapGet out l.Name = some y ∧
        (∀ ds : List Char, l.Value = String.mk ('$' :: ds) → ds ≠ [] →
          ds.all isDigit = true → (digitsValue ds : Int) ≤ maxInt64 →
          y = (regex.FindStringSubmatch v).getD (digitsValue ds) "") ∧
        (∀ (c : Char) (cs : List Char), l.Value = String.mk ('$' :: c :: cs) →
          isWordChar c = true → isDigit c = false → cs ≠ [] → cs.all isWordChar = true →
          ∃ b, RegexHandler.StrResultGroupByName ⟨regex⟩ (regex.FindStringSubmatch v)
            (String.mk (c :: cs)) = Except.ok (b, y)) ∧
        (l.Value = "__value__" → y = v) ∧
        (HasPrefix l.Value "$" = false → l.Value ≠ "__value__" → y = l.Value)) := by
  have hI : (r.Init compile).1.Initialised :=
    Rule.Init_Initialised compile r (fun x hx => by
      rw [hrs, List.mem_singleton] at hx
      subst hx
      exact hco) hinit
  have hmap := Rule.Init_single compile r rw regex hrs hcomp
  generalize (r.Init compile).1 = r1 at hI hmap ⊢
  obtain ⟨r2, e1, -, -, -⟩ := Rule.RewriteLabel_eq order r1 labels hI
  refine ⟨r2, _, e1, ?_⟩
  -- the new labels of the only rewriter
  obtain ⟨nl, hnl, hkeys, hvals⟩ := genLabels_literal
    { rw with regex := some ⟨regex⟩ } ⟨regex⟩ v rfl hmatch
    (fun x hx => ⟨(hlit x hx).1, (hlit x hx).2.2⟩) hnd
  have hget : ∀ k, mapGet r1.labelRewriter k =
      if rw.Name = k then some { rw with regex := some ⟨regex⟩ } else none := by
    intro k
    rw [hmap]
    rfl
  have hgent : r1.gen rw.Name v = nl := by
    unfold Rule.gen
    rw [hget]
    simp only [if_true]
    rw [hnl]
  have hgeno : ∀ k v1, k ≠ rw.Name → r1.gen k v1 = [] := by
    intro k v1 hk
    apply Rule.gen_of_no_rewriter
    rw [hget, if_neg (fun e => hk e.symm)]
  have how : ∀ k v1, r1.overwrites k v1 = false := by
    intro k v1
    unfold Rule.overwrites
    rw [hget]
    split
    · rfl
    · rename_i rw1 h
      split at h
      · simp only [Option.some.injEq] at h
        subst h
        simp [hov]
      · cases h
  have hsrc : ∀ k v1 x, mapGet labels k = some v1 →
      (mapGet (r1.gen k v1) x).isSome = true →
      k = rw.Name ∧ v1 = v ∧ x ∈ rw.Labels.map (fun l => l.Name) := by
    intro k v1 x hk hx
    by_cases hkt : k = rw.Name
    · subst hkt
      rw [hv] at hk
      cases hk
      refine ⟨rfl, rfl, ?_⟩
      by_contra hnot
      rw [hgent, hkeys x hnot] at hx
      cases hx
    · rw [hgeno k v1 hkt] at hx
      cases hx
  have hNI : r1.NonInterfering labels := by
    constructor
    · intro k v1 x hk hx
      obtain ⟨-, -, hmem⟩ := hsrc k v1 x hk hx
      obtain ⟨l, hl, rfl⟩ := List.mem_map.mp hmem
      rw [hget, if_neg (fun e => (hlit l hl).2.1 e.symm)]
    · intro k k1 v1 v2 x hk hk1 hx hx1
      rw [(hsrc k v1 x hk hx).1, (hsrc k1 v2 x hk1 hx1).1]
  have hR := Rule.Rewritten.foldl hNI order [] labels (Rule.Rewritten.init r1 labels)
  simp only [List.nil_append] at hR
  have hkeep : ∀ x, x ∉ rw.Labels.map (fun l => l.Name) →
      mapGet (order.foldl r1.step labels) x = mapGet labels x := by
    intro x hx
    have hng : ∀ y, ¬ r1.Generated labels order x y := by
      rintro y ⟨k, v1, -, hk, hg⟩
      exact hx (hsrc k v1 x hk (by rw [hg]; rfl)).2.2
    have hnr : ¬ r1.Removed labels order x := by
      rintro ⟨-, v1, -, ho⟩
      rw [how] at ho
      cases ho
    exact ((hR x).2 hng).2 hnr
  have htn : rw.Name ∉ rw.Labels.map (fun l => l.Name) := by
    intro hmem
    obtain ⟨l, hl, he⟩ := List.mem_map.mp hmem
    exact (hlit l hl).2.1 he
  refine ⟨by rw [hkeep _ htn, hv], hkeep, ?_⟩
  intro l hl
  obtain ⟨y, hy1, hy2⟩ := hvals l hl
  refine ⟨y, ?_, resolve_value_cases ⟨regex⟩ v _ l.Value y hy1⟩
  exact (hR l.Name).1 y ⟨rw.Name, v, hord, hv, by rw [hgent]; exact hy2⟩

/-- The new labels of a rewriter whose output patterns have literal, pairwise
distinct names carry no other name. -/
theorem genLabels_keys_literal (l : LabelRewriter) (key value : String) (nl : GoMap String)
    (hlit : ∀ x, x ∈ l.Labels → x.Name ≠ "" ∧
      classify "__name__" x.Name = FieldClass.literal x.Name)
    (hnd : (l.Labels.map (fun x => x.Name)).Nodup)
    (h : genLabels l key value = Except.ok nl) :
    ∀ x, x ∉ l.Labels.map (fun x => x.Name) → mapGet nl x = none := by
  have hnil : (pure [] : Except Panic (GoMap String)) = Except.ok nl →
      ∀ x, x ∉ l.Labels.map (fun x => x.Name) → mapGet nl x = none := by
    intro hx x _
    simp only [pure_eq_ok, Except.ok.injEq] at hx
    subst hx
    rfl
  unfold genLabels at h
  split at h
  · exact hnil h
  · split at h
    · exact hnil h
    · cases hre : l.regex with
      | none => rw [hre] at h; cases h
      | some regex =>
        rw [hre] at h
        simp only [] at h
        split at h
        · exact hnil h
        · intro x hx
          rw [(genLoop_literal regex key value _ l.Labels [] nl hlit hnd h).1 x hx]
          rfl

/-- The rewriter registered by the rule of `TestRule_RewriteLabel`, with or
without `Overwrite`, only produces labels named `ip` and `port`. -/
theorem testRewriter_keys (ov : Bool) (regex : Option RegexHandler) (key value : String)
    (nl : GoMap String)
    (h : genLabels { testRewriter with Overwrite := ov, regex := regex } key value
      = Except.ok nl) (x : String) (hx : (mapGet nl x).isSome = true) :
    x = "ip" ∨ x = "port" := by
  by_contra hnot
  have hnone := genLabels_keys_literal _ key value nl
    (fun l hl => by
      simp only [testRewriter, List.mem_cons, List.mem_singleton, List.not_mem_nil,
        or_false] at hl
      rcases hl with rfl | rfl
      · exact ⟨by decide, by decide⟩
      · exact ⟨by decide, by decide⟩)
    (by
      show (testRewriter.Labels.map (fun x => x.Name)).Nodup
      decide) h x
    (by
      simp only [testRewriter, List.map_cons, List.map_nil, List.mem_cons,
        List.mem_singleton, List.not_mem_nil, or_false]
      exact hnot)
  rw [hnone] at hx
  cases hx

theorem testRewriter_Coherent (l : Label) (hl : l ∈ testRewriter.Labels) : l.Coherent := by
  simp only [testRewriter, List.mem_cons, List.mem_singleton, List.not_mem_nil,
    or_false] at hl
  rcases hl with rfl | rfl
  · exact ⟨fun h => (by cases h), fun h => (by cases h)⟩
  · exact ⟨fun h => (by cases h), fun h => (by cases h)⟩

theorem overwriteRule_Initialised : (overwriteRule.Init exampleCompile).1.Initialised :=
  Rule.Init_Initialised exampleCompile overwriteRule
    (fun rw hrw l hl => by
      simp only [overwriteRule, List.mem_singleton] at hrw
      subst hrw
      exact testRewriter_Coherent l hl) rfl

/-- C5 (amended), on the rule of `TestRule_RewriteLabel` with `Overwrite`
set: the labels `ip` and `port` are produced and `node` is gone. -/
theorem Rule.RewriteLabel_overwrite_removes_trigger_example :
    ∃ r1 out, (overwriteRule.Init exampleCompile).1.RewriteLabel ["node"]
        [("node", "10.10.89.61:8080")] = Except.ok (r1, out) ∧ mapGet out "node" = none := by
  have hI := overwriteRule_Initialised
  have hmap : (overwriteRule.Init exampleCompile).1.labelRewriter =
      [("node", { testRewriter with Overwrite := true, regex := some ⟨ipPortPattern⟩ })] := rfl
  have hrw : mapGet (overwriteRule.Init exampleCompile).1.labelRewriter "node" =
      some { testRewriter with Overwrite := true, regex := some ⟨ipPortPattern⟩ } := rfl
  obtain ⟨rw1, hgen⟩ := hI.gen_eq hrw "10.10.89.61:8080"
  exact Rule.RewriteLabel_overwrite_removes_trigger (overwriteRule.Init exampleCompile).1
    [("node", "10.10.89.61:8080")] ["node"] "node" "10.10.89.61:8080" _ rw1 _
    hI rfl hrw rfl hgen (by decide) (List.mem_singleton.mpr rfl)
    (fun k1 v1 rw2 nl1 rw3 h1 h2 => by
      obtain ⟨nl2, rw4, g1, g2⟩ := hI.genLabels_of_GenNewLabels h1 k1 v1
      rw [h2] at g1
      cases g1
      rw [hmap] at h1
      simp only [mapGet] at h1
      split at h1
      · simp only [Option.some.injEq] at h1
        subst h1
        cases hx : mapGet nl1 "node" with
        | none => rfl
        | some y =>
          rcases testRewriter_keys true _ k1 v1 nl1 g2 "node" (by rw [hx]; rfl) with h | h
          · exact absurd h (by decide)
          · exact absurd h (by decide)
      · cases h1)

/-- C6, as stated, fails.  For the value pattern `$h`, whose name has a single
character, the output label `host` gets the pattern text `$h`, while the
capture group called `h` of the match is `web1`.  And on the rule of
`TestRule_RewriteLabel` the original label `ip = old`, which is not the
trigger, does not stay unchanged: it gets the value of the output `ip`. -/
theorem Rule.RewriteLabel_short_group_name_is_literal :
    (shortNameRule.Init exampleCompile).2 = none ∧
    ((shortNameRule.Init exampleCompile).1.RewriteLabel ["node"]
        [("node", "web1")]).toOption.map (fun p => (mapGet p.2 "node", mapGet p.2 "host"))
      = some (some "web1", some "$h") ∧
    RegexHandler.StrResultGroupByName ⟨hostPattern⟩ (hostPattern.FindStringSubmatch "web1") "h"
      = Except.ok (true, "web1") ∧
    (testRuleRewrite.Init exampleCompile).2 = none ∧
    ((testRuleRewrite.Init exampleCompile).1.RewriteLabel ["node", "ip"]
        [("node", "10.10.89.61:8080"), ("ip", "old")]).toOption.map
        (fun p => mapGet p.2 "ip") = some (some "10.10.89.61") :=
  ⟨rfl, by decide, rfl, rfl, by decide⟩

/-- C6 (amended), on the scenario of `TestRule_RewriteLabel`: the label set
`{node: 10.10.89.61:8080}` is rewritten to one with `node` unchanged,
`ip = 10.10.89.61` (from `$1`) and `port = 8080` (from `$port`), and every
other key absent as before. -/
theorem Rule.RewriteLabel_keeps_trigger_example :
    ∃ r1 out, (testRuleRewrite.Init exampleCompile).1.RewriteLabel ["node"]
        [("node", "10.10.89.61:8080")] = Except.ok (r1, out) ∧
      mapGet out "node" = some "10.10.89.61:8080" ∧
      mapGet out "ip" = some "10.10.89.61" ∧
      mapGet out "port" = some "8080" ∧
      ∀ x, x ≠ "node" → x ≠ "ip" → x ≠ "port" → mapGet out x = none := by
  obtain ⟨r1, out, h1, h2, h3, h4⟩ := Rule.RewriteLabel_keeps_trigger exampleCompile
    testRuleRewrite testRewriter ipPortPattern [("node", "10.10.89.61:8080")] ["node"]
    "10.10.89.61:8080" rfl testRewriter_Coherent rfl rfl rfl rfl rfl
    (fun l hl => by
      simp only [testRewriter, List.mem_cons, List.mem_singleton, List.not_mem_nil,
        or_false] at hl
      rcases hl with rfl | rfl
      · exact ⟨by decide, by decide, by decide⟩
      · exact ⟨by decide, by decide, by decide⟩)
    (by decide) (List.mem_singleton.mpr rfl)
  refine ⟨r1, out, h1, h2, ?_, ?_, ?_⟩
  · obtain ⟨y, hy, ha, -, -, -⟩ := h4 { Name := "ip", Value := "$1" }
      (by simp [testRewriter])
    have := ha ['1'] rfl (by decide) (by decide) (by decide)
    rw [hy, this]
    decide
  · obtain ⟨y, hy, -, hb, -, -⟩ := h4 { Name := "port", Value := "$port" }
      (by simp [testRewriter])
    obtain ⟨b, hb1⟩ := hb 'p' ['o', 'r', 't'] rfl (by decide) (by decide) (by decide)
      (by decide)
    have hc : RegexHandler.StrResultGroupByName ⟨ipPortPattern⟩
        (ipPortPattern.FindStringSubmatch "10.10.89.61:8080") (String.mk ['p', 'o', 'r', 't'])
        = Except.ok (true, "8080") := rfl
    rw [hc] at hb1
    simp only [Except.ok.injEq, Prod.mk.injEq] at hb1
    rw [hy, ← hb1.2]
  · intro x hx1 hx2 hx3
    rw [h3 x (by simp [testRewriter, hx2, hx3])]
    simp [mapGet, Ne.symm hx1]

theorem testRuleRewrite_Initialised : (testRuleRewrite.Init exampleCompile).1.Initialised :=
  Rule.Init_Initialised exampleCompile testRuleRewrite
    (fun rw hrw l hl => by
      simp only [testRuleRewrite, List.mem_singleton] at hrw
      subst hrw
      exact testRewriter_Coherent l hl) rfl

theorem testRuleRewrite_rewriter (k : String) (rw : LabelRewriter)
    (h : mapGet (testRuleRewrite.Init exampleCompile).1.labelRewriter k = some rw) :
    k = "node" ∧ rw = { testRewriter with regex := some ⟨ipPortPattern⟩ } := by
  have hmap : (testRuleRewrite.Init exampleCompile).1.labelRewriter =
      [("node", { testRewriter with regex := some ⟨ipPortPattern⟩ })] := rfl
  rw [hmap] at h
  simp only [mapGet] at h
  split at h
  · rename_i hk
    simp only [Option.some.injEq] at h
    exact ⟨hk.symm, h.symm⟩
  · cases h

/-- C8 (amended), on the rule of `TestRule_RewriteLabel` and the label set
`{node: 10.10.89.61:8080, job: x}`: reaching `node` before `job`, or `job`
first and the created entry `ip` as well, gives the same label set. -/
theorem Rule.RewriteLabel_order_independent_example :
    ∃ r1 out1 r2 out2,
      (testRuleRewrite.Init exampleCompile).1.RewriteLabel ["node", "job"]
        [("node", "10.10.89.61:8080"), ("job", "x")] = Except.ok (r1, out1) ∧
      (testRuleRewrite.Init exampleCompile).1.RewriteLabel ["job", "node", "ip"]
        [("node", "10.10.89.61:8080"), ("job", "x")] = Except.ok (r2, out2) ∧
      ∀ x, mapGet out1 x = mapGet out2 x := by
  have hI := testRuleRewrite_Initialised
  have hkeys : ∀ k, (mapGet [("node", "10.10.89.61:8080"), ("job", "x")] k).isSome = true →
      k = "node" ∨ k = "job" := by
    intro k hk
    simp only [mapGet] at hk
    split at hk
    · rename_i h; exact Or.inl h.symm
    · split at hk
      · rename_i h; exact Or.inr h.symm
      · cases hk
  have hnone : ∀ x, x = "ip" ∨ x = "port" →
      mapGet (testRuleRewrite.Init exampleCompile).1.labelRewriter x = none := by
    intro x hx
    rcases hx with rfl | rfl <;> rfl
  exact Rule.RewriteLabel_order_independent (testRuleRewrite.Init exampleCompile).1
    [("node", "10.10.89.61:8080"), ("job", "x")] ["node", "job"] ["job", "node", "ip"] hI
    (fun k hk => by rcases hkeys k hk with rfl | rfl <;> simp)
    (fun k hk => by rcases hkeys k hk with rfl | rfl <;> simp)
    (fun k v rw nl rw1 x _ h2 h3 h4 => by
      obtain ⟨nl2, rw4, g1, g2⟩ := hI.genLabels_of_GenNewLabels h2 k v
      rw [h3] at g1
      cases g1
      obtain ⟨-, rfl⟩ := testRuleRewrite_rewriter k rw h2
      exact hnone x (testRewriter_keys false _ k v nl g2 x h4))
    (fun k k1 v v1 rw rw1 nl nl1 rwa rwb x _ _ h3 h4 _ _ _ _ => by
      rw [(testRuleRewrite_rewriter k rw h3).1, (testRuleRewrite_rewriter k1 rw1 h4).1])

/-! ## `GenNewLabels` returning the empty map -/

/-- C7: `GenNewLabels(key, value)` is the empty map (and changes nothing of
the rewriter) when `key` differs from `l.Name`, when `l.Labels` is empty, and,
for an initialised rewriter, when its pattern has no match in `value`. -/
theorem LabelRewriter.GenNewLabels_empty (l : LabelRewriter) (key value : String) :
    (key ≠ l.Name → l.GenNewLabels key value = Except.ok ([], l)) ∧
    (l.Labels = [] → l.GenNewLabels key value = Except.ok ([], l)) ∧
    (∀ regex, l.regex = some regex → regex.Regexp.MatchString value = false →
      l.GenNewLabels key value = Except.ok ([], l)) := by
  refine ⟨fun h => ?_, fun h => ?_, fun regex hre hm => ?_⟩
  · unfold LabelRewriter.GenNewLabels
    rw [if_pos h]
    rfl
  · unfold LabelRewriter.GenNewLabels
    split
    · rfl
    · rw [if_pos (by rw [h]; rfl)]
      rfl
  · unfold LabelRewriter.GenNewLabels
    split
    · rfl
    · split
      · rfl
      · rw [hre]
        have : (regex.Regexp.FindStringSubmatch value).length = 0 := by
          unfold Regexp.MatchString at hm
          unfold Regexp.FindStringSubmatch
          cases he : regex.Regexp.exec value with
          | none => rfl
          | some p => rw [he] at hm; cases hm
        simp only [this, if_true]
        rfl

/-- C7, on the rewriter of `TestRule_RewriteLabel` once initialised: the key
`job` is not its trigger, and its pattern has no match in `no-colon`. -/
theorem LabelRewriter.GenNewLabels_empty_example :
    LabelRewriter.GenNewLabels { testRewriter with regex := some ⟨ipPortPattern⟩ }
      "job" "10.10.89.61:8080"
      = Except.ok ([], { testRewriter with regex := some ⟨ipPortPattern⟩ }) ∧
    LabelRewriter.GenNewLabels { testRewriter with regex := some ⟨ipPortPattern⟩ }
      "node" "no-colon"
      = Except.ok ([], { testRewriter with regex := some ⟨ipPortPattern⟩ }) :=
  ⟨(LabelRewriter.GenNewLabels_empty { testRewriter with regex := some ⟨ipPortPattern⟩ }
      "job" "10.10.89.61:8080").1 (by decide),
   (LabelRewriter.GenNewLabels_empty { testRewriter with regex := some ⟨ipPortPattern⟩ }
      "node" "no-colon").2.2 ⟨ipPortPattern⟩ rfl (by decide)⟩

/-! ## The sample loop of `SerializeToEasyOps` -/

/-- Without a selected rule the sample loop returns and only counts every
sample as filtered. -/
theorem SerializeToEasyOps.samples_unselected (s : Serializer) (DefaultORG : Int)
    (rule : Option Rule) (name : String) (labels : GoMap String) :
    ∀ (smp : List Sample) (st : RunState),
      SerializeToEasyOps.samples s DefaultORG false rule name labels smp st =
        Except.ok { st with counters :=
          { st.counters with objectsFiltered := st.counters.objectsFiltered + smp.length } } := by
  intro smp
  induction smp with
  | nil => intro st; rfl
  | cons sample rest ih =>
    intro st
    unfold SerializeToEasyOps.samples
    simp only [Bool.not_false, if_true]
    rw [ih]
    simp only [List.length_cons]
    congr 3
    omega

theorem marshalAndAppend_marshalled (s : Serializer) (st : RunState) (t : String)
    (m : Record) : (marshalAndAppend s st t m).marshalled = st.marshalled ++ [m] := rfl

/-- With a rule selected, the sample loop returns and passes to `Marshal`, in
order, one record per sample: key and org of the rule, the label set as
`dims`, the name and the sample. -/
theorem SerializeToEasyOps.samples_selected (s : Serializer) (DefaultORG : Int)
    (rule : Rule) (name : String) (labels : GoMap String) :
    ∀ (smp : List Sample) (st : RunState),
      ∃ st1, SerializeToEasyOps.samples s DefaultORG true (some rule) name labels smp st
          = Except.ok st1 ∧
        st1.marshalled = st.marshalled ++ smp.map (fun sample =>
          Record.easyops rule.Token (if rule.Org = 0 then DefaultORG else rule.Org) labels
            name sample.Value sample.Timestamp) := by
  intro smp
  induction smp with
  | nil => intro st; exact ⟨st, rfl, by simp⟩
  | cons sample rest ih =>
    intro st
    unfold SerializeToEasyOps.samples
    simp only [Bool.not_true, Bool.false_eq_true, if_false]
    obtain ⟨st1, h1, h2⟩ := ih (marshalAndAppend s st rule.Topic
      (Record.easyops rule.Token (if rule.Org = 0 then DefaultORG else rule.Org) labels name
        sample.Value sample.Timestamp))
    refine ⟨st1, h1, ?_⟩
    rw [h2, marshalAndAppend_marshalled]
    simp

/-! ## The delete step -/

theorem mapGet_foldl_mapDelete : ∀ (ks : List String) (m : GoMap String) (x : String),
    mapGet (ks.foldl mapDelete m) x = if x ∈ ks then none else mapGet m x := by
  intro ks
  induction ks with
  | nil => intro m x; simp
  | cons k rest ih =>
    intro m x
    rw [List.foldl_cons, ih, mapGet_mapDelete]
    by_cases h1 : x ∈ rest
    · simp [h1]
    · by_cases h2 : x = k
      · simp [h2]
      · simp [h1, h2]

/-- After the delete step no key of a non-empty delete-set is in the label
set. -/
theorem deleteLabels_removes (D : GoMap Bool) (labels : GoMap String) (k : String)
    (hD : D ≠ []) (hk : (mapGet D k).isSome = true) :
    mapGet (deleteLabels D labels) k = none := by
  unfold deleteLabels
  have hlen : ¬ D.length = 0 := fun h => hD (List.length_eq_zero.mp h)
  rw [if_neg hlen]
  simp only []
  rw [mapGet_foldl_mapDelete]
  split
  · rfl
  · rename_i hnot
    by_contra hne
    apply hnot
    have hmem : k ∈ mapKeys labels := by
      by_contra hnm
      exact hne ((mapGet_eq_none_iff labels k).mpr hnm)
    simp only [List.singleton_append, List.mem_cons, List.mem_filter]
    exact Or.inr ⟨hmem, hk⟩

/-- The body of the loop of `RewriteLabel`, when it returns, has changed
nothing of the rule but the private rewriter map. -/
theorem Rule.RewriteLabel.body_frame (r r1 : Rule) (labels l1 : GoMap String) (key : String)
    (h : Rule.RewriteLabel.body r labels key = Except.ok (r1, l1)) :
    r1 = { r with labelRewriter := r1.labelRewriter } := by
  unfold Rule.RewriteLabel.body at h
  have hsame : ∀ x : Rule × GoMap String,
      (pure (r, labels) : Except Panic (Rule × GoMap String)) = Except.ok x →
      x.1 = { r with labelRewriter := x.1.labelRewriter } := by
    intro x hx
    simp only [pure_eq_ok, Except.ok.injEq] at hx
    subst hx
    rfl
  split at h
  · exact hsame _ h
  · split at h
    · exact hsame _ h
    · rename_i rewriter _
      cases hg : rewriter.GenNewLabels key _ with
      | error p => rw [hg] at h; cases h
      | ok res =>
        rw [hg] at h
        simp only [bind_ok, pure_eq_ok, Except.ok.injEq, Prod.mk.injEq] at h
        rw [← h.1]

/-- `RewriteLabel`, when it returns, has changed nothing of the rule but the
private rewriter map. -/
theorem Rule.RewriteLabel_frame : ∀ (order : List String) (r r1 : Rule)
    (labels l1 : GoMap String), r.RewriteLabel order labels = Except.ok (r1, l1) →
    r1 = { r with labelRewriter := r1.labelRewriter } := by
  intro order
  induction order with
  | nil =>
    intro r r1 labels l1 h
    simp only [Rule.RewriteLabel, pure_eq_ok, Except.ok.injEq, Prod.mk.injEq] at h
    rw [← h.1]
  | cons key rest ih =>
    intro r r1 labels l1 h
    unfold Rule.RewriteLabel at h
    cases hb : Rule.RewriteLabel.body r labels key with
    | error p => rw [hb] at h; cases h
    | ok res =>
      obtain ⟨r2, l2⟩ := res
      rw [hb] at h
      simp only [bind_ok] at h
      have e1 := Rule.RewriteLabel.body_frame r r2 labels l2 key hb
      have e2 := ih r2 r1 l2 l1 h
      rw [e2, e1]

/-- C9: for a timeseries whose name selects a rule with a non-empty
`DeleteLabels`, every record `SerializeToEasyOps` passes to `Marshal` for it
(one per sample) has a `dims` without any key of `DeleteLabels`, whether the
label came with the timeseries or was created by the rewrite step; and the
iteration returns when the rule is initialised. -/
theorem SerializeToEasyOps.timeseries_dims_without_deleted (s : Serializer)
    (order : List String) (eoc : EasyOpsConfig) (st : RunState) (ts : TimeSeries)
    (idx : Nat) (rule : Rule)
    (hsel : eoc.Select ((mapGet (buildLabels ts.Labels) "__name__").getD "")
      = Except.ok (true, some (idx, rule)))
    (hdel : rule.DeleteLabels ≠ []) :
    (∀ eoc1 st1, SerializeToEasyOps.timeseries s order eoc st ts = Except.ok (eoc1, st1) →
      ∃ new, st1.marshalled = st.marshalled ++ new ∧ new.length = ts.Samples.length ∧
        ∀ rec, rec ∈ new → ∃ key org dims name value time,
          rec = Record.easyops key org dims name value time ∧
          ∀ k, (mapGet rule.DeleteLabels k).isSome = true → mapGet dims k = none) ∧
    (rule.Initialised →
      ∃ eoc1 st1, SerializeToEasyOps.timeseries s order eoc st ts = Except.ok (eoc1, st1)) := by
  unfold SerializeToEasyOps.timeseries
  simp only [hsel, bind_ok, if_true]
  constructor
  · intro eoc1 st1 hrun
    cases hrw : rule.RewriteLabel order (buildLabels ts.Labels) with
    | error p => rw [hrw] at hrun; cases hrun
    | ok res =>
      obtain ⟨rule1, labels1⟩ := res
      rw [hrw] at hrun
      simp only [bind_ok] at hrun
      have hframe := Rule.RewriteLabel_frame order rule rule1 _ labels1 hrw
      have hD : rule1.DeleteLabels = rule.DeleteLabels := by rw [hframe]
      obtain ⟨st2, h1, h2⟩ := SerializeToEasyOps.samples_selected s eoc.DefaultORG rule1
        ((mapGet (buildLabels ts.Labels) "__name__").getD "")
        (deleteLabels rule1.DeleteLabels labels1) ts.Samples st
      rw [h1] at hrun
      simp only [bind_ok, pure_eq_ok, Except.ok.injEq, Prod.mk.injEq] at hrun
      rw [← hrun.2]
      refine ⟨_, h2, by simp, ?_⟩
      intro rec hrec
      obtain ⟨sample, -, rfl⟩ := List.mem_map.mp hrec
      refine ⟨_, _, _, _, _, _, rfl, ?_⟩
      intro k hk
      rw [hD]
      exact deleteLabels_removes rule.DeleteLabels labels1 k hdel hk
  · intro hI
    obtain ⟨rule1, hrw, -, -, -⟩ := Rule.RewriteLabel_eq order rule (buildLabels ts.Labels) hI
    rw [hrw]
    simp only [bind_ok]
    obtain ⟨st2, h1, -⟩ := SerializeToEasyOps.samples_selected s eoc.DefaultORG rule1
      ((mapGet (buildLabels ts.Labels) "__name__").getD "")
      (deleteLabels rule1.DeleteLabels (order.foldl rule.step (buildLabels ts.Labels)))
      ts.Samples st
    rw [h1]
    exact ⟨_, _, rfl⟩

theorem deleteRule_Initialised : (deleteRule.Init exampleCompile).1.Initialised :=
  Rule.Init_Initialised exampleCompile deleteRule
    (fun rw hrw l hl => by
      simp only [deleteRule, List.mem_singleton] at hrw
      subst hrw
      exact testRewriter_Coherent l hl) rfl

/-- C9, on a rule with the delete-set `{port, job}` whose rewriter creates
`ip` and `port` from `node`: the single record passed to `Marshal` has the
`dims` `{__name__, node, ip}`, without `job` (original) and `port` (created). -/
theorem SerializeToEasyOps.timeseries_dims_without_deleted_example :
    (∃ eoc1 st1 new,
      SerializeToEasyOps.timeseries failingSerializer ["__name__", "node", "job"]
        deleteConfig {} nodeSeries = Except.ok (eoc1, st1) ∧
      st1.marshalled = [] ++ new ∧ new.length = 1 ∧
      ∀ rec, rec ∈ new → ∃ key org dims name value time,
        rec = Record.easyops key org dims name value time ∧
        ∀ k, (mapGet (deleteRule.Init exampleCompile).1.DeleteLabels k).isSome = true →
          mapGet dims k = none) ∧
    (SerializeToEasyOps.timeseries failingSerializer ["__name__", "node", "job"]
        deleteConfig {} nodeSeries).toOption.map (fun p => p.2.marshalled)
      = some [Record.easyops "tok" 7
          [("__name__", "up"), ("node", "10.10.89.61:8080"), ("ip", "10.10.89.61")]
          "up" 1 1000] := by
  have h := SerializeToEasyOps.timeseries_dims_without_deleted failingSerializer
    ["__name__", "node", "job"] deleteConfig {} nodeSeries 0
    (deleteRule.Init exampleCompile).1 rfl (by decide)
  obtain ⟨eoc1, st1, hrun⟩ := h.2 deleteRule_Initialised
  obtain ⟨new, h1, h2, h3⟩ := h.1 eoc1 st1 hrun
  exact ⟨⟨eoc1, st1, new, hrun, h1, h2, h3⟩, by decide⟩

/-! ## A batch that no rule selects -/

theorem SerializeToEasyOps.timeseries_unselected (s : Serializer) (order : List String)
    (eoc : EasyOpsConfig) (st : RunState) (ts : TimeSeries)
    (h : ∀ q, q ∈ eoc.Rules →
      q.Selected ((mapGet (buildLabels ts.Labels) "__name__").getD "") = Except.ok false) :
    SerializeToEasyOps.timeseries s order eoc st ts =
      Except.ok (eoc, { st with counters := { st.counters with
        objectsFiltered := st.counters.objectsFiltered + ts.Samples.length } }) := by
  have hsel : eoc.Select ((mapGet (buildLabels ts.Labels) "__name__").getD "")
      = Except.ok (false, none) := by
    rw [EasyOpsConfig.Select_eq_loop, EasyOpsConfig.Select.loop_false]
    exact h
  unfold SerializeToEasyOps.timeseries
  simp only [hsel, bind_ok, Bool.false_eq_true, if_false, Option.map_none']
  rw [SerializeToEasyOps.samples_unselected]
  rfl

theorem SerializeToEasyOps.loop_unselected (s : Serializer) (order : Nat → List String)
    (eoc : EasyOpsConfig) :
    ∀ (tss : List TimeSeries) (i : Nat) (st : RunState),
      (∀ ts, ts ∈ tss → ∀ q, q ∈ eoc.Rules →
        q.Selected ((mapGet (buildLabels ts.Labels) "__name__").getD "") = Except.ok false) →
      SerializeToEasyOps.loop s order i tss eoc st =
        Except.ok (eoc, { st with counters := { st.counters with
          objectsFiltered := st.counters.objectsFiltered +
            (tss.map (fun ts => ts.Samples.length)).sum } }) := by
  intro tss
  induction tss with
  | nil => intro i st _; rfl
  | cons ts rest ih =>
    intro i st h
    unfold SerializeToEasyOps.loop
    rw [SerializeToEasyOps.timeseries_unselected s (order i) eoc st ts
      (h ts (List.mem_cons_self _ _))]
    simp only [bind_ok]
    rw [ih (i + 1) _ (fun t ht => h t (List.mem_cons_of_mem _ ht))]
    simp only [List.map_cons, List.sum_cons, Nat.add_assoc]

/-- C10: when no rule selects the name of any timeseries of the batch,
`SerializeToEasyOps` returns an empty result, `Marshal` is never called, the
filtered counter grows by the number of samples of the batch, and the
counters of serialize attempts and failures do not move. -/
theorem SerializeToEasyOps_none_selected (s : Serializer) (order : Nat → List String)
    (eoc : EasyOpsConfig) (counters : Counters) (req : WriteRequest)
    (h : ∀ ts, ts ∈ req.Timeseries → ∀ q, q ∈ eoc.Rules →
      q.Selected ((mapGet (buildLabels ts.Labels) "__name__").getD "") = Except.ok false) :
    ∃ st, SerializeToEasyOps s order eoc counters req = Except.ok (eoc, st) ∧
      st.result = [] ∧ st.marshalled = [] ∧
      st.counters.objectsFiltered = counters.objectsFiltered +
        (req.Timeseries.map (fun ts => ts.Samples.length)).sum ∧
      st.counters.serializeTotal = counters.serializeTotal ∧
      st.counters.serializeFailed = counters.serializeFailed := by
  unfold SerializeToEasyOps
  rw [SerializeToEasyOps.loop_unselected s order eoc req.Timeseries 0 _ h]
  exact ⟨_, rfl, rfl, rfl, rfl, rfl, rfl⟩

/-- C10, on a batch of three samples in two timeseries that no rule of
`exampleConfig` selects: nothing is returned and three samples are counted as
filtered. -/
theorem SerializeToEasyOps_none_selected_example :
    ∃ st, SerializeToEasyOps failingSerializer (fun _ => []) exampleConfig {} unselectedBatch
        = Except.ok (exampleConfig, st) ∧
      st.result = [] ∧ st.marshalled = [] ∧ st.counters.objectsFiltered = 3 := by
  obtain ⟨st, h1, h2, h3, h4, -, -⟩ := SerializeToEasyOps_none_selected failingSerializer
    (fun _ => []) exampleConfig {} unselectedBatch
    (fun ts hts q hq => by
      simp only [exampleConfig, List.mem_cons, List.mem_singleton, List.not_mem_nil,
        or_false] at hq
      simp only [unselectedBatch, List.mem_cons, List.mem_singleton, List.not_mem_nil,
        or_false] at hts
      rcases hts with rfl | rfl <;> rcases hq with rfl | rfl | rfl <;> rfl)
  exact ⟨st, h1, h2, h3, by rw [h4]; rfl⟩

/-! ## The getters -/

/-- `GetName` reads the cached text when `_name` is set, whatever
`_reloadName` says, and classifies the name first when it is not. -/
theorem Label.GetName_eq (l : Label) :
    l.GetName =
      if l._name = true then Except.ok (l.nameAsStr, l)
      else Except.ok (l.classifiedName.nameAsStr, l.classifiedName) := by
  unfold Label.GetName
  rw [Label.GetLabelType_eq]
  cases h : l._name <;> simp

/-- `GetNameIndex`, like `GetName`, looks at `_name` only. -/
theorem Label.GetNameIndex_eq (l : Label) :
    l.GetNameIndex =
      if l._name = true then
        Except.ok ((if l.nameType = LabelType.LabelIsRegexGroupIndex then l.nameAsIndex
          else -1), l)
      else
        Except.ok ((if l.classifiedName.nameType = LabelType.LabelIsRegexGroupIndex then
          l.classifiedName.nameAsIndex else -1), l.classifiedName) := by
  unfold Label.GetNameIndex
  rw [Label.GetLabelType_eq]
  cases h : l._name <;> simp

/-- `GetValue` reads the cached text when `_value` is set, whatever
`_reloadValue` says, and classifies the value first when it is not. -/
theorem Label.GetValue_eq (l : Label) :
    l.GetValue =
      if l._value = true then Except.ok (l.valueAsStr, l)
      else Except.ok (l.classifiedValue.valueAsStr, l.classifiedValue) := by
  unfold Label.GetValue
  rw [Label.GetValueType_eq]
  cases h : l._value <;> simp

/-- `GetValueIndex` decides on `_name` whether to call `GetValueType`. -/
theorem Label.GetValueIndex_eq (l : Label) :
    l.GetValueIndex =
      if l._name = true then
        Except.ok ((if l.valueType = ValueType.ValueIsRegxGroupIndex then l.valueAsIndex
          else -1), l)
      else
        Except.ok ((if l.afterValue.valueType = ValueType.ValueIsRegxGroupIndex then
          l.afterValue.valueAsIndex else -1), l.afterValue) := by
  unfold Label.GetValueIndex
  rw [Label.GetValueType_eq]
  unfold Label.afterValue
  cases h : l._name
  · by_cases hc : (!l._reloadValue && l._value) = true
    · simp [hc]
    · simp [hc]
  · simp

/-! ## Classification of a label that was never read -/

/-- The number pattern has no match exactly when the text does not end in a
`$` followed by digits only. -/
theorem execGroupByNumber_eq_none_iff : ∀ (cs : List Char),
    execGroupByNumber cs = none ↔
      ∀ pre ds, cs = pre ++ '$' :: ds → ds ≠ [] → ds.all isDigit = true → False := by
  intro cs
  induction cs with
  | nil =>
    constructor
    · intro _ pre ds h
      cases pre <;> simp at h
    · intro _; rfl
  | cons c rest ih =>
    constructor
    · intro h pre ds hcs hne hd
      unfold execGroupByNumber at h
      split at h
      · cases h
      · rename_i hcond
        cases pre with
        | nil =>
          simp only [List.nil_append, List.cons.injEq] at hcs
          apply hcond
          rw [hcs.1, hcs.2]
          exact ⟨rfl, hne, hd⟩
        | cons a pre1 =>
          simp only [List.cons_append, List.cons.injEq] at hcs
          exact ih.mp h pre1 ds hcs.2 hne hd
    · intro h
      unfold execGroupByNumber
      split
      · rename_i hcond
        exact absurd hcond.2.2 (fun hd => h [] rest (by rw [hcond.1]; rfl) hcond.2.1 hd)
      · exact ih.mpr (fun pre ds hcs hne hd => h (c :: pre) ds (by rw [hcs]; rfl) hne hd)

/-- A pattern `$`, a non-digit, a word character, that does not end in `$`
and digits: a group name, the non-digit and the run of word characters after
it. -/
theorem classify_group_name (sentinel : String) (c1 c2 : Char) (tail : List Char)
    (hs : HasPrefix sentinel "$" = false) (h1 : isDigit c1 = false)
    (h2 : isWordChar c2 = true)
    (hno : ∀ pre ds, '$' :: c1 :: c2 :: tail = pre ++ '$' :: ds → ds ≠ [] →
      ds.all isDigit = true → False) :
    classify sentinel (String.mk ('$' :: c1 :: c2 :: tail)) =
      FieldClass.named (String.mk (c1 :: c2 :: tail.takeWhile isWordChar)) := by
  have hp := hasPrefix_dollar_cons (c1 :: c2 :: tail)
  have hneq : String.mk ('$' :: c1 :: c2 :: tail) ≠ sentinel := by
    intro e
    rw [e, hs] at hp
    cases hp
  have hnum := (execGroupByNumber_eq_none_iff ('$' :: c1 :: c2 :: tail)).mpr hno
  unfold classify
  rw [if_neg hneq, if_pos hp]
  simp only [hnum]
  unfold execGroupByName
  simp [h1, h2]

theorem hasPrefix_name_sentinel : HasPrefix "__name__" "$" = false := by decide

theorem hasPrefix_value_sentinel : HasPrefix "__value__" "$" = false := by decide

/-- The accessors of the name on a label that was never read, in terms of
the classification of its name. -/
theorem Label.unread_name (p q : String) :
    Label.GetLabelType { Name := p, Value := q } =
      Except.ok ((Label.classifiedName { Name := p, Value := q }).nameType,
        Label.classifiedName { Name := p, Value := q }) ∧
    Label.GetName { Name := p, Value := q } =
      Except.ok ((Label.classifiedName { Name := p, Value := q }).nameAsStr,
        Label.classifiedName { Name := p, Value := q }) ∧
    Label.GetNameIndex { Name := p, Value := q } =
      Except.ok ((if (Label.classifiedName { Name := p, Value := q }).nameType
          = LabelType.LabelIsRegexGroupIndex
        then (Label.classifiedName { Name := p, Value := q }).nameAsIndex else -1),
        Label.classifiedName { Name := p, Value := q }) := by
  refine ⟨?_, ?_, ?_⟩
  · rw [Label.GetLabelType_eq]; rfl
  · rw [Label.GetName_eq]; rfl
  · rw [Label.GetNameIndex_eq]; rfl

/-- The accessors of the value on a label that was never read. -/
theorem Label.unread_value (p q : String) :
    Label.GetValueType { Name := p, Value := q } =
      Except.ok ((Label.classifiedValue { Name := p, Value := q }).valueType,
        Label.classifiedValue { Name := p, Value := q }) ∧
    Label.GetValue { Name := p, Value := q } =
      Except.ok ((Label.classifiedValue { Name := p, Value := q }).valueAsStr,
        Label.classifiedValue { Name := p, Value := q }) ∧
    Label.GetValueIndex { Name := p, Value := q } =
      Except.ok ((if (Label.classifiedValue { Name := p, Value := q }).valueType
          = ValueType.ValueIsRegxGroupIndex
        then (Label.classifiedValue { Name := p, Value := q }).valueAsIndex else -1),
        Label.classifiedValue { Name := p, Value := q }) := by
  refine ⟨?_, ?_, ?_⟩
  · rw [Label.GetValueType_eq]; rfl
  · rw [Label.GetValue_eq]; rfl
  · rw [Label.GetValueIndex_eq]; rfl

/-- C11 (amended): for a pattern `p` that is a `$`, one non-digit character
and at least one word character, and that does not end in a `$` followed by
digits only, a label never read with `Name = p` has
`GetLabelType() = LabelIsRegexGroupName` and `GetName()` equal to the text the
group `name` captures (the non-digit and the run of word characters after
it), called first or after `GetLabelType`; and the same holds for `Value = p`
with `GetValueType` and `GetValue`. -/
theorem Label.group_name_classification (c1 c2 : Char) (tail : List Char) (other : String)
    (h1 : isDigit c1 = false) (h2 : isWordChar c2 = true)
    (hno : ∀ pre ds, '$' :: c1 :: c2 :: tail = pre ++ '$' :: ds → ds ≠ [] →
      ds.all isDigit = true → False) :
    (∃ l1, Label.GetLabelType { Name := String.mk ('$' :: c1 :: c2 :: tail), Value := other }
        = Except.ok (LabelType.LabelIsRegexGroupName, l1) ∧
      l1.GetName = Except.ok (String.mk (c1 :: c2 :: tail.takeWhile isWordChar), l1)) ∧
    (∃ l1, Label.GetName { Name := String.mk ('$' :: c1 :: c2 :: tail), Value := other }
        = Except.ok (String.mk (c1 :: c2 :: tail.takeWhile isWordChar), l1)) ∧
    (∃ l1, Label.GetValueType { Name := other, Value := String.mk ('$' :: c1 :: c2 :: tail) }
        = Except.ok (ValueType.ValueIsRegexGroupName, l1) ∧
      l1.GetValue = Except.ok (String.mk (c1 :: c2 :: tail.takeWhile isWordChar), l1)) ∧
    (∃ l1, Label.GetValue { Name := other, Value := String.mk ('$' :: c1 :: c2 :: tail) }
        = Except.ok (String.mk (c1 :: c2 :: tail.takeWhile isWordChar), l1)) := by
  have hn := classify_group_name "__name__" c1 c2 tail hasPrefix_name_sentinel h1 h2 hno
  have hv := classify_group_name "__value__" c1 c2 tail hasPrefix_value_sentinel h1 h2 hno
  refine ⟨⟨Label.classifiedName { Name := String.mk ('$' :: c1 :: c2 :: tail), Value := other },
      ?_, ?_⟩,
    ⟨Label.classifiedName { Name := String.mk ('$' :: c1 :: c2 :: tail), Value := other }, ?_⟩,
    ⟨Label.classifiedValue { Name := other, Value := String.mk ('$' :: c1 :: c2 :: tail) },
      ?_, ?_⟩,
    ⟨Label.classifiedValue { Name := other, Value := String.mk ('$' :: c1 :: c2 :: tail) },
      ?_⟩⟩
  · rw [(Label.unread_name _ other).1]
    simp only [Label.classifiedName, hn]
  · rw [Label.GetName_eq]
    simp only [Label.classifiedName, hn, if_true]
  · rw [(Label.unread_name _ other).2.1]
    simp only [Label.classifiedName, hn]
  · rw [(Label.unread_value other _).1]
    simp only [Label.classifiedValue, hv]
  · rw [Label.GetValue_eq]
    simp only [Label.classifiedValue, hv, if_true]
  · rw [(Label.unread_value other _).2.1]
    simp only [Label.classifiedValue, hv]

/-- C11, on the label of `TestLabel`: `{Name: $node, Value: $ip}` is a group
name on both sides, with the names `node` and `ip`. -/
theorem Label.group_name_classification_example :
    (∃ l1, Label.GetLabelType { Name := "$node", Value := "$ip" }
        = Except.ok (LabelType.LabelIsRegexGroupName, l1) ∧
      l1.GetName = Except.ok ("node", l1)) ∧
    (∃ l1, Label.GetValueType { Name := "$node", Value := "$ip" }
        = Except.ok (ValueType.ValueIsRegexGroupName, l1) ∧
      l1.GetValue = Except.ok ("ip", l1)) :=
  ⟨(Label.group_name_classification 'n' 'o' ['d', 'e'] "$ip" (by decide) (by decide)
      ((execGroupByNumber_eq_none_iff _).mp (by decide))).1,
   (Label.group_name_classification 'i' 'p' [] "$node" (by decide) (by decide)
      ((execGroupByNumber_eq_none_iff _).mp (by decide))).2.2.1⟩

/-- C11, as stated, fails: `$$1` is a `$`, the non-digit `$` and the word
character `1`, and `$ab$1` is a `$`, the non-digit `a` and the word character
`b`; both end in `$1`, which the number pattern finds first: the label is a
group index with index 1 on both sides, and `GetName`, `GetValue` give the
empty text. -/
theorem Label.group_name_shadowed_by_index :
    isDigit '$' = false ∧ isWordChar '1' = true ∧ isDigit 'a' = false ∧
    isWordChar 'b' = true ∧
    (Label.call { Name := "$$1", Value := "$ab$1" } Accessor.GetLabelType).toOption.map
      Prod.fst = some (Answer.labelType LabelType.LabelIsRegexGroupIndex) ∧
    (Label.call { Name := "$$1", Value := "$ab$1" } Accessor.GetName).toOption.map
      Prod.fst = some (Answer.str "") ∧
    (Label.call { Name := "$$1", Value := "$ab$1" } Accessor.GetNameIndex).toOption.map
      Prod.fst = some (Answer.int 1) ∧
    (Label.call { Name := "$$1", Value := "$ab$1" } Accessor.GetValueType).toOption.map
      Prod.fst = some (Answer.valueType ValueType.ValueIsRegxGroupIndex) ∧
    (Label.call { Name := "$$1", Value := "$ab$1" } Accessor.GetValue).toOption.map
      Prod.fst = some (Answer.str "") := by
  decide

/-- A label never read whose pattern is `$` and digits is a group index on
the side of that pattern, the index being what `ParseInt` returns with its
error dropped. -/
theorem Label.unread_dollar_digits (ds : List Char) (other : String) (hne : ds ≠ [])
    (hd : ds.all isDigit = true) :
    (∃ l1, Label.GetLabelType { Name := String.mk ('$' :: ds), Value := other }
        = Except.ok (LabelType.LabelIsRegexGroupIndex, l1) ∧
      l1.GetNameIndex = Except.ok ((ParseInt (String.mk ds)).1, l1) ∧
      l1.GetName = Except.ok ("", l1)) ∧
    (∃ l1, Label.GetNameIndex { Name := String.mk ('$' :: ds), Value := other }
        = Except.ok ((ParseInt (String.mk ds)).1, l1)) ∧
    (∃ l1, Label.GetName { Name := String.mk ('$' :: ds), Value := other }
        = Except.ok ("", l1)) ∧
    (∃ l1, Label.GetValueType { Name := other, Value := String.mk ('$' :: ds) }
        = Except.ok (ValueType.ValueIsRegxGroupIndex, l1) ∧
      l1.GetValueIndex = Except.ok ((ParseInt (String.mk ds)).1, l1) ∧
      l1.GetValue = Except.ok ("", l1)) ∧
    (∃ l1, Label.GetValueIndex { Name := other, Value := String.mk ('$' :: ds) }
        = Except.ok ((ParseInt (String.mk ds)).1, l1)) ∧
    (∃ l1, Label.GetValue { Name := other, Value := String.mk ('$' :: ds) }
        = Except.ok ("", l1)) := by
  have hn := classify_dollar_digits "__name__" ds hasPrefix_name_sentinel hne hd
  have hv := classify_dollar_digits "__value__" ds hasPrefix_value_sentinel hne hd
  refine ⟨⟨Label.classifiedName { Name := String.mk ('$' :: ds), Value := other }, ?_, ?_, ?_⟩,
    ⟨Label.classifiedName { Name := String.mk ('$' :: ds), Value := other }, ?_⟩,
    ⟨Label.classifiedName { Name := String.mk ('$' :: ds), Value := other }, ?_⟩,
    ⟨Label.classifiedValue { Name := other, Value := String.mk ('$' :: ds) }, ?_, ?_, ?_⟩,
    ⟨Label.classifiedValue { Name := other, Value := String.mk ('$' :: ds) }, ?_⟩,
    ⟨Label.classifiedValue { Name := other, Value := String.mk ('$' :: ds) }, ?_⟩⟩
  · rw [(Label.unread_name _ other).1]
    simp only [Label.classifiedName, hn]
  · rw [Label.GetNameIndex_eq]
    simp only [Label.classifiedName, hn, if_true]
  · rw [Label.GetName_eq]
    simp only [Label.classifiedName, hn, if_true]
  · rw [(Label.unread_name _ other).2.2]
    simp only [Label.classifiedName, hn, if_true]
  · rw [(Label.unread_name _ other).2.1]
    simp only [Label.classifiedName, hn]
  · rw [(Label.unread_value other _).1]
    simp only [Label.classifiedValue, hv]
  · rw [Label.GetValueIndex_eq]
    simp [Label.classifiedValue, hv, Label.afterValue]
  · rw [Label.GetValue_eq]
    simp only [Label.classifiedValue, hv, if_true]
  · rw [(Label.unread_value other _).2.2]
    simp only [Label.classifiedValue, hv, if_true]
  · rw [(Label.unread_value other _).2.1]
    simp only [Label.classifiedValue, hv]

/-- C12: for a pattern `p` that is `$` followed by one or more digits whose
value `n` fits in a signed 64-bit integer, a label never read with `Name = p`
has `GetLabelType() = LabelIsRegexGroupIndex` and `GetNameIndex() = n`, and
one with `Value = p` has `GetValueType() = ValueIsRegxGroupIndex` and
`GetValueIndex() = n`; each index getter gives `n` called first or after its
type accessor. -/
theorem Label.group_index_classification (ds : List Char) (other : String) (hne : ds ≠ [])
    (hd : ds.all isDigit = true) (hfit : (digitsValue ds : Int) ≤ maxInt64) :
    (∃ l1, Label.GetLabelType { Name := String.mk ('$' :: ds), Value := other }
        = Except.ok (LabelType.LabelIsRegexGroupIndex, l1) ∧
      l1.GetNameIndex = Except.ok ((digitsValue ds : Int), l1)) ∧
    (∃ l1, Label.GetNameIndex { Name := String.mk ('$' :: ds), Value := other }
        = Except.ok ((digitsValue ds : Int), l1)) ∧
    (∃ l1, Label.GetValueType { Name := other, Value := String.mk ('$' :: ds) }
        = Except.ok (ValueType.ValueIsRegxGroupIndex, l1) ∧
      l1.GetValueIndex = Except.ok ((digitsValue ds : Int), l1)) ∧
    (∃ l1, Label.GetValueIndex { Name := other, Value := String.mk ('$' :: ds) }
        = Except.ok ((digitsValue ds : Int), l1)) := by
  have hp : (ParseInt (String.mk ds)).1 = (digitsValue ds : Int) := by
    rw [ParseInt_digits ds hne hd, if_neg (not_lt.mpr hfit)]
  obtain ⟨⟨a, a1, a2, -⟩, ⟨b, b1⟩, -, ⟨c, c1, c2, -⟩, ⟨d, d1⟩, -⟩ :=
    Label.unread_dollar_digits ds other hne hd
  rw [hp] at a2 b1 c2 d1
  exact ⟨⟨a, a1, a2⟩, ⟨b, b1⟩, ⟨c, c1, c2⟩, ⟨d, d1⟩⟩

/-- C12, on the label of `TestLabel`: `{Name: $1, Value: $2}` is a group index
on both sides, with the indexes 1 and 2, also in the call order of the test
(`GetLabelType`, `GetValueType`, `GetNameIndex`, `GetValueIndex`). -/
theorem Label.group_index_classification_example :
    (∃ l1, Label.GetLabelType { Name := "$1", Value := "$2" }
        = Except.ok (LabelType.LabelIsRegexGroupIndex, l1) ∧
      l1.GetNameIndex = Except.ok (1, l1)) ∧
    (∃ l1, Label.GetValueType { Name := "$1", Value := "$2" }
        = Except.ok (ValueType.ValueIsRegxGroupIndex, l1) ∧
      l1.GetValueIndex = Except.ok (2, l1)) ∧
    ((Label.calls { Name := "$1", Value := "$2" }
        [Accessor.GetLabelType, Accessor.GetValueType]).toOption.map
      (fun l => ((l.call Accessor.GetNameIndex).toOption.map Prod.fst,
        (l.call Accessor.GetValueIndex).toOption.map Prod.fst)))
      = some (some (Answer.int 1), some (Answer.int 2)) :=
  ⟨(Label.group_index_classification ['1'] "$2" (by decide) (by decide) (by decide)).1,
   (Label.group_index_classification ['2'] "$1" (by decide) (by decide) (by decide)).2.2.1,
   by decide⟩

/-- C13 (amended): for a pattern `p` that is `$` followed by digits whose
value does not fit in a signed 64-bit integer, a label never read with
`Name = p` has `GetLabelType() = LabelIsRegexGroupIndex`,
`GetNameIndex() = 9223372036854775807` and `GetName()` empty, and one with
`Value = p` has `GetValueType() = ValueIsRegxGroupIndex`,
`GetValueIndex() = 9223372036854775807` and `GetValue()` empty. -/
theorem Label.group_index_overflow (ds : List Char) (other : String) (hne : ds ≠ [])
    (hd : ds.all isDigit = true) (hbig : (digitsValue ds : Int) > maxInt64) :
    (∃ l1, Label.GetLabelType { Name := String.mk ('$' :: ds), Value := other }
        = Except.ok (LabelType.LabelIsRegexGroupIndex, l1) ∧
      l1.GetNameIndex = Except.ok (9223372036854775807, l1) ∧
      l1.GetName = Except.ok ("", l1)) ∧
    (∃ l1, Label.GetNameIndex { Name := String.mk ('$' :: ds), Value := other }
        = Except.ok (9223372036854775807, l1)) ∧
    (∃ l1, Label.GetName { Name := String.mk ('$' :: ds), Value := other }
        = Except.ok ("", l1)) ∧
    (∃ l1, Label.GetValueType { Name := other, Value := String.mk ('$' :: ds) }
        = Except.ok (ValueType.ValueIsRegxGroupIndex, l1) ∧
      l1.GetValueIndex = Except.ok (9223372036854775807, l1) ∧
      l1.GetValue = Except.ok ("", l1)) ∧
    (∃ l1, Label.GetValueIndex { Name := other, Value := String.mk ('$' :: ds) }
        = Except.ok (9223372036854775807, l1)) ∧
    (∃ l1, Label.GetValue { Name := other, Value := String.mk ('$' :: ds) }
        = Except.ok ("", l1)) := by
  have hp : (ParseInt (String.mk ds)).1 = 9223372036854775807 := by
    rw [ParseInt_digits ds hne hd, if_pos hbig]
    rfl
  have h := Label.unread_dollar_digits ds other hne hd
  rw [hp] at h
  exact h

/-- C13 (amended), on the pattern `$9223372036854775808`, one more than the
largest signed 64-bit integer. -/
theorem Label.group_index_overflow_example :
    (∃ l1, Label.GetLabelType { Name := "$9223372036854775808", Value := "x" }
        = Except.ok (LabelType.LabelIsRegexGroupIndex, l1) ∧
      l1.GetNameIndex = Except.ok (9223372036854775807, l1) ∧
      l1.GetName = Except.ok ("", l1)) ∧
    (∃ l1, Label.GetValueIndex { Name := "x", Value := "$9223372036854775808" }
        = Except.ok (9223372036854775807, l1)) :=
  ⟨(Label.group_index_overflow "9223372036854775808".data "x" (by decide) (by decide)
      (by decide)).1,
   (Label.group_index_overflow "9223372036854775808".data "x" (by decide) (by decide)
      (by decide)).2.2.2.2.1⟩

/-- C13, as stated, fails: on `$9223372036854775808` the label is not a
literal; it is a group index, `GetName` is empty instead of the pattern and
`GetNameIndex` is 9223372036854775807 instead of -1, and the same on the
value side. -/
theorem Label.overflow_is_not_literal :
    (Label.call { Name := "$9223372036854775808", Value := "$9223372036854775808" }
        Accessor.GetLabelType).toOption.map Prod.fst
      = some (Answer.labelType LabelType.LabelIsRegexGroupIndex) ∧
    (Label.call { Name := "$9223372036854775808", Value := "$9223372036854775808" }
        Accessor.GetName).toOption.map Prod.fst = some (Answer.str "") ∧
    (Label.call { Name := "$9223372036854775808", Value := "$9223372036854775808" }
        Accessor.GetNameIndex).toOption.map Prod.fst
      = some (Answer.int 9223372036854775807) ∧
    (Label.call { Name := "$9223372036854775808", Value := "$9223372036854775808" }
        Accessor.GetValueType).toOption.map Prod.fst
      = some (Answer.valueType ValueType.ValueIsRegxGroupIndex) ∧
    (Label.call { Name := "$9223372036854775808", Value := "$9223372036854775808" }
        Accessor.GetValue).toOption.map Prod.fst = some (Answer.str "") ∧
    (Label.call { Name := "$9223372036854775808", Value := "$9223372036854775808" }
        Accessor.GetValueIndex).toOption.map Prod.fst
      = some (Answer.int 9223372036854775807) := by
  decide

/-! ## Labels that are only read -/

theorem Label.classifiedName_fields (l : Label) :
    l.classifiedName._name = true ∧ l.classifiedName._reloadName = false ∧
    l.classifiedName._value = l._value ∧ l.classifiedName._reloadValue = l._reloadValue ∧
    l.classifiedName.Name = l.Name ∧ l.classifiedName.Value = l.Value ∧
    l.classifiedName.valueType = l.valueType ∧ l.classifiedName.valueAsStr = l.valueAsStr ∧
    l.classifiedName.valueAsIndex = l.valueAsIndex := by
  unfold Label.classifiedName
  cases classify "__name__" l.Name <;> exact ⟨rfl, rfl, rfl, rfl, rfl, rfl, rfl, rfl, rfl⟩

theorem Label.classifiedValue_fields (l : Label) :
    l.classifiedValue._value = true ∧ l.classifiedValue._reloadValue = false ∧
    l.classifiedValue._name = l._name ∧ l.classifiedValue._reloadName = l._reloadName ∧
    l.classifiedValue.Name = l.Name ∧ l.classifiedValue.Value = l.Value ∧
    l.classifiedValue.nameType = l.nameType ∧ l.classifiedValue.nameAsStr = l.nameAsStr ∧
    l.classifiedValue.nameAsIndex = l.nameAsIndex := by
  unfold Label.classifiedValue
  cases classify "__value__" l.Value <;> exact ⟨rfl, rfl, rfl, rfl, rfl, rfl, rfl, rfl, rfl⟩

theorem Label.classifiedName_eq_with (l : Label) :
    l.classifiedName = l.withNameClass (classify "__name__" l.Name) := by
  unfold Label.classifiedName Label.withNameClass
  cases classify "__name__" l.Name <;> rfl

theorem Label.classifiedValue_eq_with (l : Label) :
    l.classifiedValue = l.withValueClass (classify "__value__" l.Value) := by
  unfold Label.classifiedValue Label.withValueClass
  cases classify "__value__" l.Value <;> rfl

/-- Classifying the name and classifying the value touch different fields. -/
theorem Label.classified_comm (l : Label) :
    l.classifiedValue.classifiedName = l.classifiedName.classifiedValue := by
  have h1 : l.classifiedValue.Name = l.Name := (Label.classifiedValue_fields l).2.2.2.2.1
  have h2 : l.classifiedName.Value = l.Value := (Label.classifiedName_fields l).2.2.2.2.2.1
  rw [Label.classifiedName_eq_with l.classifiedValue, Label.classifiedValue_eq_with l.classifiedName,
    h1, h2, Label.classifiedName_eq_with l, Label.classifiedValue_eq_with l]
  unfold Label.withNameClass Label.withValueClass
  cases classify "__value__" l.Value <;> cases classify "__name__" l.Name <;> rfl

/-- An accessor call on a label that was only read returns and leaves a label
that was only read. -/
theorem Label.OnlyRead.call {p q : String} {l : Label} (h : Label.OnlyRead p q l)
    (a : Accessor) : ∃ ans l1, l.call a = Except.ok (ans, l1) ∧ Label.OnlyRead p q l1 := by
  have n1 := fun x : Label => (Label.classifiedName_fields x).1
  have n2 := fun x : Label => (Label.classifiedName_fields x).2.1
  have n3 := fun x : Label => (Label.classifiedName_fields x).2.2.1
  have n4 := fun x : Label => (Label.classifiedName_fields x).2.2.2.1
  have v1 := fun x : Label => (Label.classifiedValue_fields x).1
  have v2 := fun x : Label => (Label.classifiedValue_fields x).2.1
  have v3 := fun x : Label => (Label.classifiedValue_fields x).2.2.1
  have v4 := fun x : Label => (Label.classifiedValue_fields x).2.2.2.1
  rcases h with rfl | rfl | rfl | rfl <;> cases a <;>
    simp only [Label.call, Label.GetLabelType_eq, Label.GetName_eq, Label.GetNameIndex_eq,
      Label.GetValueType_eq, Label.GetValue_eq, Label.GetValueIndex_eq, Label.afterValue,
      n1, n2, n3, n4, v1, v2, v3, v4, Label.classified_comm, bind_ok, pure_eq_ok,
      Bool.not_false, Bool.not_true, Bool.and_self, Bool.and_true, Bool.and_false,
      Bool.true_and, Bool.false_and, Bool.false_eq_true, if_true, if_false] <;>
    first
    | exact ⟨_, _, rfl, Or.inl rfl⟩
    | exact ⟨_, _, rfl, Or.inr (Or.inl rfl)⟩
    | exact ⟨_, _, rfl, Or.inr (Or.inr (Or.inl rfl))⟩
    | exact ⟨_, _, rfl, Or.inr (Or.inr (Or.inr rfl))⟩

/-- Every sequence of accessor calls on a label that was only read returns
and leaves a label that was only read. -/
theorem Label.OnlyRead.calls {p q : String} : ∀ (pre : List Accessor) {l : Label},
    Label.OnlyRead p q l → ∃ l1, l.calls pre = Except.ok l1 ∧ Label.OnlyRead p q l1 := by
  intro pre
  induction pre with
  | nil => intro l h; exact ⟨l, rfl, h⟩
  | cons a rest ih =>
    intro l h
    obtain ⟨ans, l1, h1, h2⟩ := h.call a
    obtain ⟨l2, h3, h4⟩ := ih h2
    refine ⟨l2, ?_, h4⟩
    unfold Label.calls
    rw [h1]
    exact h3

theorem Label.afterName_flags (l : Label) :
    l.afterName._name = true ∧ l.afterName._reloadName = false ∧
    l.afterName._value = l._value ∧ l.afterName._reloadValue = l._reloadValue := by
  unfold Label.afterName
  split
  · rename_i hc
    cases h1 : l._name <;> cases h2 : l._reloadName <;> simp [h1, h2] at hc ⊢
  · exact ⟨(Label.classifiedName_fields l).1, (Label.classifiedName_fields l).2.1,
      (Label.classifiedName_fields l).2.2.1, (Label.classifiedName_fields l).2.2.2.1⟩

theorem Label.afterValue_flags (l : Label) :
    l.afterValue._value = true ∧ l.afterValue._reloadValue = false ∧
    l.afterValue._name = l._name ∧ l.afterValue._reloadName = l._reloadName := by
  unfold Label.afterValue
  split
  · rename_i hc
    cases h1 : l._value <;> cases h2 : l._reloadValue <;> simp [h1, h2] at hc ⊢
  · exact ⟨(Label.classifiedValue_fields l).1, (Label.classifiedValue_fields l).2.1,
      (Label.classifiedValue_fields l).2.2.1, (Label.classifiedValue_fields l).2.2.2.1⟩

theorem Label.GetLabelType_afterName (l : Label) :
    l.GetLabelType = Except.ok (l.afterName.nameType, l.afterName) := by
  rw [Label.GetLabelType_eq]
  unfold Label.afterName
  split <;> rfl

theorem Label.GetValueType_afterValue (l : Label) :
    l.GetValueType = Except.ok (l.afterValue.valueType, l.afterValue) := by
  rw [Label.GetValueType_eq]
  unfold Label.afterValue
  split <;> rfl

/-- Once both sides are classified and no reload is pending, every accessor
returns from the cache and leaves the label as it is. -/
theorem Label.call_of_classified (l : Label) (h1 : l._name = true)
    (h2 : l._reloadName = false) (h3 : l._value = true) (h4 : l._reloadValue = false)
    (a : Accessor) : ∃ ans, l.call a = Except.ok (ans, l) := by
  cases a <;>
    simp only [Label.call, Label.GetLabelType_eq, Label.GetName_eq, Label.GetNameIndex_eq,
      Label.GetValueType_eq, Label.GetValue_eq, Label.GetValueIndex_eq, h1, h2, h3, h4,
      bind_ok, pure_eq_ok, Bool.not_false, Bool.and_self, if_true] <;>
    exact ⟨_, rfl⟩

/-- The two type accessors in a row, on any label. -/
theorem Label.calls_types (l : Label) :
    l.calls [Accessor.GetLabelType, Accessor.GetValueType] =
      Except.ok l.afterName.afterValue := by
  simp only [Label.calls, Label.call, Label.GetLabelType_afterName,
    Label.GetValueType_afterValue, bind_ok, pure_eq_ok]

/-- On a label that was only read, the two type accessors in a row leave the
label with both sides classified. -/
theorem Label.OnlyRead.afterName_afterValue {p q : String} {l : Label}
    (h : Label.OnlyRead p q l) :
    l.afterName.afterValue =
      Label.classifiedValue (Label.classifiedName { Name := p, Value := q }) := by
  have n1 := fun x : Label => (Label.classifiedName_fields x).1
  have n2 := fun x : Label => (Label.classifiedName_fields x).2.1
  have n3 := fun x : Label => (Label.classifiedName_fields x).2.2.1
  have n4 := fun x : Label => (Label.classifiedName_fields x).2.2.2.1
  have v1 := fun x : Label => (Label.classifiedValue_fields x).1
  have v2 := fun x : Label => (Label.classifiedValue_fields x).2.1
  have v3 := fun x : Label => (Label.classifiedValue_fields x).2.2.1
  have v4 := fun x : Label => (Label.classifiedValue_fields x).2.2.2.1
  rcases h with rfl | rfl | rfl | rfl <;>
    simp only [Label.afterName, Label.afterValue, n1, n2, n3, n4, v1, v2, v3, v4,
      Label.classified_comm, Bool.not_false, Bool.not_true, Bool.and_self, Bool.and_true,
      Bool.and_false, Bool.true_and, Bool.false_and, Bool.false_eq_true, if_true, if_false]

/-- C14: on every label two consecutive calls of `GetLabelType` return the same
type, and so do two consecutive calls of `GetValueType`, the second call
leaving the label as it is. On `Label{Name: "ip", Value: "$2"}`, however,
`GetValueIndex` returns -1 after one and after two calls of `GetLabelType`,
where the label just built returns 2: the cache is observable. -/
theorem Label.GetValueIndex_after_two_GetLabelType (l : Label) :
    (∃ t l1, l.GetLabelType = Except.ok (t, l1) ∧ l1.GetLabelType = Except.ok (t, l1)) ∧
    (∃ t l1, l.GetValueType = Except.ok (t, l1) ∧ l1.GetValueType = Except.ok (t, l1)) ∧
    Label.answer { Name := "ip", Value := "$2" } [Accessor.GetLabelType]
      Accessor.GetValueIndex = some (Answer.int (-1)) ∧
    Label.answer { Name := "ip", Value := "$2" } [Accessor.GetLabelType, Accessor.GetLabelType]
      Accessor.GetValueIndex = some (Answer.int (-1)) ∧
    Label.answer { Name := "ip", Value := "$2" } [] Accessor.GetValueIndex =
      some (Answer.int 2) := by
  refine ⟨⟨_, _, Label.GetLabelType_afterName l, ?_⟩,
    ⟨_, _, Label.GetValueType_afterValue l, ?_⟩, by decide, by decide, by decide⟩
  · rw [Label.GetLabelType_eq, (Label.afterName_flags l).1, (Label.afterName_flags l).2.1]
    rfl
  · rw [Label.GetValueType_eq, (Label.afterValue_flags l).1, (Label.afterValue_flags l).2.1]
    rfl

/-- C18: `Label{Name: "a", Value: "x"}` is read with `GetName()` and
`GetValue()`, then its fields are set to `"b"` and `"y"` and `Reload()` is
called. `GetName()` and `GetValue()` still return `"a"` and `"x"`, where a
label built with the new fields returns `"b"` and `"y"`. With the new fields
`"$1"` and `"$2"` the index getters return -1 where the new label returns 1
and 2, and after `GetLabelType()` the name getter still returns `"a"` where
the new label returns the empty string. -/
theorem Label.Reload_getters_stale :
    ∃ l1, Label.calls { Name := "a", Value := "x" } [Accessor.GetName, Accessor.GetValue] =
        Except.ok l1 ∧
      Label.answer (l1.reassign "b" "y") [] Accessor.GetName = some (Answer.str "a") ∧
      Label.answer { Name := "b", Value := "y" } [] Accessor.GetName = some (Answer.str "b") ∧
      Label.answer (l1.reassign "b" "y") [] Accessor.GetValue = some (Answer.str "x") ∧
      Label.answer { Name := "b", Value := "y" } [] Accessor.GetValue = some (Answer.str "y") ∧
      Label.answer (l1.reassign "$1" "$2") [] Accessor.GetNameIndex = some (Answer.int (-1)) ∧
      Label.answer { Name := "$1", Value := "$2" } [] Accessor.GetNameIndex =
        some (Answer.int 1) ∧
      Label.answer (l1.reassign "$1" "$2") [] Accessor.GetValueIndex = some (Answer.int (-1)) ∧
      Label.answer { Name := "$1", Value := "$2" } [] Accessor.GetValueIndex =
        some (Answer.int 2) ∧
      Label.answer (l1.reassign "$1" "$2") [Accessor.GetLabelType] Accessor.GetName =
        some (Answer.str "a") ∧
      Label.answer { Name := "$1", Value := "$2" } [Accessor.GetLabelType] Accessor.GetName =
        some (Answer.str "") :=
  ⟨_, rfl, by decide, by decide, by decide, by decide, by decide, by decide, by decide,
    by decide, by decide, by decide⟩

/-- C20: on `Label{Name: "$1", Value: "$3"}` the call `GetValueIndex()` returns
3 on the label just built and after `GetValueType()`, but -1 when `GetName()`
or `GetLabelType()` was called first and `GetValueType()` was not. -/
theorem Label.GetValueIndex_after_name_accessor :
    Label.answer { Name := "$1", Value := "$3" } [] Accessor.GetValueIndex =
      some (Answer.int 3) ∧
    Label.answer { Name := "$1", Value := "$3" } [Accessor.GetValueType, Accessor.GetName]
      Accessor.GetValueIndex = some (Answer.int 3) ∧
    Label.answer { Name := "$1", Value := "$3" } [Accessor.GetName]
      Accessor.GetValueIndex = some (Answer.int (-1)) ∧
    Label.answer { Name := "$1", Value := "$3" } [Accessor.GetLabelType]
      Accessor.GetValueIndex = some (Answer.int (-1)) :=
  ⟨by decide, by decide, by decide, by decide⟩

/-- C19: the rule `dropJobRule` has the delete-set `{job}`. For the timeseries
`{__name__: up, "": v, job: x}` the rewritten label set still holds the label
named by the empty string, which is no key of the delete-set, but the `dims`
passed to `Marshal` is `{__name__: up}`: the label is deleted with `job`. For
`{__name__: up, node: 10.10.89.61:8080, job: x}` the rewrite step creates the
label with the empty name and the delete step removes it. -/
theorem SerializeToEasyOps.timeseries_deletes_empty_name :
    mapGet dropJobRule.DeleteLabels "" = none ∧
    ((dropJobRule.Init exampleCompile).1.RewriteLabel ["__name__", "", "job"]
        (buildLabels emptyNameSeries.Labels)).toOption.map Prod.snd
      = some [("__name__", "up"), ("", "v"), ("job", "x")] ∧
    (SerializeToEasyOps.timeseries failingSerializer ["__name__", "", "job"]
        dropJobConfig {} emptyNameSeries).toOption.map (fun p => p.2.marshalled)
      = some [Record.easyops "tok" 7 [("__name__", "up")] "up" 1 1000] ∧
    ((dropJobRule.Init exampleCompile).1.RewriteLabel ["__name__", "node", "job"]
        (buildLabels nodeSeries.Labels)).toOption.map Prod.snd
      = some [("__name__", "up"), ("node", "10.10.89.61:8080"), ("job", "x"),
          ("", "10.10.89.61")] ∧
    (SerializeToEasyOps.timeseries failingSerializer ["__name__", "node", "job"]
        dropJobConfig {} nodeSeries).toOption.map (fun p => p.2.marshalled)
      = some [Record.easyops "tok" 7 [("__name__", "up"), ("node", "10.10.89.61:8080")]
          "up" 1 1000] :=
  ⟨by decide, by decide, by decide, by decide, by decide⟩

/-! ## The match filter of `Serialize` -/

theorem filter.labelMatch_iff (labels : GoMap String) (ls : List LabelPair) :
    filter.labelMatch labels ls = true ↔
      ∀ lp, lp ∈ ls → mapGet labels lp.GetName = some lp.GetValue := by
  induction ls with
  | nil => simp [filter.labelMatch]
  | cons lp rest ih =>
    unfold filter.labelMatch
    cases h : mapGet labels lp.GetName with
    | none => simp [h]
    | some val =>
      by_cases hv : val = lp.GetValue
      · simp [h, hv, ih]
      · simp [h, hv]

theorem filter.metrics_iff (labels : GoMap String) (ms : List KafkaAdapter.Metric) :
    filter.metrics labels ms = true ↔
      ∃ m, m ∈ ms ∧ ∀ lp, lp ∈ m.Label → mapGet labels lp.GetName = some lp.GetValue := by
  induction ms with
  | nil => simp [filter.metrics]
  | cons m rest ih =>
    unfold filter.metrics
    by_cases h0 : m.Label.length = 0
    · have hnil : m.Label = [] := List.length_eq_zero.mp h0
      simp only [h0, if_true, true_iff]
      exact ⟨m, List.mem_cons_self _ _, by simp [hnil]⟩
    · simp only [h0, if_false]
      by_cases hm : filter.labelMatch labels m.Label = true
      · simp only [hm, if_true, true_iff]
        exact ⟨m, List.mem_cons_self _ _, (filter.labelMatch_iff labels m.Label).mp hm⟩
      · have hmf : filter.labelMatch labels m.Label = false := by simpa using hm
        rw [hmf]
        simp only [Bool.false_eq_true, if_false]
        rw [ih]
        constructor
        · rintro ⟨x, hx, hall⟩
          exact ⟨x, List.mem_cons_of_mem _ hx, hall⟩
        · rintro ⟨x, hx, hall⟩
          rcases List.mem_cons.mp hx with rfl | hx
          · exact absurd ((filter.labelMatch_iff labels x.Label).mpr hall) hm
          · exact ⟨x, hx, hall⟩

/-- C17: `filter(name, labels)` is true for every name and label set when the
match table is empty; when it is not, `filter` is true exactly when `name` is
a key of the table and some metric of that family has every one of its
(label name, label value) pairs in `labels` with the same value, which a
metric without labels has for every label set. -/
theorem filter_true_iff (g : Globals) (name : String) (labels : GoMap String) :
    (g.matchTable = [] → filter g name labels = true) ∧
    (g.matchTable ≠ [] →
      (filter g name labels = true ↔
        ∃ mf, mapGet g.matchTable name = some mf ∧
          ∃ m, m ∈ mf.Metric ∧
            ∀ lp, lp ∈ m.Label → mapGet labels lp.GetName = some lp.GetValue)) ∧
    (∀ mf m, mapGet g.matchTable name = some mf → m ∈ mf.Metric → m.Label = [] →
      filter g name labels = true) := by
  have key : g.matchTable ≠ [] →
      (filter g name labels = true ↔
        ∃ mf, mapGet g.matchTable name = some mf ∧
          ∃ m, m ∈ mf.Metric ∧
            ∀ lp, lp ∈ m.Label → mapGet labels lp.GetName = some lp.GetValue) := by
    intro hne
    have hlen : ¬ g.matchTable.length = 0 := fun h => hne (List.length_eq_zero.mp h)
    unfold filter
    simp only [hlen, if_false]
    cases h : mapGet g.matchTable name with
    | none => simp
    | some mf => simp [filter.metrics_iff]
  refine ⟨?_, key, ?_⟩
  · intro h
    simp [filter, h]
  · intro mf m hmf hm hnil
    by_cases hne : g.matchTable = []
    · simp [filter, hne]
    · exact (key hne).mpr ⟨mf, hmf, m, hm, by simp [hnil]⟩

/-- C17, on `matchGlobals`: `up` with `job = x` passes, `up` with `job = y`
and the unknown name `down` do not, `any` passes with any labels; and without
a match table everything passes. -/
theorem filter_true_iff_example :
    filter matchGlobals "up" [("__name__", "up"), ("job", "x")] = true ∧
    filter matchGlobals "up" [("__name__", "up"), ("job", "y")] = false ∧
    filter matchGlobals "down" [("__name__", "down"), ("job", "x")] = false ∧
    filter matchGlobals "any" [("__name__", "any")] = true ∧
    filter exampleGlobals "down" [("__name__", "down")] = true :=
  ⟨((filter_true_iff matchGlobals "up" [("__name__", "up"), ("job", "x")]).2.1
      (by simp [matchGlobals])).mpr
      ⟨_, rfl, { Label := [{ GetName := "job", GetValue := "x" }] },
        List.mem_singleton.mpr rfl, by decide⟩,
   by decide, by decide,
   (filter_true_iff matchGlobals "any" [("__name__", "any")]).2.2 _ { Label := [] } rfl
      (List.mem_singleton.mpr rfl) rfl,
   (filter_true_iff exampleGlobals "down" [("__name__", "down")]).1 rfl⟩

/-! ## The envelope of a selected sample -/

theorem marshalAndAppend_result (s : Serializer) (st : RunState) (t : String) (m : Record) :
    (marshalAndAppend s st t m).result = appendPayload st.result t (s.Marshal m).1 := rfl

/-- With a rule selected, the sample loop returns; it passes to `Marshal`, in
order, one record per sample with the key and the org of the rule, appends
the data of each call to the bucket of the rule's topic, and leaves every
other bucket as it was. -/
theorem SerializeToEasyOps.samples_selected_result (s : Serializer) (DefaultORG : Int)
    (rule : Rule) (name : String) (labels : GoMap String) :
    ∀ (smp : List Sample) (st : RunState),
      ∃ st1, SerializeToEasyOps.samples s DefaultORG true (some rule) name labels smp st
          = Except.ok st1 ∧
        st1.marshalled = st.marshalled ++ smp.map (fun sample =>
          Record.easyops rule.Token (if rule.Org = 0 then DefaultORG else rule.Org) labels
            name sample.Value sample.Timestamp) ∧
        (mapGet st1.result rule.Topic).getD [] =
          (mapGet st.result rule.Topic).getD [] ++ smp.map (fun sample =>
            (s.Marshal (Record.easyops rule.Token
              (if rule.Org = 0 then DefaultORG else rule.Org) labels
              name sample.Value sample.Timestamp)).1) ∧
        ∀ t, t ≠ rule.Topic → mapGet st1.result t = mapGet st.result t := by
  intro smp
  induction smp with
  | nil => intro st; exact ⟨st, rfl, by simp, by simp, fun _ _ => rfl⟩
  | cons sample rest ih =>
    intro st
    unfold SerializeToEasyOps.samples
    simp only [Bool.not_true, Bool.false_eq_true, if_false]
    obtain ⟨st1, h1, h2, h3, h4⟩ := ih (marshalAndAppend s st rule.Topic
      (Record.easyops rule.Token (if rule.Org = 0 then DefaultORG else rule.Org) labels name
        sample.Value sample.Timestamp))
    refine ⟨st1, h1, ?_, ?_, ?_⟩
    · rw [h2, marshalAndAppend_marshalled]
      simp
    · rw [h3, marshalAndAppend_result, appendPayload, mapGet_mapSet]
      simp
    · intro t ht
      rw [h4 t ht, marshalAndAppend_result, appendPayload, mapGet_mapSet]
      simp [ht]

/-- C16: for a timeseries whose name selects the rule `rule`, the record
`SerializeToEasyOps` passes to `Marshal` for each sample has the key
`rule.Token` and the org `rule.Org`, or the `DefaultORG` of the rule set when
`rule.Org` is 0; the data `Marshal` returns for each sample is appended, in
order, to the bucket of `rule.Topic`, and no other bucket changes. The
iteration returns when the rule is initialised. -/
theorem SerializeToEasyOps.timeseries_envelope (s : Serializer)
    (order : List String) (eoc : EasyOpsConfig) (st : RunState) (ts : TimeSeries)
    (idx : Nat) (rule : Rule)
    (hsel : eoc.Select ((mapGet (buildLabels ts.Labels) "__name__").getD "")
      = Except.ok (true, some (idx, rule))) :
    (∀ eoc1 st1, SerializeToEasyOps.timeseries s order eoc st ts = Except.ok (eoc1, st1) →
      ∃ dims name,
        st1.marshalled = st.marshalled ++ ts.Samples.map (fun sample =>
          Record.easyops rule.Token (if rule.Org = 0 then eoc.DefaultORG else rule.Org) dims
            name sample.Value sample.Timestamp) ∧
        (mapGet st1.result rule.Topic).getD [] =
          (mapGet st.result rule.Topic).getD [] ++ ts.Samples.map (fun sample =>
            (s.Marshal (Record.easyops rule.Token
              (if rule.Org = 0 then eoc.DefaultORG else rule.Org) dims
              name sample.Value sample.Timestamp)).1) ∧
        ∀ t, t ≠ rule.Topic → mapGet st1.result t = mapGet st.result t) ∧
    (rule.Initialised →
      ∃ eoc1 st1, SerializeToEasyOps.timeseries s order eoc st ts = Except.ok (eoc1, st1)) := by
  unfold SerializeToEasyOps.timeseries
  simp only [hsel, bind_ok, if_true]
  constructor
  · intro eoc1 st1 hrun
    cases hrw : rule.RewriteLabel order (buildLabels ts.Labels) with
    | error p => rw [hrw] at hrun; cases hrun
    | ok res =>
      obtain ⟨rule1, labels1⟩ := res
      rw [hrw] at hrun
      simp only [bind_ok] at hrun
      have hframe := Rule.RewriteLabel_frame order rule rule1 _ labels1 hrw
      have hT : rule1.Token = rule.Token := by rw [hframe]
      have hO : rule1.Org = rule.Org := by rw [hframe]
      have hP : rule1.Topic = rule.Topic := by rw [hframe]
      obtain ⟨st2, h1, h2, h3, h4⟩ := SerializeToEasyOps.samples_selected_result s
        eoc.DefaultORG rule1 ((mapGet (buildLabels ts.Labels) "__name__").getD "")
        (deleteLabels rule1.DeleteLabels labels1) ts.Samples st
      rw [h1] at hrun
      simp only [bind_ok, pure_eq_ok, Except.ok.injEq, Prod.mk.injEq] at hrun
      rw [← hrun.2]
      rw [hT, hO] at h2 h3
      rw [hP] at h3 h4
      exact ⟨_, _, h2, h3, h4⟩
  · intro hI
    obtain ⟨rule1, hrw, -, -, -⟩ := Rule.RewriteLabel_eq order rule (buildLabels ts.Labels) hI
    rw [hrw]
    simp only [bind_ok]
    obtain ⟨st2, h1, -⟩ := SerializeToEasyOps.samples_selected s eoc.DefaultORG rule1
      ((mapGet (buildLabels ts.Labels) "__name__").getD "")
      (deleteLabels rule1.DeleteLabels (order.foldl rule.step (buildLabels ts.Labels)))
      ts.Samples st
    rw [h1]
    exact ⟨_, _, rfl⟩

/-- C16, on the rule `deleteRule` (org 0, token `tok`, topic `T`) in a rule set
with the default org 7: the record has the key `tok` and the org 7 and its
payload is the bucket `T`; and on `orgRule` (org 42, token `key`, topic `O`)
the three records have the org 42 and the three payloads are in `O`. -/
theorem SerializeToEasyOps.timeseries_envelope_example :
    (∃ eoc1 st1 dims name,
      SerializeToEasyOps.timeseries failingSerializer ["__name__", "node", "job"]
        deleteConfig {} nodeSeries = Except.ok (eoc1, st1) ∧
      st1.marshalled = [] ++ nodeSeries.Samples.map (fun sample =>
        Record.easyops "tok" 7 dims name sample.Value sample.Timestamp) ∧
      (mapGet st1.result "T").getD [] =
        [] ++ nodeSeries.Samples.map (fun sample =>
          (failingSerializer.Marshal (Record.easyops "tok" 7 dims
            name sample.Value sample.Timestamp)).1)) ∧
    (SerializeToEasyOps.timeseries failingSerializer ["__name__", "node", "job"]
        deleteConfig {} nodeSeries).toOption.map (fun p => (p.2.marshalled, p.2.result))
      = some ([Record.easyops "tok" 7
          [("__name__", "up"), ("node", "10.10.89.61:8080"), ("ip", "10.10.89.61")]
          "up" 1 1000], [("T", [[1]])]) ∧
    (SerializeToEasyOps failingSerializer (fun _ => ["__name__"]) orgConfig {}
        threeSamples).toOption.map (fun p => (p.2.marshalled, p.2.result))
      = some ([Record.easyops "key" 42 [("__name__", "up")] "up" 1 1000,
          Record.easyops "key" 42 [("__name__", "up")] "up" 2 2000,
          Record.easyops "key" 42 [("__name__", "up")] "up" 3 3000],
        [("O", [[1], [], [1]])]) := by
  have h := SerializeToEasyOps.timeseries_envelope failingSerializer
    ["__name__", "node", "job"] deleteConfig {} nodeSeries 0
    (deleteRule.Init exampleCompile).1 rfl
  obtain ⟨eoc1, st1, hrun⟩ := h.2 deleteRule_Initialised
  obtain ⟨dims, name, h1, h2, -⟩ := h.1 eoc1 st1 hrun
  exact ⟨⟨eoc1, st1, dims, name, hrun, h1, h2⟩, by decide, by decide⟩

/-! ## Rewriters that share a name -/

theorem lastNamed_cons (k : String) (rw : KafkaAdapter.LabelRewriter)
    (rest : List KafkaAdapter.LabelRewriter) :
    lastNamed k (rw :: rest) =
      match lastNamed k rest with
      | some x => some x
      | none => if rw.Name = k then some rw else none := rfl

theorem lastNamed_eq_none_iff (k : String) : ∀ ls : List KafkaAdapter.LabelRewriter,
    lastNamed k ls = none ↔ ∀ x, x ∈ ls → x.Name ≠ k := by
  intro ls
  induction ls with
  | nil => simp [lastNamed]
  | cons rw rest ih =>
    rw [lastNamed_cons]
    cases h : lastNamed k rest with
    | some x =>
      have hne : ¬ ∀ y, y ∈ rest → y.Name ≠ k := fun hall => by
        have h2 := ih.mpr hall
        rw [h] at h2
        cases h2
      constructor
      · intro hh
        cases hh
      · intro hall
        exact absurd (fun y hy => hall y (List.mem_cons_of_mem _ hy)) hne
    | none =>
      have hall := ih.mp h
      by_cases hk : rw.Name = k
      · simp only [hk, if_true]
        constructor
        · intro hh
          cases hh
        · intro h2
          exact absurd hk (h2 rw (List.mem_cons_self _ _))
      · simp only [hk, if_false, true_iff]
        intro y hy
        rcases List.mem_cons.mp hy with rfl | hy
        · exact hk
        · exact hall y hy

theorem mem_dropEarlierSameName : ∀ (ls : List KafkaAdapter.LabelRewriter)
    (x : KafkaAdapter.LabelRewriter), x ∈ dropEarlierSameName ls → x ∈ ls := by
  intro ls
  induction ls with
  | nil => intro x hx; exact hx
  | cons rw rest ih =>
    intro x hx
    unfold dropEarlierSameName at hx
    split at hx
    · exact List.mem_cons_of_mem _ (ih x hx)
    · rcases List.mem_cons.mp hx with rfl | hx
      · exact List.mem_cons_self _ _
      · exact List.mem_cons_of_mem _ (ih x hx)

/-- Removing the rewriters that have a later one of the same name keeps, for
every name, the last rewriter of that name. -/
theorem lastNamed_dropEarlierSameName (k : String) :
    ∀ ls : List KafkaAdapter.LabelRewriter,
      lastNamed k (dropEarlierSameName ls) = lastNamed k ls := by
  intro ls
  induction ls with
  | nil => rfl
  | cons rw rest ih =>
    unfold dropEarlierSameName
    by_cases hany : rest.any (fun x => decide (x.Name = rw.Name)) = true
    · simp only [hany, if_true]
      rw [ih, lastNamed_cons]
      cases h : lastNamed k rest with
      | some x => rfl
      | none =>
        obtain ⟨y, hy, hyn⟩ := List.any_eq_true.mp hany
        have hyk := (lastNamed_eq_none_iff k rest).mp h y hy
        have hrk : ¬ rw.Name = k := fun e => hyk ((of_decide_eq_true hyn).trans e)
        simp only [hrk, if_false]
    · simp only [hany, Bool.false_eq_true, if_false]
      rw [lastNamed_cons, lastNamed_cons, ih]

theorem Rule.Init.rewriters_cons_ok (compile : String → Except String Regexp)
    (l l1 : KafkaAdapter.LabelRewriter) (rest : List KafkaAdapter.LabelRewriter) (idx : Nat)
    (m : GoMap KafkaAdapter.LabelRewriter) (hi : l.Init compile = (l1, none)) :
    (Rule.Init.rewriters compile idx (l :: rest) m).2 =
      (Rule.Init.rewriters compile (idx + 1) rest (mapSet m l1.Name l1)).2 := by
  simp only [Rule.Init.rewriters, hi]

theorem Rule.Init.rewriters_cons_error (compile : String → Except String Regexp)
    (l l1 : KafkaAdapter.LabelRewriter) (rest : List KafkaAdapter.LabelRewriter) (idx : Nat)
    (m : GoMap KafkaAdapter.LabelRewriter) (err : String)
    (hi : l.Init compile = (l1, some err)) :
    (Rule.Init.rewriters compile idx (l :: rest) m).2.2 =
      some (InitError.rewriter idx l.Name err) := by
  simp only [Rule.Init.rewriters, hi]

/-- The first loop of `Init` returns no error exactly when every rewriter
compiles. -/
theorem Rule.Init.rewriters_none_iff (compile : String → Except String Regexp) :
    ∀ (ls : List KafkaAdapter.LabelRewriter) (idx : Nat) (m : GoMap KafkaAdapter.LabelRewriter),
      (Rule.Init.rewriters compile idx ls m).2.2 = none ↔
        ∀ rw, rw ∈ ls → (rw.Init compile).2 = none := by
  intro ls
  induction ls with
  | nil => intro idx m; simp [Rule.Init.rewriters]
  | cons l rest ih =>
    intro idx m
    rcases hi : l.Init compile with ⟨l1, _ | err⟩
    · rw [Rule.Init.rewriters_cons_ok compile l l1 rest idx m hi, ih]
      constructor
      · intro h rw hrw
        rcases List.mem_cons.mp hrw with rfl | hrw
        · rw [hi]
        · exact h rw hrw
      · exact fun h rw hrw => h rw (List.mem_cons_of_mem _ hrw)
    · rw [Rule.Init.rewriters_cons_error compile l l1 rest idx m err hi]
      constructor
      · intro h
        cases h
      · intro h
        have h2 := h l (List.mem_cons_self _ _)
        rw [hi] at h2
        cases h2

/-- When the first loop of `Init` returns no error, the rewriter registered
under a name is the last rewriter of the list with that name, initialised;
a name no rewriter has keeps its earlier entry. -/
theorem Rule.Init.rewriters_lookup (compile : String → Except String Regexp) :
    ∀ (ls : List KafkaAdapter.LabelRewriter) (idx : Nat) (m : GoMap KafkaAdapter.LabelRewriter),
      (Rule.Init.rewriters compile idx ls m).2.2 = none →
      ∀ k, mapGet (Rule.Init.rewriters compile idx ls m).2.1 k =
        match lastNamed k ls with
        | some rw => some (rw.Init compile).1
        | none => mapGet m k := by
  intro ls
  induction ls with
  | nil => intro idx m _ k; rfl
  | cons l rest ih =>
    intro idx m herr k
    rcases hi : l.Init compile with ⟨l1, _ | err⟩
    · rw [Rule.Init.rewriters_cons_ok compile l l1 rest idx m hi] at herr ⊢
      rw [ih (idx + 1) _ herr k, lastNamed_cons]
      obtain ⟨re, -, hl1⟩ := LabelRewriter.Init_none compile l l1 hi
      have hname : l1.Name = l.Name := by rw [hl1]
      cases h : lastNamed k rest with
      | some x => rfl
      | none =>
        simp only []
        rw [mapGet_mapSet, hname]
        by_cases hk : l.Name = k
        · simp only [hk, if_true, hi]
        · have hk2 : ¬ k = l.Name := fun e => hk e.symm
          simp only [hk, hk2, if_false]
    · rw [Rule.Init.rewriters_cons_error compile l l1 rest idx m err hi] at herr
      cases herr

theorem Rule.Init_labelRewriter (compile : String → Except String Regexp) (r : Rule) :
    (r.Init compile).1.labelRewriter =
      (Rule.Init.rewriters compile 0 r.LabelRewriter []).2.1 := by
  unfold Rule.Init
  rcases Rule.Init.rewriters compile 0 r.LabelRewriter [] with ⟨ls, m, _ | err⟩ <;> rfl

theorem Rule.Init_none_iff (compile : String → Except String Regexp) (r : Rule) :
    (r.Init compile).2 = none ↔
      (Rule.Init.rewriters compile 0 r.LabelRewriter []).2.2 = none ∧
      Rule.Init.selectors compile 0 r.Selectors = none := by
  unfold Rule.Init
  rcases Rule.Init.rewriters compile 0 r.LabelRewriter [] with ⟨ls, m, _ | err⟩
  · simp
  · simp

theorem Rule.step_of_lookup_eq (r r0 : Rule)
    (h : ∀ k, mapGet r.labelRewriter k = mapGet r0.labelRewriter k) :
    r.step = r0.step := by
  funext labels key
  unfold Rule.step
  rw [h key]

/-- C15: when `Init` has returned no error on a rule decoded from the
configuration, the rewriter registered under a name is the last rewriter of
the list with that name; `Init` returns no error either on the rule with
every earlier same-named rewriter removed, and `RewriteLabel` returns on both
rules with the same label set, for every label set and order of iteration. -/
theorem Rule.RewriteLabel_last_same_name (compile : String → Except String Regexp)
    (r : Rule) (order : List String) (labels : GoMap String)
    (hco : ∀ rw, rw ∈ r.LabelRewriter → ∀ l, l ∈ rw.Labels → l.Coherent)
    (herr : (r.Init compile).2 = none) :
    (∀ k, mapGet (r.Init compile).1.labelRewriter k =
      (lastNamed k r.LabelRewriter).map (fun rw => (rw.Init compile).1)) ∧
    (Rule.Init compile
      { r with LabelRewriter := dropEarlierSameName r.LabelRewriter }).2 = none ∧
    ∃ r1 r2 out,
      (r.Init compile).1.RewriteLabel order labels = Except.ok (r1, out) ∧
      (Rule.Init compile
        { r with LabelRewriter := dropEarlierSameName r.LabelRewriter }).1.RewriteLabel
          order labels = Except.ok (r2, out) := by
  obtain ⟨hrwn, hsel⟩ := (Rule.Init_none_iff compile r).mp herr
  have hsub : ∀ rw, rw ∈ dropEarlierSameName r.LabelRewriter → rw ∈ r.LabelRewriter :=
    mem_dropEarlierSameName r.LabelRewriter
  have hrwn2 : (Rule.Init.rewriters compile 0 (dropEarlierSameName r.LabelRewriter) []).2.2
      = none :=
    (Rule.Init.rewriters_none_iff compile _ 0 []).mpr
      (fun rw hrw => (Rule.Init.rewriters_none_iff compile _ 0 []).mp hrwn rw (hsub rw hrw))
  have herr2 : (Rule.Init compile
      { r with LabelRewriter := dropEarlierSameName r.LabelRewriter }).2 = none :=
    (Rule.Init_none_iff compile _).mpr ⟨hrwn2, hsel⟩
  have hlook : ∀ k, mapGet (r.Init compile).1.labelRewriter k =
      (lastNamed k r.LabelRewriter).map (fun rw => (rw.Init compile).1) := by
    intro k
    rw [Rule.Init_labelRewriter, Rule.Init.rewriters_lookup compile _ 0 [] hrwn k]
    cases lastNamed k r.LabelRewriter <;> rfl
  have hlook2 : ∀ k, mapGet (Rule.Init compile
        { r with LabelRewriter := dropEarlierSameName r.LabelRewriter }).1.labelRewriter k =
      (lastNamed k r.LabelRewriter).map (fun rw => (rw.Init compile).1) := by
    intro k
    rw [Rule.Init_labelRewriter, Rule.Init.rewriters_lookup compile _ 0 [] hrwn2 k,
      lastNamed_dropEarlierSameName]
    cases lastNamed k r.LabelRewriter <;> rfl
  have hI := Rule.Init_Initialised compile r hco herr
  have hI2 := Rule.Init_Initialised compile
    { r with LabelRewriter := dropEarlierSameName r.LabelRewriter }
    (fun rw hrw => hco rw (hsub rw hrw)) herr2
  obtain ⟨r1, e1, -⟩ := Rule.RewriteLabel_eq order _ labels hI
  obtain ⟨r2, e2, -⟩ := Rule.RewriteLabel_eq order _ labels hI2
  have hstep := Rule.step_of_lookup_eq (r.Init compile).1
    (Rule.Init compile { r with LabelRewriter := dropEarlierSameName r.LabelRewriter }).1
    (fun k => (hlook k).trans (hlook2 k).symm)
  refine ⟨hlook, herr2, r1, r2, _, e1, ?_⟩
  rw [hstep]
  exact e2

/-- C15, on `duplicateRule`, whose two rewriters are named `node`: only the
second one, with the outputs `ip` and `port`, is applied; the first one
(output `host`, overwriting) leaves no trace, and the rule without it gives
the same label set. -/
theorem Rule.RewriteLabel_last_same_name_example :
    (dropEarlierSameName duplicateRule.LabelRewriter).map (fun rw => rw.Regex)
      = ["(?P<ip>.*?):(?P<port>.*)"] ∧
    (∃ r1 r2 out,
      (duplicateRule.Init exampleCompile).1.RewriteLabel ["node", "job"]
        [("node", "10.10.89.61:8080"), ("job", "x")] = Except.ok (r1, out) ∧
      (Rule.Init exampleCompile
        { duplicateRule with
          LabelRewriter := dropEarlierSameName duplicateRule.LabelRewriter }).1.RewriteLabel
          ["node", "job"] [("node", "10.10.89.61:8080"), ("job", "x")]
        = Except.ok (r2, out)) ∧
    ((duplicateRule.Init exampleCompile).1.RewriteLabel ["node", "job"]
        [("node", "10.10.89.61:8080"), ("job", "x")]).toOption.map Prod.snd
      = some [("node", "10.10.89.61:8080"), ("job", "x"), ("ip", "10.10.89.61"),
          ("port", "8080")] :=
  ⟨by decide,
   (Rule.RewriteLabel_last_same_name exampleCompile duplicateRule ["node", "job"]
      [("node", "10.10.89.61:8080"), ("job", "x")]
      (fun rw hrw l hl => by
        simp only [duplicateRule, List.mem_cons, List.mem_singleton, List.not_mem_nil,
          or_false] at hrw
        rcases hrw with rfl | rfl
        · simp only [List.mem_singleton] at hl
          subst hl
          exact ⟨fun h => (by cases h), fun h => (by cases h)⟩
        · exact testRewriter_Coherent l hl)
      rfl).2.2,
   by decide⟩

end KafkaAdapter
